import Mathlib

/-!
# Verification of the joedb columnar log store

A shallow embedding, in Lean 4, of the joedb Python package
(`joedb/joedb.py` and `joedb/clp.py`): a columnar store for
semi-structured log records with a CLP-style pattern extractor, a
per-column radix trie dictionary, RLE/delta column coding and a binary
container format.  Strings are embedded as `List Char` (`Str`), Python
dicts as insertion-ordered association lists, bytes as `Nat` (0..255).
External collaborators (the Zstandard codec, the HyperLogLog sketch,
`datetime`) are modelled where noted; everything else is translated
directly from the source.
-/

set_option maxRecDepth 10000

namespace Joedb

/-- Python strings are embedded as lists of characters. -/
abbrev Str := List Char

/-- Python `dict` assignment `d[k] = v`: update in place when the key is
present (keeping its position), otherwise append at the end. -/
def dictSet {κ α : Type} [DecidableEq κ] : List (κ × α) → κ → α → List (κ × α)
  | [], k, v => [(k, v)]
  | (k', v') :: t, k, v => if k' = k then (k, v) :: t else (k', v') :: dictSet t k v

/-- Python `del d[k]`: remove the (unique) entry with key `k`. -/
def eraseKey {κ α : Type} [DecidableEq κ] : List (κ × α) → κ → List (κ × α)
  | [], _ => []
  | (k', v') :: t, k => if k' = k then t else (k', v') :: eraseKey t k

/-- Python `d.get(k)` / `d[k]`. -/
def dictGet {κ α : Type} [DecidableEq κ] : List (κ × α) → κ → Option α
  | [], _ => none
  | (k', v') :: t, k => if k' = k then some v' else dictGet t k

/-- Python `k in d`. -/
def dictHas {κ α : Type} [DecidableEq κ] (l : List (κ × α)) (k : κ) : Bool :=
  (dictGet l k).isSome

/-- Keys of an association list, in order. -/
def dictKeys {κ α : Type} (l : List (κ × α)) : List κ := l.map Prod.fst

/-! ## The compressed trie (`joedb.py`, classes `TrieNode` / `Trie`) -/

/-- `TrieNode`: insertion-ordered children map plus an optional index. -/
inductive TrieNode where
  | mk (children : List (Str × TrieNode)) (index : Option Nat)

/-- The `children` dict of a node. -/
def TrieNode.children : TrieNode → List (Str × TrieNode)
  | .mk c _ => c

/-- The optional `index` of a node. -/
def TrieNode.index : TrieNode → Option Nat
  | .mk _ i => i

/-- `Trie`: root node plus the monotone index counter (starts at 1; 0 is
reserved for "no value"). -/
structure Trie where
  root : TrieNode
  current_index : Nat

/-- A fresh `Trie()`. -/
def Trie.new : Trie := ⟨.mk [] none, 1⟩

/-- `Trie._common_prefix_length`: length of the common prefix of two
strings. -/
def commonPrefixLength : Str → Str → Nat
  | c1 :: t1, c2 :: t2 => if c1 = c2 then commonPrefixLength t1 t2 + 1 else 0
  | _, _ => 0

mutual
/-- Node size (number of nodes), used as a termination measure. -/
def nodeSize : TrieNode → Nat
  | .mk children _ => 1 + childrenSize children
/-- Total size of a children list (counting one per edge plus subtree sizes). -/
def childrenSize : List (Str × TrieNode) → Nat
  | [] => 0
  | (_, c) :: t => 1 + nodeSize c + childrenSize t
end

theorem nodeSize_eq (n : TrieNode) : nodeSize n = 1 + childrenSize n.children := by
  cases n; rfl

/-- Result of scanning the children dict for the first child whose edge
label fully matches a prefix of the word (the walk step of
`Trie.insert`, lines 25-33). -/
inductive ScanRes where
  | descended (children : List (Str × TrieNode)) (res : Option Nat) (ctr : Nat)
  | noMatch

/-- First child with a nonzero common prefix with `w`
(`Trie.insert`, lines 40-42). -/
def findSplitChild : List (Str × TrieNode) → Str → Option (Str × TrieNode)
  | [], _ => none
  | (k, c) :: t, w => if 0 < commonPrefixLength w k then some (k, c) else findSplitChild t w

mutual
/-- `Trie.insert` on a node: walk consuming the longest matching edge,
then exact hit / edge split / new leaf, exactly as in the source
(`joedb.py` lines 21-74).  Returns the updated node, the returned index
(`None` is possible on an exact hit at an unindexed node) and the new
value of the monotone counter. -/
def insertNode (node : TrieNode) (w : Str) (ctr : Nat) : TrieNode × Option Nat × Nat :=
  match node with
  | .mk children idx =>
    if w = [] then (.mk children idx, idx, ctr)
    else
      match insertScan children w ctr with
      | .descended children' res ctr' => (.mk children' idx, res, ctr')
      | .noMatch =>
        match findSplitChild children w with
        | some (k, c) =>
          let cl := commonPrefixLength w k
          let rk := k.drop cl
          let rw := w.drop cl
          let base := eraseKey children k
          if rw = [] then
            -- split point itself is the word: index `ctr` is assigned then
            -- immediately overwritten by `ctr+1` (lines 50 and 66)
            let newNode := TrieNode.mk [(rk, c)] (some (ctr + 1))
            (.mk (dictSet base (w.take cl) newNode) idx, some (ctr + 1), ctr + 2)
          else
            let leaf := TrieNode.mk [] (some (ctr + 1))
            let newNode := TrieNode.mk (dictSet [(rk, c)] rw leaf) (some ctr)
            (.mk (dictSet base (w.take cl) newNode) idx, some (ctr + 1), ctr + 2)
        | none =>
          let leaf := TrieNode.mk [] (some ctr)
          (.mk (dictSet children w leaf) idx, some ctr, ctr + 1)

/-- The walk over a children dict: first child whose label is a full
prefix of `w` is descended into. -/
def insertScan (children : List (Str × TrieNode)) (w : Str) (ctr : Nat) : ScanRes :=
  match children with
  | [] => .noMatch
  | (k, c) :: rest =>
    if w.take k.length = k then
      let r := insertNode c (w.drop k.length) ctr
      .descended ((k, r.1) :: rest) r.2.1 r.2.2
    else
      match insertScan rest w ctr with
      | .descended rest' res ctr' => .descended ((k, c) :: rest') res ctr'
      | .noMatch => .noMatch
end

/-- `Trie.insert(word)`: returns the updated trie and the returned index. -/
def Trie.insert (t : Trie) (w : Str) : Trie × Option Nat :=
  let r := insertNode t.root w t.current_index
  (⟨r.1, r.2.2⟩, r.2.1)

mutual
/-- `Trie.rename_indices`'s inner `dfs`: renames the index of the node (if
any) to the running counter, records `old → new` in the rename map, then
recurses over the children in order (`joedb.py` lines 84-99). -/
def renameNode : TrieNode → Nat → List (Nat × Nat) → TrieNode × Nat × List (Nat × Nat)
  | .mk children idx, ctr, m =>
    match idx with
    | some old =>
      let r := renameChildren children (ctr + 1) (dictSet m old ctr)
      (.mk r.1 (some ctr), r.2.1, r.2.2)
    | none =>
      let r := renameChildren children ctr m
      (.mk r.1 none, r.2.1, r.2.2)
/-- `dfs` folded over a children dict, threading counter and rename map. -/
def renameChildren : List (Str × TrieNode) → Nat → List (Nat × Nat) → List (Str × TrieNode) × Nat × List (Nat × Nat)
  | [], ctr, m => ([], ctr, m)
  | (k, c) :: rest, ctr, m =>
    let r := renameNode c ctr m
    let r' := renameChildren rest r.2.1 r.2.2
    ((k, r.1) :: r'.1, r'.2.1, r'.2.2)
end

/-- `Trie.rename_indices()`: resets the counter to 1, renames depth-first,
returns the rename map (the trie keeps the final counter value). -/
def Trie.rename_indices (t : Trie) : Trie × List (Nat × Nat) :=
  let r := renameNode t.root 1 []
  (⟨r.1, r.2.1⟩, r.2.2)

/-- `child.index not in used_nodes` for `used_nodes` a list of integers:
a `None` index is never in the list. -/
def protMem (used : List Nat) : Option Nat → Bool
  | none => false
  | some i => used.contains i

/-- The `while` loop of `merge_single_children.dfs` (lines 109-115): as
long as the current child has exactly one child and its index is not
protected, splice the grandchild into the parent dict under the
concatenated key (`d[key+gk] = grandchild; del d[key]`) and continue
from the grandchild. Returns the updated dict and the final key/child. -/
def collapseStep (used : List Nat) (acc : List (Str × TrieNode)) (k : Str) (c : TrieNode) :
    List (Str × TrieNode) × Str × TrieNode :=
  match c with
  | .mk [(gk, gc)] idx =>
    if protMem used idx then (acc, k, .mk [(gk, gc)] idx)
    else collapseStep used (eraseKey (dictSet acc (k ++ gk) gc) k) (k ++ gk) gc
  | other => (acc, k, other)

/-- The final child returned by `collapseStep` is a descendant: its size
never grows. -/
theorem collapseStep_size (used : List Nat) (acc : List (Str × TrieNode)) (k : Str)
    (c : TrieNode) : nodeSize (collapseStep used acc k c).2.2 ≤ nodeSize c := by
  induction acc, k, c using collapseStep.induct used with
  | case1 acc k gk gc idx hp =>
      simp [collapseStep, hp]
  | case2 acc k gk gc idx hp ih =>
      simp only [collapseStep, hp, if_false]
      refine le_trans ih ?_
      simp only [nodeSize, childrenSize]
      omega
  | case3 acc k other h =>
      rw [collapseStep.eq_def]
      rcases other with ⟨children, idx⟩
      rcases children with _ | ⟨⟨gk, gc⟩, rest⟩
      · simp
      · rcases rest with _ | ⟨q, rest'⟩
        · exact absurd rfl (h gk gc idx)
        · simp

mutual
/-- `merge_single_children.dfs` on a node: iterate over a snapshot of the
children, collapsing single-child chains and recursing (lines 106-117). -/
def mergeDfs (used : List Nat) (node : TrieNode) : TrieNode :=
  match node with
  | .mk children idx => .mk (mergeLoop used children children) idx
termination_by nodeSize node
decreasing_by
  simp only [nodeSize]; omega
/-- The `for key, child in list(node.children.items())` loop: `snapshot`
is the iteration snapshot, `acc` the live dict being mutated. -/
def mergeLoop (used : List Nat) (snapshot acc : List (Str × TrieNode)) : List (Str × TrieNode) :=
  match snapshot with
  | [] => acc
  | (k, c) :: rest =>
    let r := collapseStep used acc k c
    mergeLoop used rest (dictSet r.1 r.2.1 (mergeDfs used r.2.2))
termination_by childrenSize snapshot
decreasing_by
  all_goals simp only [childrenSize]
  · rename_i fk
    have := collapseStep_size used acc fk c
    omega
  · omega
end

/-- Fuel-indexed version of `collapseStep`, definitionally computable by
the kernel; `collapseStepF_eq` shows any fuel of at least `nodeSize c`
yields the well-founded version. -/
def collapseStepF : Nat → List Nat → List (Str × TrieNode) → Str → TrieNode →
    List (Str × TrieNode) × Str × TrieNode
  | 0, _, acc, k, c => (acc, k, c)
  | fuel + 1, used, acc, k, c =>
    match c with
    | .mk [(gk, gc)] idx =>
      if protMem used idx then (acc, k, .mk [(gk, gc)] idx)
      else collapseStepF fuel used (eraseKey (dictSet acc (k ++ gk) gc) k) (k ++ gk) gc
    | other => (acc, k, other)

mutual
/-- Fuel-indexed version of `mergeDfs` (see `mergeDfsF_eq`). -/
def mergeDfsF : Nat → List Nat → TrieNode → TrieNode
  | 0, _, node => node
  | fuel + 1, used, .mk children idx => .mk (mergeLoopF fuel used children children) idx
/-- Fuel-indexed version of `mergeLoop` (see `mergeLoopF_eq`). -/
def mergeLoopF : Nat → List Nat → List (Str × TrieNode) → List (Str × TrieNode) →
    List (Str × TrieNode)
  | _, _, [], acc => acc
  | 0, _, _ :: _, acc => acc
  | fuel + 1, used, (k, c) :: rest, acc =>
    let r := collapseStepF (fuel + 1) used acc k c
    mergeLoopF fuel used rest (dictSet r.1 r.2.1 (mergeDfsF fuel used r.2.2))
end

theorem collapseStepF_eq (used : List Nat) :
    ∀ (fuel : Nat) (acc : List (Str × TrieNode)) (k : Str) (c : TrieNode),
      nodeSize c ≤ fuel → collapseStepF fuel used acc k c = collapseStep used acc k c := by
  intro fuel
  induction fuel with
  | zero =>
      intro acc k c h
      rcases c with ⟨children, idx⟩
      simp [nodeSize] at h
  | succ fuel ih =>
      intro acc k c h
      rcases c with ⟨children, idx⟩
      rcases children with _ | ⟨⟨gk, gc⟩, rest⟩
      · rw [collapseStepF, collapseStep.eq_def]
        simp
      · rcases rest with _ | ⟨q, rest'⟩
        · rw [collapseStepF]
          rw [collapseStep.eq_def]
          dsimp only
          split
          · rfl
          · refine ih _ _ _ ?_
            simp only [nodeSize, childrenSize] at h ⊢
            omega
        · rw [collapseStepF, collapseStep.eq_def]
          simp

theorem mergeF_eq (used : List Nat) : ∀ fuel : Nat,
    (∀ n, nodeSize n ≤ fuel → mergeDfsF fuel used n = mergeDfs used n) ∧
    (∀ snap acc, childrenSize snap ≤ fuel → mergeLoopF fuel used snap acc = mergeLoop used snap acc) := by
  intro fuel
  induction fuel with
  | zero =>
      constructor
      · intro n h
        rcases n with ⟨children, idx⟩
        simp [nodeSize] at h
      · intro snap acc h
        rcases snap with _ | ⟨⟨k, c⟩, rest⟩
        · rw [mergeLoopF, mergeLoop]
        · simp [childrenSize, nodeSize] at h
  | succ fuel ih =>
      constructor
      · intro n h
        rcases n with ⟨children, idx⟩
        rw [mergeDfsF, mergeDfs]
        rw [ih.2 children children (by simp only [nodeSize] at h; omega)]
      · intro snap acc h
        rcases snap with _ | ⟨⟨k, c⟩, rest⟩
        · rw [mergeLoopF, mergeLoop]
        · simp only [childrenSize] at h
          rw [mergeLoopF, mergeLoop]
          have hc : nodeSize c ≤ fuel + 1 := by omega
          rw [collapseStepF_eq used (fuel + 1) acc k c hc]
          have hsz := collapseStep_size used acc k c
          rw [ih.1 _ (by omega)]
          rw [ih.2 rest _ (by omega)]

/-- `Trie.merge_single_children(used_nodes)`.  Uses the fuel-indexed
merge with fuel `nodeSize root`, which `mergeF_eq` proves equal to the
well-founded recursion. -/
def Trie.merge_single_children (t : Trie) (used : List Nat) : Trie :=
  ⟨mergeDfsF (nodeSize t.root) used t.root, t.current_index⟩

theorem merge_single_children_eq_dfs (t : Trie) (used : List Nat) :
    t.merge_single_children used = ⟨mergeDfs used t.root, t.current_index⟩ := by
  show (⟨mergeDfsF (nodeSize t.root) used t.root, t.current_index⟩ : Trie) = _
  rw [(mergeF_eq used (nodeSize t.root)).1 t.root le_rfl]

/-! ### Observations on tries -/

mutual
/-- All `(spelled string, index)` pairs at indexed nodes, in depth-first
order, with `px` the string spelled on the path so far. -/
def indexedPairs (n : TrieNode) (px : Str) : List (Str × Nat) :=
  match n with
  | .mk children idx =>
    (match idx with | some i => [(px, i)] | none => []) ++ indexedPairsChildren children px
/-- `indexedPairs` over a children dict. -/
def indexedPairsChildren : List (Str × TrieNode) → Str → List (Str × Nat)
  | [], _ => []
  | (k, c) :: t, px => indexedPairs c (px ++ k) ++ indexedPairsChildren t px
end

mutual
/-- The indices carried by indexed nodes, in depth-first visit order. -/
def indexList : TrieNode → List Nat
  | .mk children idx =>
    (match idx with | some i => [i] | none => []) ++ indexListChildren children
/-- `indexList` over a children dict. -/
def indexListChildren : List (Str × TrieNode) → List Nat
  | [] => []
  | (_, c) :: t => indexList c ++ indexListChildren t
end

/-- Number of indexed nodes. -/
def countIndexed (n : TrieNode) : Nat := (indexList n).length

/-- `dictSet` folded along a list of keys with consecutive values starting
at `ctr` (the shape in which `rename_indices` builds its rename map). -/
def chainSet : List (Nat × Nat) → List Nat → Nat → List (Nat × Nat)
  | m, [], _ => m
  | m, o :: os, ctr => chainSet (dictSet m o ctr) os (ctr + 1)

/-! ### Well-formedness of tries

The data-model invariants of §3 of the spec: edge labels are non-empty
and no two children of a node share a common non-empty prefix (radix
invariant; for non-empty labels this is exactly "pairwise distinct first
characters").  These hold for every trie the program builds. -/

/-- Pairwise: no two labels share a common non-empty prefix. -/
def pairwiseNoCommon : List Str → Bool
  | [] => true
  | k :: t => (t.all fun k2 => commonPrefixLength k k2 = 0) && pairwiseNoCommon t

/-- Labels of a children dict are non-empty and pairwise prefix-disjoint. -/
def labelsOK (ks : List Str) : Bool :=
  (ks.all fun k => !k.isEmpty) && pairwiseNoCommon ks

mutual
/-- Radix well-formedness of a whole trie node. -/
def wfNode : TrieNode → Bool
  | .mk children _ => labelsOK (children.map Prod.fst) && wfChildren children
/-- `wfNode` over a children dict. -/
def wfChildren : List (Str × TrieNode) → Bool
  | [] => true
  | (_, c) :: t => wfNode c && wfChildren t
end

/-! ### The root node never acquires an index -/

/-- `Trie.insert` never changes the index of the node it starts from:
every branch rebuilds the node with its original `index`. -/
theorem insertNode_root_index (n : TrieNode) (w : Str) (ctr : Nat) :
    (insertNode n w ctr).1.index = n.index := by
  cases n with
  | mk children idx =>
    rw [insertNode]
    split
    · rfl
    · split
      · rfl
      · split
        · dsimp only
          split <;> rfl
        · rfl

/-- `rename_indices` keeps an unindexed node unindexed. -/
theorem renameNode_none_index (children : List (Str × TrieNode)) (ctr : Nat)
    (m : List (Nat × Nat)) :
    (renameNode (.mk children none) ctr m).1.index = none := by
  rw [renameNode]; rfl

/-- `merge_single_children` keeps every node's own index. -/
theorem mergeDfs_index (used : List Nat) (n : TrieNode) :
    (mergeDfs used n).index = n.index := by
  cases n with
  | mk children idx => rw [mergeDfs]; rfl

/-- The trie states the program can reach: a fresh `Trie()` followed by
any sequence of `insert`, `merge_single_children` and `rename_indices`
calls. -/
inductive ReachedTrie : Trie → Prop where
  | base : ReachedTrie Trie.new
  | ins : ∀ t w, ReachedTrie t → ReachedTrie (t.insert w).1
  | merge : ∀ t used, ReachedTrie t → ReachedTrie (t.merge_single_children used)
  | ren : ∀ t, ReachedTrie t → ReachedTrie t.rename_indices.1

/-- On every reachable trie the root is unindexed. -/
theorem reached_root_none (t : Trie) (h : ReachedTrie t) : t.root.index = none := by
  induction h with
  | base => rfl
  | ins t w _ ih =>
      show (insertNode t.root w t.current_index).1.index = none
      rw [insertNode_root_index, ih]
  | merge t used _ ih =>
      rw [merge_single_children_eq_dfs]
      show (mergeDfs used t.root).index = none
      rw [mergeDfs_index, ih]
  | ren t _ ih =>
      show (renameNode t.root 1 []).1.index = none
      rcases hr : t.root with ⟨children, idx⟩
      rw [hr] at ih
      have hn : idx = none := ih
      subst hn
      exact renameNode_none_index children 1 []

/-- **C8.** Inserting the empty string returns the root's index — `None`
on every trie the program can build — and leaves the trie unchanged. -/
theorem C8_empty_insert :
    (∀ t : Trie, t.insert [] = (t, t.root.index)) ∧
    (∀ t : Trie, ReachedTrie t → t.insert [] = (t, none)) := by
  have h1 : ∀ t : Trie, t.insert [] = (t, t.root.index) := by
    intro t
    rcases t with ⟨root, ctr⟩
    rcases root with ⟨children, idx⟩
    rfl
  exact ⟨h1, fun t ht => by rw [h1 t, reached_root_none t ht]⟩

/-- Witness for C8 at a concrete reachable trie. -/
theorem C8_empty_insert_witness :
    (Trie.new.insert "ab".toList).1.insert [] = ((Trie.new.insert "ab".toList).1, none) :=
  C8_empty_insert.2 _ (.ins Trie.new "ab".toList .base)

/-! ### `rename_indices` (claim C7) -/

theorem mem_childrenSize {k : Str} {c : TrieNode} :
    ∀ {l : List (Str × TrieNode)}, (k, c) ∈ l → nodeSize c ≤ childrenSize l := by
  intro l hm
  induction l with
  | nil => cases hm
  | cons p t ih =>
      rcases p with ⟨k', c'⟩
      simp only [childrenSize]
      rcases List.mem_cons.1 hm with h | h
      · cases h; omega
      · have := ih h; omega

theorem range'_split (s a b : Nat) :
    List.range' s (a + b) = List.range' s a ++ List.range' (s + a) b := by
  induction a generalizing s with
  | zero => simp
  | succ a ih =>
      rw [show s + (a + 1) = (s + 1) + a by omega, show a + 1 + b = (a + b) + 1 by omega]
      rw [List.range'_succ, List.range'_succ, ih (s + 1), List.cons_append]

theorem chainSet_append (m : List (Nat × Nat)) (xs ys : List Nat) (ctr : Nat) :
    chainSet m (xs ++ ys) ctr = chainSet (chainSet m xs ctr) ys (ctr + xs.length) := by
  induction xs generalizing m ctr with
  | nil => simp [chainSet]
  | cons x xs ih =>
      simp only [List.cons_append, chainSet, List.length_cons]
      rw [show xs.append ys = xs ++ ys from rfl, ih]
      congr 1
      omega

/-- What `rename_indices`' dfs guarantees on a single node. -/
def renameNodeOK (n : TrieNode) : Prop :=
  ∀ ctr m,
    indexList (renameNode n ctr m).1 = List.range' ctr (indexList n).length ∧
    (renameNode n ctr m).2.1 = ctr + (indexList n).length ∧
    (renameNode n ctr m).2.2 = chainSet m (indexList n) ctr

/-- What `rename_indices`' dfs guarantees on a children dict. -/
def renameChildrenOK (l : List (Str × TrieNode)) : Prop :=
  ∀ ctr m,
    indexListChildren (renameChildren l ctr m).1 = List.range' ctr (indexListChildren l).length ∧
    (renameChildren l ctr m).2.1 = ctr + (indexListChildren l).length ∧
    (renameChildren l ctr m).2.2 = chainSet m (indexListChildren l) ctr

theorem renameChildren_ok (l : List (Str × TrieNode))
    (IH : ∀ p ∈ l, renameNodeOK p.2) : renameChildrenOK l := by
  induction l with
  | nil =>
      intro ctr m
      refine ⟨rfl, by simp [indexListChildren, renameChildren], rfl⟩
  | cons p t ih =>
      rcases p with ⟨k, c⟩
      have hc : renameNodeOK c := IH (k, c) (List.mem_cons_self _ _)
      have ht : renameChildrenOK t := ih fun q hq => IH q (List.mem_cons_of_mem _ hq)
      intro ctr m
      obtain ⟨hc1, hc2, hc3⟩ := hc ctr m
      simp only [renameChildren, indexListChildren]
      obtain ⟨ht1, ht2, ht3⟩ := ht (renameNode c ctr m).2.1 (renameNode c ctr m).2.2
      refine ⟨?_, ?_, ?_⟩
      · rw [ht1, hc1, hc2, List.length_append, range'_split]
      · rw [ht2, hc2, List.length_append]; omega
      · rw [ht3, hc3, hc2, chainSet_append]

theorem renameNode_ok : ∀ (sz : Nat) (n : TrieNode), nodeSize n ≤ sz → renameNodeOK n := by
  intro sz
  induction sz with
  | zero =>
      intro n h
      rcases n with ⟨children, idx⟩
      simp [nodeSize] at h
  | succ sz ih =>
      intro n hle
      rcases n with ⟨children, idx⟩
      have hch : ∀ p ∈ children, renameNodeOK p.2 := by
        intro p hp
        refine ih p.2 ?_
        have h1 : nodeSize p.2 ≤ childrenSize children := mem_childrenSize (k := p.1) (by
          rcases p with ⟨a, b⟩; exact hp)
        have h2 : nodeSize (TrieNode.mk children idx) = 1 + childrenSize children := rfl
        omega
      have hc := renameChildren_ok children hch
      intro ctr m
      cases idx with
      | some i =>
          obtain ⟨h1, h2, h3⟩ := hc (ctr + 1) (dictSet m i ctr)
          simp only [renameNode, indexList]
          refine ⟨?_, ?_, ?_⟩
          · rw [h1]
            simp only [List.singleton_append, List.length_cons]
            rw [List.range'_succ]
          · rw [h2]; simp only [List.singleton_append, List.length_cons]; omega
          · rw [h3]; rfl
      | none =>
          obtain ⟨h1, h2, h3⟩ := hc ctr m
          simp only [renameNode, indexList]
          exact ⟨h1, by rw [h2]; rfl, h3⟩

theorem dictSet_append_of_notMem {κ α : Type} [DecidableEq κ] {l : List (κ × α)} {k : κ}
    (v : α) (h : k ∉ l.map Prod.fst) : dictSet l k v = l ++ [(k, v)] := by
  induction l with
  | nil => rfl
  | cons p t ih =>
      rcases p with ⟨k', v'⟩
      simp only [List.map_cons, List.mem_cons] at h
      push_neg at h
      simp only [dictSet, if_neg (Ne.symm h.1), List.cons_append, ih h.2]

theorem chainSet_zip (olds : List Nat) :
    ∀ (m : List (Nat × Nat)) (ctr : Nat), olds.Nodup →
      (∀ x ∈ olds, x ∉ m.map Prod.fst) →
      chainSet m olds ctr = m ++ olds.zip (List.range' ctr olds.length) := by
  induction olds with
  | nil => intro m ctr _ _; simp [chainSet]
  | cons o os ih =>
      intro m ctr hnd hdisj
      obtain ⟨ho, hos⟩ := List.nodup_cons.1 hnd
      simp only [chainSet]
      rw [dictSet_append_of_notMem ctr (hdisj o (List.mem_cons_self _ _))]
      rw [ih (m ++ [(o, ctr)]) (ctr + 1) hos ?_]
      · simp only [List.length_cons, List.range'_succ, List.zip_cons_cons, List.append_assoc,
          List.singleton_append]
      · intro x hx
        simp only [List.map_append, List.map_cons, List.map_nil, List.mem_append,
          List.mem_singleton]
        push_neg
        exact ⟨hdisj x (List.mem_cons_of_mem _ hx), fun he => ho (he ▸ hx)⟩

/-- **C7.** After `rename_indices` the indices carried by indexed nodes,
read in depth-first visit order, are exactly `1, 2, …, K` for `K` the
number of indexed nodes, and the returned map sends each old index to
its new index (pairing the old depth-first index sequence with `1..K`).
Stated for tries whose indices are distinct (a data-model invariant,
§3). -/
theorem C7_rename_indices (t : Trie) (hnd : (indexList t.root).Nodup) :
    indexList t.rename_indices.1.root = List.range' 1 (countIndexed t.root) ∧
    t.rename_indices.2 = (indexList t.root).zip (List.range' 1 (countIndexed t.root)) := by
  have hok := renameNode_ok (nodeSize t.root) t.root le_rfl
  obtain ⟨h1, _, h3⟩ := hok 1 []
  constructor
  · exact h1
  · show (renameNode t.root 1 []).2.2 = _
    rw [h3, chainSet_zip (indexList t.root) [] 1 hnd (by simp)]
    rfl

/-- Witness for C7 on the trie built by inserting `ab` then `ad`. -/
theorem C7_rename_indices_witness :
    indexList (((Trie.new.insert "ab".toList).1.insert "ad".toList).1).rename_indices.1.root =
      List.range' 1 (countIndexed (((Trie.new.insert "ab".toList).1.insert "ad".toList).1).root) ∧
    (((Trie.new.insert "ab".toList).1.insert "ad".toList).1).rename_indices.2 =
      (indexList (((Trie.new.insert "ab".toList).1.insert "ad".toList).1).root).zip
        (List.range' 1 (countIndexed (((Trie.new.insert "ab".toList).1.insert "ad".toList).1).root)) :=
  C7_rename_indices _ (by decide)

/-! ### Dict / prefix lemmas -/

theorem mem_dictSet_of_ne {κ α : Type} [DecidableEq κ] {l : List (κ × α)} {p : κ × α}
    (hm : p ∈ l) {k : κ} (hne : p.1 ≠ k) (v : α) : p ∈ dictSet l k v := by
  induction l with
  | nil => cases hm
  | cons q t ih =>
      rcases q with ⟨k', v'⟩
      simp only [dictSet]
      rcases List.mem_cons.1 hm with h | h
      · subst h
        rw [if_neg (by simpa using hne)]
        exact List.mem_cons_self _ _
      · split
        · exact List.mem_cons_of_mem _ h
        · exact List.mem_cons_of_mem _ (ih h)

theorem mem_eraseKey_of_ne {κ α : Type} [DecidableEq κ] {l : List (κ × α)} {p : κ × α}
    (hm : p ∈ l) {k : κ} (hne : p.1 ≠ k) : p ∈ eraseKey l k := by
  induction l with
  | nil => cases hm
  | cons q t ih =>
      rcases q with ⟨k', v'⟩
      simp only [eraseKey]
      rcases List.mem_cons.1 hm with h | h
      · subst h
        rw [if_neg (by simpa using hne)]
        exact List.mem_cons_self _ _
      · split
        · exact h
        · exact List.mem_cons_of_mem _ (ih h)

theorem mem_of_mem_eraseKey {κ α : Type} [DecidableEq κ] {l : List (κ × α)} {p : κ × α}
    {k : κ} (hm : p ∈ eraseKey l k) : p ∈ l := by
  induction l with
  | nil => cases hm
  | cons q t ih =>
      rcases q with ⟨k', v'⟩
      simp only [eraseKey] at hm
      split at hm
      · exact List.mem_cons_of_mem _ hm
      · rcases List.mem_cons.1 hm with h | h
        · exact h ▸ List.mem_cons_self _ _
        · exact List.mem_cons_of_mem _ (ih h)

theorem mem_dictSet_cases {κ α : Type} [DecidableEq κ] {l : List (κ × α)} {p : κ × α}
    {k : κ} {v : α} (hm : p ∈ dictSet l k v) : p ∈ l ∨ p = (k, v) := by
  induction l with
  | nil => simpa [dictSet] using hm
  | cons q t ih =>
      rcases q with ⟨k', v'⟩
      simp only [dictSet] at hm
      split at hm
      · rcases List.mem_cons.1 hm with h | h
        · exact Or.inr h
        · exact Or.inl (List.mem_cons_of_mem _ h)
      · rcases List.mem_cons.1 hm with h | h
        · exact Or.inl (h ▸ List.mem_cons_self _ _)
        · rcases ih h with h' | h'
          · exact Or.inl (List.mem_cons_of_mem _ h')
          · exact Or.inr h'

theorem eraseKey_sublist {κ α : Type} [DecidableEq κ] (l : List (κ × α)) (k : κ) :
    (eraseKey l k).Sublist l := by
  induction l with
  | nil => simp [eraseKey]
  | cons q t ih =>
      rcases q with ⟨k', v'⟩
      simp only [eraseKey]
      split
      · exact (List.sublist_cons_self _ _)
      · exact ih.cons₂ _

theorem commonPrefixLength_symm (s t : Str) :
    commonPrefixLength s t = commonPrefixLength t s := by
  induction s generalizing t with
  | nil => cases t <;> rfl
  | cons a s ih =>
      cases t with
      | nil => rfl
      | cons b t =>
          simp only [commonPrefixLength]
          rcases eq_or_ne a b with h | h
          · simp [h, ih]
          · rw [if_neg h, if_neg (Ne.symm h)]

theorem commonPrefixLength_append (k suf : Str) (hk : k ≠ []) :
    0 < commonPrefixLength k (k ++ suf) := by
  cases k with
  | nil => exact absurd rfl hk
  | cons a s => simp [commonPrefixLength]

theorem commonPrefixLength_zero_ne {a b : Char} {s t : Str}
    (h : commonPrefixLength (a :: s) (b :: t) = 0) : a ≠ b := by
  intro he
  simp [commonPrefixLength, he] at h

/-- The head-disjointness invariant of a children dict: labels are
non-empty and pairwise share no common prefix. -/
def AccOK (l : List (Str × TrieNode)) : Prop :=
  (∀ p ∈ l, p.1 ≠ []) ∧ l.Pairwise (fun a b => commonPrefixLength a.1 b.1 = 0)

theorem pairwiseNoCommon_pairwise : ∀ {ks : List Str}, pairwiseNoCommon ks = true →
    ks.Pairwise (fun a b => commonPrefixLength a b = 0) := by
  intro ks h
  induction ks with
  | nil => exact List.Pairwise.nil
  | cons k t ih =>
      simp only [pairwiseNoCommon, Bool.and_eq_true, List.all_eq_true] at h
      exact List.Pairwise.cons (fun b hb => by
        have := h.1 b hb
        simpa using this) (ih h.2)

theorem wfChildren_mem : ∀ {l : List (Str × TrieNode)}, wfChildren l = true →
    ∀ p ∈ l, wfNode p.2 = true := by
  intro l h p hp
  induction l with
  | nil => cases hp
  | cons q t ih =>
      rcases q with ⟨k', c'⟩
      rw [wfChildren] at h
      simp only [Bool.and_eq_true] at h
      rcases List.mem_cons.1 hp with h' | h'
      · rw [h']; exact h.1
      · exact ih h.2 h'

theorem wfNode_parts {children : List (Str × TrieNode)} {idx : Option Nat}
    (h : wfNode (.mk children idx) = true) :
    AccOK children ∧ ∀ p ∈ children, wfNode p.2 = true := by
  rw [wfNode] at h
  simp only [Bool.and_eq_true] at h
  obtain ⟨hl, hc⟩ := h
  rw [labelsOK] at hl
  simp only [Bool.and_eq_true, List.all_eq_true] at hl
  refine ⟨⟨?_, ?_⟩, wfChildren_mem hc⟩
  · intro p hp
    have := hl.1 p.1 (List.mem_map_of_mem _ hp)
    simpa [List.isEmpty_iff] using this
  · have := pairwiseNoCommon_pairwise hl.2
    exact (List.pairwise_map.1 this)

theorem mem_pairsChildren {s : Str} {i : Nat} :
    ∀ {l : List (Str × TrieNode)} {px : Str},
      ((s, i) ∈ indexedPairsChildren l px ↔
        ∃ p ∈ l, (s, i) ∈ indexedPairs p.2 (px ++ p.1)) := by
  intro l px
  induction l with
  | nil =>
      constructor
      · intro h; cases h
      · rintro ⟨p, hp, _⟩; cases hp
  | cons q t ih =>
      rcases q with ⟨k', c'⟩
      constructor
      · intro h
        have h' : (s, i) ∈ indexedPairs c' (px ++ k') ++ indexedPairsChildren t px := h
        rcases List.mem_append.1 h' with h2 | h2
        · exact ⟨(k', c'), List.mem_cons_self _ _, h2⟩
        · obtain ⟨p, hp, hm⟩ := ih.1 h2
          exact ⟨p, List.mem_cons_of_mem _ hp, hm⟩
      · rintro ⟨p, hp, hm⟩
        show (s, i) ∈ indexedPairs c' (px ++ k') ++ indexedPairsChildren t px
        rcases List.mem_cons.1 hp with h | h
        · cases h
          exact List.mem_append.2 (Or.inl hm)
        · exact List.mem_append.2 (Or.inr (ih.2 ⟨p, h, hm⟩))

theorem self_mem_dictSet {κ α : Type} [DecidableEq κ] (l : List (κ × α)) (k : κ) (v : α) :
    (k, v) ∈ dictSet l k v := by
  induction l with
  | nil => exact List.mem_cons_self _ _
  | cons q t ih =>
      rcases q with ⟨k', v'⟩
      simp only [dictSet]
      split
      · exact List.mem_cons_self _ _
      · exact List.mem_cons_of_mem _ ih

theorem commonPrefixLength_self_pos {k : Str} (hk : k ≠ []) :
    0 < commonPrefixLength k k := by
  cases k with
  | nil => exact absurd rfl hk
  | cons a s => simp [commonPrefixLength]

theorem AccOK_sublist {l' l : List (Str × TrieNode)} (hs : l'.Sublist l) (h : AccOK l) :
    AccOK l' :=
  ⟨fun p hp => h.1 p (hs.mem hp), h.2.sublist hs⟩

theorem AccOK_unique {l : List (Str × TrieNode)} (h : AccOK l) {k : Str}
    {c1 c2 : TrieNode} (h1 : (k, c1) ∈ l) (h2 : (k, c2) ∈ l) : c1 = c2 := by
  induction l with
  | nil => cases h1
  | cons q t ih =>
      rcases q with ⟨k', c'⟩
      have hpw := List.pairwise_cons.1 h.2
      rcases List.mem_cons.1 h1 with ha | ha <;> rcases List.mem_cons.1 h2 with hb | hb
      · cases ha; cases hb; rfl
      · cases ha
        have hz : commonPrefixLength k k = 0 := hpw.1 _ hb
        have hk : k ≠ [] := h.1 (k, c1) (List.mem_cons_self _ _)
        have hpos := commonPrefixLength_self_pos hk
        omega
      · cases hb
        have hz : commonPrefixLength k k = 0 := hpw.1 _ ha
        have hk : k ≠ [] := h.1 (k, c2) (List.mem_cons_self _ _)
        have hpos := commonPrefixLength_self_pos hk
        omega
      · exact ih ⟨fun p hp => h.1 p (List.mem_cons_of_mem _ hp), hpw.2⟩ ha hb

theorem eraseKey_key_ne {l : List (Str × TrieNode)} (h : AccOK l) (k : Str) :
    ∀ p ∈ eraseKey l k, p.1 ≠ k := by
  induction l with
  | nil => intro p hp; cases hp
  | cons q t ih =>
      rcases q with ⟨k1, c1⟩
      have hpw := List.pairwise_cons.1 h.2
      intro p hp
      simp only [eraseKey] at hp
      split at hp
      · rename_i he
        intro hpk
        have hz : commonPrefixLength k1 p.1 = 0 := hpw.1 p hp
        rw [hpk, he] at hz
        have hk : k ≠ [] := by rw [← he]; exact h.1 (k1, c1) (List.mem_cons_self _ _)
        have hpos := commonPrefixLength_self_pos hk
        omega
      · rcases List.mem_cons.1 hp with he | he
        · subst he; rename_i hne; simpa using hne
        · exact ih ⟨fun q hq => h.1 q (List.mem_cons_of_mem _ hq), hpw.2⟩ p he

theorem eraseKey_append_single {κ α : Type} [DecidableEq κ] (l : List (κ × α))
    {x : κ × α} {k : κ} (hx : x.1 ≠ k) : eraseKey (l ++ [x]) k = eraseKey l k ++ [x] := by
  induction l with
  | nil =>
      rcases x with ⟨k', v'⟩
      simp only [List.nil_append, eraseKey, if_neg (by simpa using hx)]
  | cons q t ih =>
      rcases q with ⟨k', v'⟩
      simp only [List.cons_append, eraseKey]
      split
      · rfl
      · rw [show t.append [x] = t ++ [x] from rfl, ih]
        rfl

theorem cpl_zero_append {a b suf : Str} (hb : b ≠ []) (h : commonPrefixLength a b = 0) :
    commonPrefixLength a (b ++ suf) = 0 := by
  cases a with
  | nil => rfl
  | cons x s =>
      cases b with
      | nil => exact absurd rfl hb
      | cons y t =>
          have hne := commonPrefixLength_zero_ne h
          simp [commonPrefixLength, hne]

/-- Symmetry of the prefix-disjointness relation on entries. -/
theorem accRel_symm : Symmetric (fun a b : Str × TrieNode => commonPrefixLength a.1 b.1 = 0) := by
  intro a b h
  show commonPrefixLength b.1 a.1 = 0
  rw [commonPrefixLength_symm]
  exact h

/-- In an `AccOK` dict, any entry other than the `k`-entry has a label
prefix-disjoint from `k`. -/
theorem accOK_cpl_zero {acc : List (Str × TrieNode)} (hacc : AccOK acc) {k : Str}
    {c : TrieNode} (hmem : (k, c) ∈ acc) {p : Str × TrieNode} (hp : p ∈ acc)
    (hne : p.1 ≠ k) : commonPrefixLength p.1 k = 0 := by
  have := hacc.2.forall accRel_symm hp hmem (by
    intro he; exact hne (by rw [he]))
  exact this

/-- Everything `collapseStep` guarantees: the collapsed entry is present
under an extended key, well-formedness and the dict invariant are kept,
entries with other keys survive untouched, and every pair whose index is
in `used` is still spelled somewhere. -/
def CollapseSpec (used : List Nat) (acc : List (Str × TrieNode)) (k : Str) (c : TrieNode) : Prop :=
  wfNode c = true → AccOK acc → (k, c) ∈ acc → k ≠ [] →
    ((collapseStep used acc k c).2.1, (collapseStep used acc k c).2.2) ∈ (collapseStep used acc k c).1 ∧
    wfNode (collapseStep used acc k c).2.2 = true ∧
    (∃ suf, (collapseStep used acc k c).2.1 = k ++ suf) ∧
    AccOK (collapseStep used acc k c).1 ∧
    (∀ p ∈ acc, p.1 ≠ k → p ∈ (collapseStep used acc k c).1 ∧ p.1 ≠ (collapseStep used acc k c).2.1) ∧
    (∀ px s i, i ∈ used → (s, i) ∈ indexedPairsChildren acc px →
      (s, i) ∈ indexedPairsChildren (collapseStep used acc k c).1 px)

theorem collapseStep_spec (used : List Nat) :
    ∀ (acc : List (Str × TrieNode)) (k : Str) (c : TrieNode), CollapseSpec used acc k c := by
  intro acc₀ k₀ c₀
  induction acc₀, k₀, c₀ using collapseStep.induct used with
  | case1 acc k gk gc idx hp =>
      intro hwf hacc hmem hk
      simp only [collapseStep, hp, if_true]
      exact ⟨hmem, hwf, ⟨[], by simp⟩, hacc, fun p hp' hne => ⟨hp', hne⟩,
        fun px s i _ h => h⟩
  | case2 acc k gk gc idx hp ih =>
      intro hwf hacc hmem hk
      have hparts := wfNode_parts hwf
      have hgk : gk ≠ [] := hparts.1.1 (gk, gc) (List.mem_cons_self _ _)
      have hwfgc : wfNode gc = true := hparts.2 (gk, gc) (List.mem_cons_self _ _)
      have hkne : k ++ gk ≠ k := by
        intro he
        have : (k ++ gk).length = k.length := by rw [he]
        rw [List.length_append] at this
        have : gk.length = 0 := by omega
        exact hgk (List.length_eq_zero.1 this)
      have hknew_cpl : ∀ p ∈ acc, p.1 ≠ k → commonPrefixLength p.1 (k ++ gk) = 0 := by
        intro p hp' hne
        exact cpl_zero_append hk (accOK_cpl_zero hacc hmem hp' hne)
      have hnotin : (k ++ gk) ∉ acc.map Prod.fst := by
        intro hin
        obtain ⟨p, hp', hfst⟩ := List.mem_map.1 hin
        by_cases hpk : p.1 = k
        · exact hkne (by rw [← hfst, hpk])
        · have := hknew_cpl p hp' hpk
          rw [hfst] at this
          have hknil : k ++ gk ≠ [] := by
            intro he; exact hk (List.append_eq_nil.1 he).1
          have := commonPrefixLength_self_pos hknil
          omega
      have hds : dictSet acc (k ++ gk) gc = acc ++ [(k ++ gk, gc)] :=
        dictSet_append_of_notMem gc hnotin
      have hacc2eq : eraseKey (dictSet acc (k ++ gk) gc) k =
          eraseKey acc k ++ [(k ++ gk, gc)] := by
        rw [hds]
        exact eraseKey_append_single acc (by simpa using hkne)
      have hacc2 : AccOK (eraseKey (dictSet acc (k ++ gk) gc) k) := by
        rw [hacc2eq]
        have herAcc : AccOK (eraseKey acc k) := AccOK_sublist (eraseKey_sublist acc k) hacc
        constructor
        · intro p hp'
          rcases List.mem_append.1 hp' with h' | h'
          · exact herAcc.1 p h'
          · rcases List.mem_singleton.1 h'
            intro he; exact hk (List.append_eq_nil.1 he).1
        · rw [List.pairwise_append]
          refine ⟨herAcc.2, List.pairwise_singleton _ _, ?_⟩
          intro a ha b hb
          rcases List.mem_singleton.1 hb
          exact hknew_cpl a (mem_of_mem_eraseKey ha) (eraseKey_key_ne hacc k a ha)
      have hmem2 : (k ++ gk, gc) ∈ eraseKey (dictSet acc (k ++ gk) gc) k := by
        rw [hacc2eq]
        exact List.mem_append.2 (Or.inr (List.mem_singleton.2 rfl))
      have hknil : k ++ gk ≠ [] := by
        intro he; exact hk (List.append_eq_nil.1 he).1
      obtain ⟨ih1, ih2, ih3, ih4, ih5, ih6⟩ := ih hwfgc hacc2 hmem2 hknil
      have hred : collapseStep used acc k (TrieNode.mk [(gk, gc)] idx) =
          collapseStep used (eraseKey (dictSet acc (k ++ gk) gc) k) (k ++ gk) gc := by
        simp only [collapseStep, hp]
        rfl
      rw [hred]
      refine ⟨ih1, ih2, ?_, ih4, ?_, ?_⟩
      · obtain ⟨suf, hsuf⟩ := ih3
        exact ⟨gk ++ suf, by rw [hsuf, List.append_assoc]⟩
      · intro p hp' hne
        have hpne2 : p.1 ≠ k ++ gk := by
          intro he
          have h0 := hknew_cpl p hp' hne
          rw [he] at h0
          have := commonPrefixLength_self_pos hknil
          omega
        have hmem' : p ∈ eraseKey (dictSet acc (k ++ gk) gc) k := by
          rw [hacc2eq]
          exact List.mem_append.2 (Or.inl (mem_eraseKey_of_ne hp' hne))
        exact ih5 p hmem' hpne2
      · intro px s i hi hpair
        obtain ⟨p, hp', hpm⟩ := mem_pairsChildren.1 hpair
        by_cases hpk : p.1 = k
        · -- the collapsed entry itself
          have hpeq : p = (k, TrieNode.mk [(gk, gc)] idx) := by
            rcases p with ⟨pk, pc⟩
            simp only at hpk
            subst hpk
            have := AccOK_unique hacc hp' hmem
            rw [this]
          subst hpeq
          -- its pairs: the own index (not protected) or pairs of gc
          have hm' : (s, i) ∈ indexedPairs (TrieNode.mk [(gk, gc)] idx) (px ++ k) := hpm
          have hm2 : (s, i) ∈ indexedPairs gc ((px ++ k) ++ gk) := by
            rcases idx with _ | j
            · simpa [indexedPairs, indexedPairsChildren] using hm'
            · rcases List.mem_append.1 hm' with hone | hrest
              · exfalso
                have hij : i = j := congrArg Prod.snd (List.mem_singleton.1 hone)
                subst hij
                have : protMem used (some i) = true := by
                  simp only [protMem]
                  exact List.elem_iff.2 hi
                exact hp this
              · simpa [indexedPairsChildren] using hrest
          refine ih6 px s i hi ?_
          refine mem_pairsChildren.2 ⟨(k ++ gk, gc), hmem2, ?_⟩
          rw [← List.append_assoc]
          exact hm2
        · -- untouched entry
          refine ih6 px s i hi ?_
          refine mem_pairsChildren.2 ⟨p, ?_, hpm⟩
          rw [hacc2eq]
          exact List.mem_append.2 (Or.inl (mem_eraseKey_of_ne hp' hpk))
  | case3 acc k other h =>
      intro hwf hacc hmem hk
      have hred : collapseStep used acc k other = (acc, k, other) := by
        rw [collapseStep.eq_def]
        rcases other with ⟨children, idx⟩
        rcases children with _ | ⟨⟨gk, gc⟩, rest⟩
        · rfl
        · rcases rest with _ | ⟨q, rest'⟩
          · exact absurd rfl (h gk gc idx)
          · rfl
      rw [hred]
      exact ⟨hmem, hwf, ⟨[], by simp⟩, hacc, fun p hp' hne => ⟨hp', hne⟩,
        fun px s i _ hx => hx⟩

theorem AccOK_keys_nodup {l : List (Str × TrieNode)} (h : AccOK l) :
    (l.map Prod.fst).Nodup := by
  have hpw : (l.map Prod.fst).Pairwise (fun a b => commonPrefixLength a b = 0) :=
    List.pairwise_map.2 h.2
  have hne : ∀ x ∈ l.map Prod.fst, x ≠ [] := by
    intro x hx
    obtain ⟨p, hp, he⟩ := List.mem_map.1 hx
    exact he ▸ h.1 p hp
  show (l.map Prod.fst).Pairwise _
  refine List.Pairwise.imp_of_mem ?_ hpw
  intro a b ha hb hcpl he
  subst he
  have := commonPrefixLength_self_pos (hne a ha)
  omega

theorem dictSet_keys_of_mem {κ α : Type} [DecidableEq κ] {l : List (κ × α)} {k : κ}
    (h : k ∈ l.map Prod.fst) (v : α) : (dictSet l k v).map Prod.fst = l.map Prod.fst := by
  induction l with
  | nil => cases h
  | cons p t ih =>
      rcases p with ⟨k', v'⟩
      simp only [dictSet]
      split
      · rename_i he
        simp [he]
      · rename_i he
        simp only [List.map_cons]
        have hk : k ∈ t.map Prod.fst := by
          simp only [List.map_cons, List.mem_cons] at h
          rcases h with h' | h'
          · exact absurd h'.symm he
          · exact h'
        rw [ih hk]

theorem AccOK_of_keys_eq {l l' : List (Str × TrieNode)}
    (h : l'.map Prod.fst = l.map Prod.fst) (hacc : AccOK l) : AccOK l' := by
  constructor
  · intro p hp
    have hmem : p.1 ∈ l'.map Prod.fst := List.mem_map_of_mem _ hp
    rw [h] at hmem
    obtain ⟨q, hq, he⟩ := List.mem_map.1 hmem
    rw [← he]
    exact hacc.1 q hq
  · have h2 : (l'.map Prod.fst).Pairwise (fun a b => commonPrefixLength a b = 0) := by
      rw [h]
      exact List.pairwise_map.2 hacc.2
    exact List.pairwise_map.1 h2

theorem mergeLoop_pairs (used : List Nat) (N : Nat)
    (IHdfs : ∀ c', nodeSize c' < N → wfNode c' = true →
      ∀ px s i, i ∈ used → (s, i) ∈ indexedPairs c' px →
        (s, i) ∈ indexedPairs (mergeDfs used c') px) :
    ∀ (snapshot acc : List (Str × TrieNode)) (px : Str),
      (∀ p ∈ snapshot, p ∈ acc ∧ wfNode p.2 = true ∧ nodeSize p.2 < N) →
      (snapshot.map Prod.fst).Nodup →
      AccOK acc →
      ∀ s i, i ∈ used → (s, i) ∈ indexedPairsChildren acc px →
        (s, i) ∈ indexedPairsChildren (mergeLoop used snapshot acc) px := by
  intro snapshot
  induction snapshot with
  | nil =>
      intro acc px _ _ _ s i _ hp
      rw [mergeLoop]
      exact hp
  | cons hd rest ih =>
      rcases hd with ⟨k, c⟩
      intro acc px hsnap hnd hacc s i hi hp
      have hkc := hsnap (k, c) (List.mem_cons_self _ _)
      have hk : k ≠ [] := hacc.1 (k, c) hkc.1
      obtain ⟨S1, S2, S3, S4, S5, S6⟩ :=
        collapseStep_spec used acc k c hkc.2.1 hacc hkc.1 hk
      have hgoal : mergeLoop used ((k, c) :: rest) acc =
          mergeLoop used rest
            (dictSet (collapseStep used acc k c).1 (collapseStep used acc k c).2.1
              (mergeDfs used (collapseStep used acc k c).2.2)) := by
        rw [mergeLoop]
      rw [hgoal]
      have hszc : nodeSize (collapseStep used acc k c).2.2 < N :=
        lt_of_le_of_lt (collapseStep_size used acc k c) hkc.2.2
      have hmerged_mem : ((collapseStep used acc k c).2.1,
          mergeDfs used (collapseStep used acc k c).2.2) ∈
          dictSet (collapseStep used acc k c).1 (collapseStep used acc k c).2.1
            (mergeDfs used (collapseStep used acc k c).2.2) :=
        self_mem_dictSet _ _ _
      have hkeys := dictSet_keys_of_mem (List.mem_map_of_mem Prod.fst S1)
        (mergeDfs used (collapseStep used acc k c).2.2)
      have hacc2 := AccOK_of_keys_eq hkeys S4
      have hnd2 : (k :: rest.map Prod.fst).Nodup := by
        have he : ((k, c) :: rest).map Prod.fst = k :: rest.map Prod.fst := rfl
        rw [he] at hnd
        exact hnd
      have hnd' := (List.nodup_cons.1 hnd2).2
      refine ih _ px ?_ hnd' hacc2 s i hi ?_
      · intro p hprest
        have hpacc := hsnap p (List.mem_cons_of_mem _ hprest)
        have hpk : p.1 ≠ k := by
          intro he
          have : k ∈ rest.map Prod.fst := he ▸ List.mem_map_of_mem _ hprest
          exact (List.nodup_cons.1 hnd2).1 this
        obtain ⟨hpr, hpne⟩ := S5 p hpacc.1 hpk
        exact ⟨mem_dictSet_of_ne hpr hpne _, hpacc.2.1, hpacc.2.2⟩
      · have hp1 := S6 px s i hi hp
        obtain ⟨q, hq, hqm⟩ := mem_pairsChildren.1 hp1
        by_cases hqk : q.1 = (collapseStep used acc k c).2.1
        · have hqeq : q = ((collapseStep used acc k c).2.1, (collapseStep used acc k c).2.2) := by
            rcases q with ⟨qk, qc⟩
            simp only at hqk
            subst hqk
            rw [AccOK_unique S4 hq S1]
          subst hqeq
          refine mem_pairsChildren.2 ⟨_, hmerged_mem, ?_⟩
          exact IHdfs _ hszc S2 _ s i hi hqm
        · exact mem_pairsChildren.2 ⟨q, mem_dictSet_of_ne hq hqk _, hqm⟩

theorem mergeDfs_pairs (used : List Nat) :
    ∀ (N : Nat) (c : TrieNode), nodeSize c ≤ N → wfNode c = true →
      ∀ px s i, i ∈ used → (s, i) ∈ indexedPairs c px →
        (s, i) ∈ indexedPairs (mergeDfs used c) px := by
  intro N
  induction N with
  | zero =>
      intro c hle
      rcases c with ⟨children, idx⟩
      simp [nodeSize] at hle
  | succ N ih =>
      intro c hle hwf px s i hi hp
      rcases c with ⟨children, idx⟩
      have hparts := wfNode_parts hwf
      have hred : mergeDfs used (TrieNode.mk children idx) =
          TrieNode.mk (mergeLoop used children children) idx := by
        rw [mergeDfs]
      rw [hred]
      have hsz : childrenSize children < N + 1 := by
        simp only [nodeSize] at hle; omega
      have hloop := mergeLoop_pairs used (N + 1)
        (fun c' hlt hwf' => ih c' (by omega) hwf') children children px
        (fun p hp' => ⟨hp', hparts.2 p hp',
          lt_of_le_of_lt (mem_childrenSize (k := p.1) (by rcases p with ⟨a, b⟩; exact hp')) hsz⟩)
        (AccOK_keys_nodup hparts.1) hparts.1 s i hi
      rcases idx with _ | j
      · have hch : (s, i) ∈ indexedPairsChildren children px := hp
        exact hloop hch
      · have hsplit : (s, i) ∈ (px, j) :: indexedPairsChildren children px := hp
        show (s, i) ∈ (px, j) :: indexedPairsChildren (mergeLoop used children children) px
        rcases List.mem_cons.1 hsplit with hown | hch
        · exact hown ▸ List.mem_cons_self _ _
        · exact List.mem_cons_of_mem _ (hloop hch)

/-- A radix trie spelling `a` (index 1) and `ab` (index 2), with the
counter past its indices — exactly what two inserts build. -/
def mergeExampleTrie : Trie :=
  ⟨.mk [("a".toList, .mk [("b".toList, .mk [] (some 2))] (some 1))] none, 3⟩

/-- **C3, counterexample.** With protected set `P = {2}`, the indexed
node spelling `a` (index 1, unprotected, single child) is coalesced away
by `merge_single_children`, so the set of strings spelled out at indexed
nodes is *not* unchanged, refuting the claim as stated. -/
theorem C3_counterexample :
    wfNode mergeExampleTrie.root = true ∧
    "a".toList ∈ (indexedPairs mergeExampleTrie.root []).map Prod.fst ∧
    "a".toList ∉ (indexedPairs (mergeExampleTrie.merge_single_children [2]).root []).map Prod.fst := by
  decide

/-- **C3 (amended).** After `merge_single_children(P)` on a well-formed
trie, every index in `P` still appears in the trie at a node spelling
the same string as before.  (The unprotected part of the original claim
is refuted by `C3_counterexample`: nodes whose index is not in `P` may
be coalesced away.) -/
theorem C3_merge_protected (t : Trie) (P : List Nat) (hwf : wfNode t.root = true) :
    ∀ s i, i ∈ P → (s, i) ∈ indexedPairs t.root [] →
      (s, i) ∈ indexedPairs (t.merge_single_children P).root [] := by
  intro s i hiP hpair
  rw [merge_single_children_eq_dfs t P]
  exact mergeDfs_pairs P (nodeSize t.root) t.root le_rfl hwf [] s i hiP hpair

/-- Witness for the amended C3 on the example trie: the protected index
2 still spells `ab` after the merge. -/
theorem C3_merge_protected_witness :
    ("ab".toList, 2) ∈ indexedPairs (mergeExampleTrie.merge_single_children [2]).root [] :=
  C3_merge_protected mergeExampleTrie [2] (by decide) "ab".toList 2 (by decide) (by decide)

/-! ### Idempotence of `Trie.insert` (claim C9) -/

theorem insertNode_nil (n : TrieNode) (ctr : Nat) :
    insertNode n [] ctr = (n, n.index, ctr) := by
  rcases n with ⟨children, idx⟩
  rw [insertNode]
  rfl

theorem insertScan_noMatch {w : Str} {ctr : Nat} :
    ∀ {children : List (Str × TrieNode)}, insertScan children w ctr = .noMatch →
      ∀ p ∈ children, w.take p.1.length ≠ p.1 := by
  intro children
  induction children with
  | nil => intro _ p hp; cases hp
  | cons q t ih =>
      intro h p hp
      rcases q with ⟨k, c⟩
      rw [insertScan] at h
      split at h
      · simp at h
      · rename_i hne
        cases hscan : insertScan t w ctr with
        | descended ch' res ctr' => rw [hscan] at h; simp at h
        | noMatch =>
            rcases List.mem_cons.1 hp with he | he
            · subst he; simpa using hne
            · exact ih hscan p he

theorem insertScan_descended {w : Str} {ctr : Nat} :
    ∀ {children ch' : List (Str × TrieNode)} {res : Option Nat} {ctr₂ : Nat},
      insertScan children w ctr = .descended ch' res ctr₂ →
      ∃ pre k c rest, children = pre ++ (k, c) :: rest ∧
        (∀ p ∈ pre, w.take p.1.length ≠ p.1) ∧
        w.take k.length = k ∧
        ch' = pre ++ (k, (insertNode c (w.drop k.length) ctr).1) :: rest ∧
        res = (insertNode c (w.drop k.length) ctr).2.1 ∧
        ctr₂ = (insertNode c (w.drop k.length) ctr).2.2 := by
  intro children
  induction children with
  | nil =>
      intro ch' res ctr₂ h
      rw [insertScan] at h
      cases h
  | cons q t ih =>
      intro ch' res ctr₂ h
      rcases q with ⟨k, c⟩
      rw [insertScan] at h
      split at h
      · rename_i hmatch
        cases h
        refine ⟨[], k, c, t, rfl, ?_, hmatch, rfl, rfl, rfl⟩
        intro p hp
        cases hp
      · rename_i hne
        split at h
        · rename_i rest' res' ctr'' hrec
          cases h
          obtain ⟨pre, k1, c1, rest1, he, hpre, hm, hch, hres, hctr⟩ := ih hrec
          refine ⟨(k, c) :: pre, k1, c1, rest1, by rw [he]; rfl, ?_, hm, ?_, hres, hctr⟩
          · intro p hp
            rcases List.mem_cons.1 hp with h' | h'
            · subst h'; simpa using hne
            · exact hpre p h'
          · rw [hch]; rfl
        · cases h

theorem insertScan_build {w : Str} {ctr : Nat} :
    ∀ (pre : List (Str × TrieNode)) (k : Str) (c : TrieNode) (rest : List (Str × TrieNode)),
      (∀ p ∈ pre, w.take p.1.length ≠ p.1) → w.take k.length = k →
      insertScan (pre ++ (k, c) :: rest) w ctr =
        .descended (pre ++ (k, (insertNode c (w.drop k.length) ctr).1) :: rest)
          (insertNode c (w.drop k.length) ctr).2.1 (insertNode c (w.drop k.length) ctr).2.2 := by
  intro pre
  induction pre with
  | nil =>
      intro k c rest _ hm
      rw [List.nil_append, insertScan, if_pos hm]
      rfl
  | cons q t ih =>
      intro k c rest hpre hm
      rcases q with ⟨k0, c0⟩
      rw [List.cons_append, insertScan,
        if_neg (by simpa using hpre (k0, c0) (List.mem_cons_self _ _))]
      rw [ih k c rest (fun p hp => hpre p (List.mem_cons_of_mem _ hp)) hm]
      rfl

theorem findSplitChild_some {w k : Str} {c : TrieNode} :
    ∀ {children : List (Str × TrieNode)}, findSplitChild children w = some (k, c) →
      (k, c) ∈ children ∧ 0 < commonPrefixLength w k := by
  intro children h
  induction children with
  | nil => cases h
  | cons q t ih =>
      rcases q with ⟨k0, c0⟩
      rw [findSplitChild] at h
      split at h
      · rename_i hpos
        cases h
        exact ⟨List.mem_cons_self _ _, hpos⟩
      · obtain ⟨hm, hp⟩ := ih h
        exact ⟨List.mem_cons_of_mem _ hm, hp⟩

theorem cpl_le_left (w k : Str) : commonPrefixLength w k ≤ w.length := by
  induction w generalizing k with
  | nil => cases k <;> simp [commonPrefixLength]
  | cons a s ih =>
      cases k with
      | nil => simp [commonPrefixLength]
      | cons b t =>
          simp only [commonPrefixLength, List.length_cons]
          split
          · have := ih t; omega
          · omega

theorem cpl_le_right (w k : Str) : commonPrefixLength w k ≤ k.length := by
  rw [commonPrefixLength_symm]
  exact cpl_le_left k w

theorem take_eq_of_cpl_len {w k : Str} (h : commonPrefixLength w k = k.length) :
    w.take k.length = k := by
  induction k generalizing w with
  | nil => simp
  | cons b t ih =>
      cases w with
      | nil => simp [commonPrefixLength] at h
      | cons a s =>
          simp only [commonPrefixLength, List.length_cons] at h
          split at h
          · rename_i he
            subst he
            simp only [List.length_cons, List.take_succ_cons]
            rw [ih (show commonPrefixLength s t = t.length by omega)]
          · omega

theorem cpl_pos_of_take_match {w k : Str} (hk : k ≠ []) (h : w.take k.length = k) :
    0 < commonPrefixLength w k := by
  cases k with
  | nil => exact absurd rfl hk
  | cons b t =>
      cases w with
      | nil => simp at h
      | cons a s =>
          simp only [List.length_cons, List.take_succ_cons, List.cons.injEq] at h
          simp [commonPrefixLength, h.1]

theorem cpl_drop (w k : Str) :
    commonPrefixLength (w.drop (commonPrefixLength w k)) (k.drop (commonPrefixLength w k)) = 0 := by
  induction w generalizing k with
  | nil => cases k <;> rfl
  | cons a s ih =>
      cases k with
      | nil => rfl
      | cons b t =>
          simp only [commonPrefixLength]
          split
          · simpa using ih t
          · rename_i hne
            simpa [commonPrefixLength] using hne

/-- A second `insert` of the same word returns the same index and leaves
the node (and the counter) unchanged, whenever the first insert returned
an index. -/
theorem insertNode_idem : ∀ (N : Nat) (n : TrieNode), nodeSize n ≤ N →
    ∀ w ctr n' i ctr', insertNode n w ctr = (n', some i, ctr') →
      insertNode n' w ctr' = (n', some i, ctr') := by
  intro N
  induction N with
  | zero =>
      intro n h
      rcases n with ⟨children, idx⟩
      simp [nodeSize] at h
  | succ N ih =>
      intro n hle w ctr n' i ctr' h
      rcases n with ⟨children, idx⟩
      by_cases hw : w = []
      · subst hw
        rw [insertNode_nil] at h
        injection h with h1 h23
        injection h23 with h2 h3
        subst h1
        subst h3
        rw [insertNode_nil, h2]
      · cases hscan : insertScan children w ctr with
        | descended ch2 res ctr₂ =>
            have huf : insertNode (.mk children idx) w ctr = (.mk ch2 idx, res, ctr₂) := by
              rw [insertNode, if_neg hw, hscan]
            rw [huf] at h
            injection h with h1 h23
            injection h23 with h2 h3
            subst h1
            subst h3
            subst h2
            obtain ⟨pre, k, c, rest, hech, hpre, hm, hch2, hres, hctr⟩ :=
              insertScan_descended hscan
            have hmemc : (k, c) ∈ children := by
              rw [hech]
              exact List.mem_append.2 (Or.inr (List.mem_cons_self _ _))
            have hsize : nodeSize c ≤ N := by
              have h1 := mem_childrenSize (k := k) hmemc
              have h2 : nodeSize (TrieNode.mk children idx) = 1 + childrenSize children := rfl
              omega
            have hcall : insertNode c (w.drop k.length) ctr =
                ((insertNode c (w.drop k.length) ctr).1, some i, ctr₂) := by
              rcases hE : insertNode c (w.drop k.length) ctr with ⟨a, bd⟩
              rcases bd with ⟨b, d⟩
              rw [hE] at hres hctr
              simp only at hres hctr
              simp only
              rw [← hres, ← hctr]
            have hcIH := ih c hsize (w.drop k.length) ctr _ i ctr₂ hcall
            rw [insertNode, if_neg hw, hch2]
            rw [insertScan_build pre k ((insertNode c (w.drop k.length) ctr).1) rest hpre hm]
            rw [hcIH]
        | noMatch =>
            have hfail := insertScan_noMatch hscan
            cases hsplit : findSplitChild children w with
            | some p =>
                rcases p with ⟨k, c⟩
                obtain ⟨hmemc, hclpos⟩ := findSplitChild_some hsplit
                have hclw : commonPrefixLength w k ≤ w.length := cpl_le_left w k
                have hclk : commonPrefixLength w k < k.length := by
                  rcases Nat.lt_or_ge (commonPrefixLength w k) k.length with h' | h'
                  · exact h'
                  · exfalso
                    have he : commonPrefixLength w k = k.length :=
                      le_antisymm (cpl_le_right w k) h'
                    exact hfail (k, c) hmemc (take_eq_of_cpl_len he)
                have hpfxlen : (w.take (commonPrefixLength w k)).length = commonPrefixLength w k := by
                  rw [List.length_take]
                  omega
                have hpfxmatch : w.take (w.take (commonPrefixLength w k)).length =
                    w.take (commonPrefixLength w k) := by
                  rw [hpfxlen]
                have hbasefail : ∀ p ∈ eraseKey children k, w.take p.1.length ≠ p.1 :=
                  fun p hp => hfail p ((eraseKey_sublist children k).mem hp)
                have hrk : k.drop (commonPrefixLength w k) ≠ [] := by
                  intro hnil
                  have := List.drop_eq_nil_iff.1 hnil
                  omega
                by_cases hrw : w.drop (commonPrefixLength w k) = []
                · -- the word is a proper prefix of the split edge
                  have hnn : insertNode (.mk children idx) w ctr =
                      (.mk (dictSet (eraseKey children k) (w.take (commonPrefixLength w k))
                          (TrieNode.mk [(k.drop (commonPrefixLength w k), c)] (some (ctr + 1)))) idx,
                        some (ctr + 1), ctr + 2) := by
                    rw [insertNode, if_neg hw, hscan, hsplit]
                    dsimp only
                    rw [if_pos hrw]
                  rw [hnn] at h
                  injection h with h1 h23
                  injection h23 with h2 h3
                  subst h1
                  subst h3
                  injection h2 with h2
                  subst h2
                  have hnotin : (w.take (commonPrefixLength w k)) ∉
                      (eraseKey children k).map Prod.fst := by
                    intro hin
                    obtain ⟨q, hq, hqe⟩ := List.mem_map.1 hin
                    exact hbasefail q hq (by rw [hqe]; exact hpfxmatch)
                  have hds := dictSet_append_of_notMem
                    (TrieNode.mk [(k.drop (commonPrefixLength w k), c)] (some (ctr + 1))) hnotin
                  rw [insertNode, if_neg hw, hds]
                  rw [insertScan_build (eraseKey children k) _ _ [] hbasefail hpfxmatch]
                  rw [hpfxlen, hrw, insertNode_nil]
                  rfl
                · -- genuine split: fresh leaf for the remaining word part
                  have hnn : insertNode (.mk children idx) w ctr =
                      (.mk (dictSet (eraseKey children k) (w.take (commonPrefixLength w k))
                          (TrieNode.mk (dictSet [(k.drop (commonPrefixLength w k), c)]
                              (w.drop (commonPrefixLength w k)) (TrieNode.mk [] (some (ctr + 1))))
                            (some ctr))) idx,
                        some (ctr + 1), ctr + 2) := by
                    rw [insertNode, if_neg hw, hscan, hsplit]
                    dsimp only
                    rw [if_neg hrw]
                  rw [hnn] at h
                  injection h with h1 h23
                  injection h23 with h2 h3
                  subst h1
                  subst h3
                  injection h2 with h2
                  subst h2
                  have hcpl0 : commonPrefixLength (w.drop (commonPrefixLength w k))
                      (k.drop (commonPrefixLength w k)) = 0 := cpl_drop w k
                  have hrkrw : w.drop (commonPrefixLength w k) ∉
                      ([(k.drop (commonPrefixLength w k), c)].map Prod.fst) := by
                    intro hin
                    rcases List.mem_singleton.1 (by simpa using hin) with he
                    rw [← he] at hcpl0
                    rw [commonPrefixLength_symm] at hcpl0
                    have := commonPrefixLength_self_pos hrw
                    omega
                  have hds2 := dictSet_append_of_notMem (TrieNode.mk [] (some (ctr + 1))) hrkrw
                  have hnotin : (w.take (commonPrefixLength w k)) ∉
                      (eraseKey children k).map Prod.fst := by
                    intro hin
                    obtain ⟨q, hq, hqe⟩ := List.mem_map.1 hin
                    exact hbasefail q hq (by rw [hqe]; exact hpfxmatch)
                  have hds := dictSet_append_of_notMem
                    (TrieNode.mk (dictSet [(k.drop (commonPrefixLength w k), c)]
                        (w.drop (commonPrefixLength w k)) (TrieNode.mk [] (some (ctr + 1))))
                      (some ctr)) hnotin
                  -- the inner insert into the fresh two-child node
                  have hinner : insertNode (TrieNode.mk (dictSet [(k.drop (commonPrefixLength w k), c)]
                        (w.drop (commonPrefixLength w k)) (TrieNode.mk [] (some (ctr + 1))))
                      (some ctr)) (w.drop (commonPrefixLength w k)) (ctr + 2) =
                      (TrieNode.mk (dictSet [(k.drop (commonPrefixLength w k), c)]
                        (w.drop (commonPrefixLength w k)) (TrieNode.mk [] (some (ctr + 1))))
                      (some ctr), some (ctr + 1), ctr + 2) := by
                    rw [hds2, insertNode, if_neg hrw]
                    have hfailrk : ∀ p ∈ [(k.drop (commonPrefixLength w k), c)],
                        (w.drop (commonPrefixLength w k)).take p.1.length ≠ p.1 := by
                      intro p hp hmatch
                      rcases List.mem_singleton.1 hp with he
                      subst he
                      have := cpl_pos_of_take_match hrk hmatch
                      omega
                    have hmatchrw : (w.drop (commonPrefixLength w k)).take
                        (w.drop (commonPrefixLength w k)).length =
                        w.drop (commonPrefixLength w k) := List.take_length _
                    rw [insertScan_build [(k.drop (commonPrefixLength w k), c)]
                      (w.drop (commonPrefixLength w k)) (TrieNode.mk [] (some (ctr + 1))) []
                      hfailrk hmatchrw]
                    rw [List.drop_length, insertNode_nil]
                    rfl
                  rw [insertNode, if_neg hw, hds]
                  rw [insertScan_build (eraseKey children k) _ _ [] hbasefail hpfxmatch]
                  rw [hpfxlen, hinner]
            | none =>
                have hnn : insertNode (.mk children idx) w ctr =
                    (.mk (dictSet children w (TrieNode.mk [] (some ctr))) idx,
                      some ctr, ctr + 1) := by
                  rw [insertNode, if_neg hw, hscan, hsplit]
                rw [hnn] at h
                injection h with h1 h23
                injection h23 with h2 h3
                subst h1
                subst h3
                injection h2 with h2
                subst h2
                have hnotin : w ∉ children.map Prod.fst := by
                  intro hin
                  obtain ⟨q, hq, hqe⟩ := List.mem_map.1 hin
                  exact hfail q hq (by rw [hqe]; exact List.take_length w)
                have hds := dictSet_append_of_notMem (TrieNode.mk [] (some ctr)) hnotin
                rw [insertNode, if_neg hw, hds]
                rw [insertScan_build children w (TrieNode.mk [] (some ctr)) [] hfail
                  (List.take_length w)]
                rw [List.drop_length, insertNode_nil]
                show (TrieNode.mk (children ++ [(w, TrieNode.mk [] (some ctr))]) idx,
                  some ctr, ctr + 1) = _
                rw [← hds]

/-- **C9.** `Trie.insert` is idempotent: if an insert of `w` returned an
index `i`, inserting `w` again returns the same `i` and leaves the trie
(nodes, edge labels, indices and counter) unchanged. -/
theorem C9_insert_idempotent (t : Trie) (w : Str) (t' : Trie) (i : Nat)
    (h : t.insert w = (t', some i)) : t'.insert w = (t', some i) := by
  have h1 : (insertNode t.root w t.current_index).1 = t'.root :=
    congrArg (fun p => p.1.root) h
  have h2 : (insertNode t.root w t.current_index).2.2 = t'.current_index :=
    congrArg (fun p => p.1.current_index) h
  have h3 : (insertNode t.root w t.current_index).2.1 = some i :=
    congrArg (fun p => p.2) h
  have hfull : insertNode t.root w t.current_index = (t'.root, some i, t'.current_index) := by
    rcases hE : insertNode t.root w t.current_index with ⟨a, b, d⟩
    rw [hE] at h1 h2 h3
    simp only at h1 h2 h3
    rw [h1, h2, h3]
  have hidem := insertNode_idem (nodeSize t.root) t.root le_rfl w t.current_index
    t'.root i t'.current_index hfull
  show (⟨(insertNode t'.root w t'.current_index).1,
      (insertNode t'.root w t'.current_index).2.2⟩,
    (insertNode t'.root w t'.current_index).2.1) = (t', some i)
  rw [hidem]

/-- Witness for C9: inserting `ab` twice into a fresh trie. -/
theorem C9_insert_idempotent_witness :
    (Trie.new.insert "ab".toList).1.insert "ab".toList =
      ((Trie.new.insert "ab".toList).1, some 1) :=
  C9_insert_idempotent Trie.new "ab".toList (Trie.new.insert "ab".toList).1 1 rfl

/-! ## The pattern extractor (`clp.py`)

Characters are modelled over ASCII: the regex classes `\d`, `\s`, `\w`
and the tokenizer's separator class are translated literally. -/

/-- `\w` (ASCII): letters, digits, underscore. -/
def isWordChar (c : Char) : Bool := c.isAlphanum || c = '_'

/-- `\s` (ASCII): the whitespace characters Python's `re` recognizes. -/
def isSpaceChar (c : Char) : Bool :=
  c = ' ' || c = '\t' || c = '\n' || c = '\x0d' || c = '\x0b' || c = '\x0c'

/-- The single-character separators of the tokenizer's split regex
`[{}\[\](),;:\"\'=\-.]` (34 is the double quote, 39 the apostrophe). -/
def isSpecialSep (c : Char) : Bool :=
  c = '{' || c = '}' || c = '[' || c = ']' || c = '(' || c = ')' || c = ',' ||
  c = ';' || c = ':' || c = Char.ofNat 34 || c = Char.ofNat 39 || c = '=' ||
  c = '-' || c = '.'

/-- Any separator of the split regex (whitespace run or special char). -/
def isSepChar (c : Char) : Bool := isSpaceChar c || isSpecialSep c

mutual
/-- `re.split(r'(\s+|[{}\[\](),;:\"\'=\-.])', s)` as a scanner: `cur` is
the piece in progress; separators are emitted as their own tokens and
pieces between separators are kept, empty ones included. -/
def tokenizeGo : Str → Str → List Str
  | cur, [] => [cur]
  | cur, c :: rest =>
    if isSpaceChar c then cur :: spaceGo [c] rest
    else if isSpecialSep c then cur :: [c] :: tokenizeGo [] rest
    else tokenizeGo (cur ++ [c]) rest
/-- A maximal whitespace run in progress (`\s+` is greedy). -/
def spaceGo : Str → Str → List Str
  | ws, [] => [ws, []]
  | ws, c :: rest =>
    if isSpaceChar c then spaceGo (ws ++ [c]) rest
    else if isSpecialSep c then ws :: [] :: [c] :: tokenizeGo [] rest
    else ws :: tokenizeGo [c] rest
end

/-- Tokenize a string (step 2 of `extract_pattern`). -/
def tokenize (s : Str) : List Str := tokenizeGo [] s

/-- Hex digit (`[0-9a-fA-F]`). -/
def isHexDigit (c : Char) : Bool :=
  c.isDigit || ('a' ≤ c && c ≤ 'f') || ('A' ≤ c && c ≤ 'F')

/-- `re.fullmatch(r'\b\d+\b', tok)`: a non-empty all-digit token. -/
def matchNumber (t : Str) : Bool := !t.isEmpty && t.all Char.isDigit

/-- `re.fullmatch(r'\b\d+s\b', tok)`: digits followed by `s`. -/
def matchTime (t : Str) : Bool :=
  match t.reverse with
  | c :: ds => c = 's' && (!ds.isEmpty && ds.all Char.isDigit)
  | _ => false

/-- `re.fullmatch(r'\b(0x)?[0-9a-fA-F]+\b', tok)`. -/
def matchHex (t : Str) : Bool :=
  (!t.isEmpty && t.all isHexDigit) ||
  (match t with
   | c1 :: c2 :: rest => c1 = '0' && c2 = 'x' && (!rest.isEmpty && rest.all isHexDigit)
   | _ => false)

/-- A group of one to three digits. -/
def digits13 (l : Str) : Bool := !l.isEmpty && l.length ≤ 3 && l.all Char.isDigit

/-- `re.fullmatch(r'\b(?:\d{1,3}\.){3}\d{1,3}\b', tok)`. -/
def matchIp (t : Str) : Bool :=
  match t.splitOn '.' with
  | [a, b, c, d] => digits13 a && digits13 b && digits13 c && digits13 d
  | _ => false

/-- `\b` at the start of `l` seen from the right: the next char must not
be a word character (or the string ends). -/
def endB (l : Str) : Bool :=
  match l with
  | [] => true
  | c :: _ => !isWordChar c

/-- The optional tail `(\.\d+)?Z?\b` of the timestamp regex, starting
after the seconds; `base` is the length matched so far.  Alternatives
are tried in the regex's backtracking order (longest fractional part +
`Z` first, then without `Z`, then without the fraction). -/
def tsTail (base : Nat) (rest : Str) : Option Nat :=
  let noFrac : Option Nat :=
    match rest with
    | c :: r2 =>
        if c = 'Z' then
          (if endB r2 then some (base + 1) else if endB rest then some base else none)
        else if endB rest then some base else none
    | [] => if endB rest then some base else none
  match rest with
  | c :: r2 =>
      if c = '.' then
        let ds := r2.takeWhile Char.isDigit
        let r3 := r2.drop ds.length
        if ds.isEmpty then noFrac
        else
          match r3 with
          | c3 :: r4 =>
              if c3 = 'Z' then
                (if endB r4 then some (base + 1 + ds.length + 1)
                 else if endB r3 then some (base + 1 + ds.length) else noFrac)
              else if endB r3 then some (base + 1 + ds.length) else noFrac
          | [] => if endB r3 then some (base + 1 + ds.length) else noFrac
      else noFrac
  | [] => noFrac

/-- Match the timestamp regex
`\b\d{4}-\d{2}-\d{2}T\d{2}:\d{2}:\d{2}(\.\d+)?Z?\b` at the start of `l`
(the `\b` on the left is checked by the caller); returns the match
length. -/
def tsMatchLen (l : Str) : Option Nat :=
  match l with
  | y1 :: y2 :: y3 :: y4 :: k1 :: m1 :: m2 :: k2 :: d1 :: d2 :: k3 ::
      h1 :: h2 :: k4 :: n1 :: n2 :: k5 :: s1 :: s2 :: rest =>
    if k1 = '-' && k2 = '-' && k3 = 'T' && k4 = ':' && k5 = ':' &&
        [y1, y2, y3, y4, m1, m2, d1, d2, h1, h2, n1, n2, s1, s2].all Char.isDigit
    then tsTail 19 rest
    else none
  | _ => none

/-- `re.fullmatch` of the timestamp regex on a token. -/
def tsFullmatch (t : Str) : Bool := tsMatchLen t == some t.length

/-- A piece of the output of step 1's `re.sub` scan: either a literal
character of `s` or a whole timestamp match. -/
inductive SubPiece where
  | lit (c : Char)
  | ts (text : Str)

/-- The left-to-right non-overlapping scan of `re.sub` for the timestamp
regex.  `prevWord` tracks whether the previous character was a word
character (for the left `\b`).  Structurally recursive on a fuel that is
initialized to the input length; each step consumes at least one
character, so the fuel never runs out (the 0 case is only reached on the
empty remainder, where it agrees with the main equation). -/
def tsScanF : Nat → Bool → Str → List SubPiece
  | 0, _, s => s.map .lit
  | _ + 1, _, [] => []
  | fuel + 1, prevWord, c :: rest =>
    if prevWord then .lit c :: tsScanF fuel (isWordChar c) rest
    else
      match tsMatchLen (c :: rest) with
      | some n => .ts ((c :: rest).take n) :: tsScanF fuel true ((c :: rest).drop n)
      | none => .lit c :: tsScanF fuel (isWordChar c) rest

/-- The per-kind counters `var_count` plus `total_vars`. -/
structure VarCounts where
  tsc : Nat
  num : Nat
  tim : Nat
  hex : Nat
  ip : Nat
  total : Nat

/-- All counters at zero. -/
def VarCounts.zero : VarCounts := ⟨0, 0, 0, 0, 0, 0⟩

/-- Decimal digit character. -/
def digitChar (n : Nat) : Char := Char.ofNat (48 + n)

/-- Decimal representation of a natural (`fuel`-structured division). -/
def natToStrGo : Nat → Nat → Str
  | 0, _ => []
  | fuel + 1, n => if n < 10 then [digitChar n] else natToStrGo fuel (n / 10) ++ [digitChar (n % 10)]

/-- Decimal representation of a natural number (Python `str(n)`). -/
def natToStr (n : Nat) : Str := natToStrGo (n + 1) n

/-- The synthetic variable name `var_{root}_{n}_{kind}`. -/
def varName (root : Str) (n : Nat) (kind : Str) : Str :=
  "var_".toList ++ root ++ "_".toList ++ natToStr n ++ "_".toList ++ kind

/-- A piece of the final pattern: literal text or a `{name}` placeholder
carrying its extracted value. -/
inductive EPiece where
  | lit (t : Str)
  | ph (name value : Str)

/-- The literal text a piece contributes to the pattern string. -/
def patText : EPiece → Str
  | .lit t => t
  | .ph n _ => '{' :: (n ++ ['}'])

/-- The text a piece stood for in the original string. -/
def valText : EPiece → Str
  | .lit t => t
  | .ph _ v => v

/-- Join pieces into the pattern string. -/
def joinPat (l : List EPiece) : Str := (l.map patText).flatten

/-- Join pieces into the original string. -/
def joinVal (l : List EPiece) : Str := (l.map valText).flatten

/-- The `replace_timestamp` callback of step 1 folded over the scan:
matches become `{name}` placeholders while `total_vars < 10`, and are
kept as literal text afterwards. -/
def applyTs (root : Str) : List SubPiece → VarCounts → List (Str × Str) →
    List EPiece × VarCounts × List (Str × Str)
  | [], cnt, vars => ([], cnt, vars)
  | .lit c :: rest, cnt, vars =>
      let r := applyTs root rest cnt vars
      (.lit [c] :: r.1, r.2)
  | .ts text :: rest, cnt, vars =>
      if cnt.total ≥ 10 then
        let r := applyTs root rest cnt vars
        (.lit text :: r.1, r.2)
      else
        let name := varName root cnt.tsc "timestamp".toList
        let r := applyTs root rest
          { cnt with tsc := cnt.tsc + 1, total := cnt.total + 1 }
          (dictSet vars name text)
        (.ph name text :: r.1, r.2)

/-- One step of the token loop (`clp.py` lines 37-57): whitespace and
empty tokens pass through; otherwise the five matchers are tried in
order while under the cap. -/
def tokenStep (root : Str) (cnt : VarCounts) (vars : List (Str × Str)) (tok : Str) :
    EPiece × VarCounts × List (Str × Str) :=
  if tok.all isSpaceChar then (.lit tok, cnt, vars)
  else if cnt.total < 10 && tsFullmatch tok then
    let name := varName root cnt.tsc "timestamp".toList
    (.ph name tok, { cnt with tsc := cnt.tsc + 1, total := cnt.total + 1 },
      dictSet vars name tok)
  else if cnt.total < 10 && matchNumber tok then
    let name := varName root cnt.num "number".toList
    (.ph name tok, { cnt with num := cnt.num + 1, total := cnt.total + 1 },
      dictSet vars name tok)
  else if cnt.total < 10 && matchTime tok then
    let name := varName root cnt.tim "time".toList
    (.ph name tok, { cnt with tim := cnt.tim + 1, total := cnt.total + 1 },
      dictSet vars name tok)
  else if cnt.total < 10 && matchHex tok then
    let name := varName root cnt.hex "hex".toList
    (.ph name tok, { cnt with hex := cnt.hex + 1, total := cnt.total + 1 },
      dictSet vars name tok)
  else if cnt.total < 10 && matchIp tok then
    let name := varName root cnt.ip "ip".toList
    (.ph name tok, { cnt with ip := cnt.ip + 1, total := cnt.total + 1 },
      dictSet vars name tok)
  else (.lit tok, cnt, vars)

/-- The token loop folded over a token list. -/
def tokenLoop (root : Str) : List Str → VarCounts → List (Str × Str) →
    List EPiece × VarCounts × List (Str × Str)
  | [], cnt, vars => ([], cnt, vars)
  | tok :: toks, cnt, vars =>
      let s := tokenStep root cnt vars tok
      let r := tokenLoop root toks s.2.1 s.2.2
      (s.1 :: r.1, r.2)

/-- `extract_pattern(log_message, root)`: timestamp pre-pass, tokenize
the substituted string, token loop, join the pattern. -/
def extract_pattern (s : Str) (root : Str) : Str × List (Str × Str) :=
  let p0 := applyTs root (tsScanF s.length false s) VarCounts.zero []
  let s1 := joinPat p0.1
  let toks := tokenize s1
  let r := tokenLoop root toks p0.2.1 p0.2.2
  (joinPat r.1, r.2.2)

/-- `str.replace(old, new)` with an explicit fuel (the input length);
each step consumes at least one character so the fuel suffices (see
`replaceAll_eq_W`). -/
def replaceAllGo : Nat → Str → Str → Str → Str
  | 0, s, _, _ => s
  | fuel + 1, s, old, new =>
    match s with
    | [] => []
    | c :: cs =>
      if old.isPrefixOf (c :: cs) then new ++ replaceAllGo fuel ((c :: cs).drop old.length) old new
      else c :: replaceAllGo fuel cs old new

/-- Python `s.replace(old, new)` (for non-empty `old`; `clp.py` only
replaces `{name}` patterns, which are never empty). -/
def replaceAll (s old new : Str) : Str :=
  if old.isEmpty then s else replaceAllGo s.length s old new

/-- Reference version of `replaceAll` by well-founded recursion. -/
def replaceAllW (s old new : Str) (hold : old ≠ []) : Str :=
  match s with
  | [] => []
  | c :: cs =>
    if old.isPrefixOf (c :: cs) then new ++ replaceAllW ((c :: cs).drop old.length) old new hold
    else c :: replaceAllW cs old new hold
termination_by s.length
decreasing_by
  · have hlen : 1 ≤ old.length := by
      cases old with
      | nil => exact absurd rfl hold
      | cons o os => simp
    simp only [List.length_drop, List.length_cons]
    omega
  · simp

/-- `rehydrate_message(pattern_str, variables)`: replace each `{name}`
by its value, in dict order, skipping falsy (empty) values. -/
def rehydrate_message (p : Str) (vars : List (Str × Str)) : Str :=
  vars.foldl (fun acc nv =>
    if nv.2.isEmpty then acc else replaceAll acc ('{' :: (nv.1 ++ ['}'])) nv.2) p

/-! ### The ten-variable cap (claim C6) -/

theorem dictSet_length {κ α : Type} [DecidableEq κ] (l : List (κ × α)) (k : κ) (v : α) :
    (dictSet l k v).length ≤ l.length + 1 := by
  induction l with
  | nil => simp [dictSet]
  | cons p t ih =>
      rcases p with ⟨k', v'⟩
      simp only [dictSet]
      split
      · simp
      · simpa using ih

/-- The state invariant of the extractor: the variables dict never has
more entries than `total_vars`, and `total_vars` never exceeds 10. -/
def CapInv (cnt : VarCounts) (vars : List (Str × Str)) : Prop :=
  vars.length ≤ cnt.total ∧ cnt.total ≤ 10

theorem applyTs_inv (root : Str) :
    ∀ (ps : List SubPiece) (cnt : VarCounts) (vars : List (Str × Str)),
      CapInv cnt vars → CapInv (applyTs root ps cnt vars).2.1 (applyTs root ps cnt vars).2.2 := by
  intro ps
  induction ps with
  | nil => intro cnt vars h; exact h
  | cons p rest ih =>
      intro cnt vars h
      cases p with
      | lit c => exact ih cnt vars h
      | ts text =>
          rw [applyTs]
          split
          · exact ih cnt vars h
          · rename_i hlt
            obtain ⟨h1, h2⟩ := h
            refine ih _ _ ⟨?_, ?_⟩
            · show (dictSet vars (varName root cnt.tsc "timestamp".toList) text).length ≤
                cnt.total + 1
              have := dictSet_length vars (varName root cnt.tsc "timestamp".toList) text
              omega
            · show cnt.total + 1 ≤ 10
              omega

theorem tokenStep_inv (root : Str) (cnt : VarCounts) (vars : List (Str × Str)) (tok : Str)
    (h : CapInv cnt vars) :
    CapInv (tokenStep root cnt vars tok).2.1 (tokenStep root cnt vars tok).2.2 := by
  obtain ⟨h1, h2⟩ := h
  rw [tokenStep]
  split_ifs with c1 c2 c3 c4 c5 c6
  · exact ⟨h1, h2⟩
  · have hlt : cnt.total < 10 := by
      simp only [Bool.and_eq_true, decide_eq_true_eq] at c2; exact c2.1
    constructor
    · show (dictSet vars (varName root cnt.tsc "timestamp".toList) tok).length ≤ cnt.total + 1
      have := dictSet_length vars (varName root cnt.tsc "timestamp".toList) tok
      omega
    · show cnt.total + 1 ≤ 10
      omega
  · have hlt : cnt.total < 10 := by
      simp only [Bool.and_eq_true, decide_eq_true_eq] at c3; exact c3.1
    constructor
    · show (dictSet vars (varName root cnt.num "number".toList) tok).length ≤ cnt.total + 1
      have := dictSet_length vars (varName root cnt.num "number".toList) tok
      omega
    · show cnt.total + 1 ≤ 10
      omega
  · have hlt : cnt.total < 10 := by
      simp only [Bool.and_eq_true, decide_eq_true_eq] at c4; exact c4.1
    constructor
    · show (dictSet vars (varName root cnt.tim "time".toList) tok).length ≤ cnt.total + 1
      have := dictSet_length vars (varName root cnt.tim "time".toList) tok
      omega
    · show cnt.total + 1 ≤ 10
      omega
  · have hlt : cnt.total < 10 := by
      simp only [Bool.and_eq_true, decide_eq_true_eq] at c5; exact c5.1
    constructor
    · show (dictSet vars (varName root cnt.hex "hex".toList) tok).length ≤ cnt.total + 1
      have := dictSet_length vars (varName root cnt.hex "hex".toList) tok
      omega
    · show cnt.total + 1 ≤ 10
      omega
  · have hlt : cnt.total < 10 := by
      simp only [Bool.and_eq_true, decide_eq_true_eq] at c6; exact c6.1
    constructor
    · show (dictSet vars (varName root cnt.ip "ip".toList) tok).length ≤ cnt.total + 1
      have := dictSet_length vars (varName root cnt.ip "ip".toList) tok
      omega
    · show cnt.total + 1 ≤ 10
      omega
  · exact ⟨h1, h2⟩

theorem tokenLoop_inv (root : Str) :
    ∀ (toks : List Str) (cnt : VarCounts) (vars : List (Str × Str)),
      CapInv cnt vars → CapInv (tokenLoop root toks cnt vars).2.1 (tokenLoop root toks cnt vars).2.2 := by
  intro toks
  induction toks with
  | nil => intro cnt vars h; exact h
  | cons tok toks ih =>
      intro cnt vars h
      exact ih _ _ (tokenStep_inv root cnt vars tok h)

/-- **C6.** At most 10 variables are extracted from any input string:
the returned variable map has at most 10 entries.  On a string with 12
number tokens, exactly 10 are extracted and the 11th and 12th are left
as literal text in the pattern. -/
theorem C6_variable_cap :
    (∀ (s root : Str), (extract_pattern s root).2.length ≤ 10) ∧
    (extract_pattern "1 2 3 4 5 6 7 8 9 10 11 12".toList "a".toList).2.length = 10 ∧
    (extract_pattern "1 2 3 4 5 6 7 8 9 10 11 12".toList "a".toList).1 =
      ("{var_a_0_number} {var_a_1_number} {var_a_2_number} {var_a_3_number} " ++
       "{var_a_4_number} {var_a_5_number} {var_a_6_number} {var_a_7_number} " ++
       "{var_a_8_number} {var_a_9_number} 11 12").toList := by
  refine ⟨?_, by decide, by decide⟩
  intro s root
  have h0 : CapInv VarCounts.zero [] := ⟨by simp, by simp [VarCounts.zero]⟩
  have h1 := applyTs_inv root (tsScanF s.length false s) VarCounts.zero [] h0
  have h2 := tokenLoop_inv root
    (tokenize (joinPat (applyTs root (tsScanF s.length false s) VarCounts.zero []).1))
    _ _ h1
  exact le_trans h2.1 h2.2

/-! ### `replaceAll` infrastructure (claim C2) -/

/-- The fueled `replaceAll` agrees with the well-founded reference
version: the fuel (input length) always suffices. -/
theorem replaceAllGo_eq_W : ∀ (fuel : Nat) (s old new : Str) (hold : old ≠ []),
    s.length ≤ fuel → replaceAllGo fuel s old new = replaceAllW s old new hold := by
  intro fuel
  induction fuel with
  | zero =>
      intro s old new hold h
      rcases s with _ | ⟨c, cs⟩
      · rw [replaceAllGo, replaceAllW]
      · simp at h
  | succ fuel ih =>
      intro s old new hold h
      rcases s with _ | ⟨c, cs⟩
      · rw [replaceAllGo, replaceAllW]
      · rw [replaceAllGo, replaceAllW]
        have holdlen : 1 ≤ old.length := by
          cases old with
          | nil => exact absurd rfl hold
          | cons o os => simp
        split
        · rw [ih _ old new hold (by
            simp only [List.length_drop, List.length_cons] at h ⊢
            omega)]
        · rw [ih cs old new hold (by simp only [List.length_cons] at h; omega)]

theorem replaceAll_eq_W (s old new : Str) (hold : old ≠ []) :
    replaceAll s old new = replaceAllW s old new hold := by
  rw [replaceAll, if_neg (by simpa using hold)]
  exact replaceAllGo_eq_W s.length s old new hold le_rfl

/-- Skipping a segment in which no occurrence of the needle starts. -/
theorem replaceAllW_append (needle v : Str) (hn : needle ≠ []) :
    ∀ (A T : Str), (∀ k, k < A.length → ¬ needle <+: (A ++ T).drop k) →
      replaceAllW (A ++ T) needle v hn = A ++ replaceAllW T needle v hn := by
  intro A
  induction A with
  | nil => intro T _; simp
  | cons c A' ih =>
      intro T hocc
      rw [List.cons_append, replaceAllW]
      rw [if_neg (by
        intro hpre
        exact hocc 0 (by simp) (by
          simpa using (List.isPrefixOf_iff_prefix.1 hpre)))]
      rw [ih T (fun k hk => by
        have := hocc (k + 1) (by simpa using Nat.succ_lt_succ hk)
        simpa using this)]
      rfl

/-- Replacing at an occurrence. -/
theorem replaceAllW_head (needle v B : Str) (hn : needle ≠ []) :
    replaceAllW (needle ++ B) needle v hn = v ++ replaceAllW B needle v hn := by
  rcases hne : needle ++ B with _ | ⟨c, cs⟩
  · exact absurd (List.append_eq_nil.1 hne).1 hn
  · rw [← hne, replaceAllW.eq_def]
    split
    · rename_i heq
      exact absurd heq.symm (by rw [hne]; simp)
    · rename_i c' cs' heq
      rw [← heq]
      rw [if_pos (List.isPrefixOf_iff_prefix.2 (List.prefix_append needle B))]
      rw [List.drop_left]

/-- No occurrence at all: `replaceAllW` is the identity. -/
theorem replaceAllW_no_occ (needle v : Str) (hn : needle ≠ []) (B : Str)
    (h : ∀ k, k < B.length → ¬ needle <+: B.drop k) :
    replaceAllW B needle v hn = B := by
  have hmain := replaceAllW_append needle v hn B [] (by simpa using h)
  have h0 : replaceAllW [] needle v hn = [] := by rw [replaceAllW]
  rw [h0] at hmain
  simpa using hmain

/-- Two bracketed names, one a prefix of the other's bracketed form
followed by anything: the names are equal (for brace-free names). -/
theorem bracket_prefix_eq : ∀ (n₁ n₂ t : Str),
    ('{' ∉ n₁) → ('}' ∉ n₁) → ('{' ∉ n₂) → ('}' ∉ n₂) →
    ('{' :: (n₁ ++ ['}'])) <+: ('{' :: (n₂ ++ ['}']) ++ t) → n₁ = n₂ := by
  intro n₁
  induction n₁ with
  | nil =>
      intro n₂ t _ _ h2l h2r hpre
      obtain ⟨u, hu⟩ := hpre
      simp only [List.nil_append, List.cons_append] at hu
      injection hu with _ hu2
      cases n₂ with
      | nil => rfl
      | cons b m =>
          exfalso
          simp only [List.cons_append] at hu2
          injection hu2 with hb _
          exact h2r (by rw [hb]; exact List.mem_cons_self _ _)
  | cons a m ih =>
      intro n₂ t h1l h1r h2l h2r hpre
      obtain ⟨u, hu⟩ := hpre
      simp only [List.cons_append] at hu
      injection hu with _ hu2
      cases n₂ with
      | nil =>
          exfalso
          simp only [List.nil_append] at hu2
          injection hu2 with ha _
          exact h1r (by rw [← ha]; exact List.mem_cons_self _ _)
      | cons b m₂ =>
          simp only [List.cons_append] at hu2
          injection hu2 with hab hu3
          subst hab
          have : m = m₂ := by
            refine ih m₂ t (fun hc => h1l (List.mem_cons_of_mem _ hc))
              (fun hc => h1r (List.mem_cons_of_mem _ hc))
              (fun hc => h2l (List.mem_cons_of_mem _ hc))
              (fun hc => h2r (List.mem_cons_of_mem _ hc)) ?_
            exact ⟨u, by simpa [List.cons_append, List.append_assoc] using hu3⟩
          rw [this]

/-- The `(name, value)` pairs of the placeholder pieces, in order. -/
def phList (l : List EPiece) : List (Str × Str) :=
  l.filterMap (fun p => match p with | .ph n v => some (n, v) | .lit _ => none)

/-- Conditions every piece of a faithful decomposition satisfies:
literal text is brace-free, names are brace-free, values are brace-free
and non-empty. -/
def PiecesOK (l : List EPiece) : Prop :=
  (∀ t, EPiece.lit t ∈ l → '{' ∉ t) ∧
  (∀ n v, EPiece.ph n v ∈ l → ('{' ∉ n ∧ '}' ∉ n ∧ '{' ∉ v ∧ v ≠ []))

/-- `needle` starts nowhere inside `X` (viewed with continuation `T`). -/
def NoOccStart (needle X T : Str) : Prop :=
  ∀ k, k < X.length → ¬ needle <+: (X ++ T).drop k

theorem noOcc_append {needle A B T : Str} (hA : NoOccStart needle A (B ++ T))
    (hB : NoOccStart needle B T) : NoOccStart needle (A ++ B) T := by
  intro k hk
  rw [List.append_assoc]
  by_cases hka : k < A.length
  · exact hA k hka
  · have hj : k = A.length + (k - A.length) := by omega
    rw [hj, List.drop_append]
    refine hB (k - A.length) ?_
    rw [List.length_append] at hk
    omega

theorem noOcc_litstr {needle : Str} {nr : Str} (hne : needle = '{' :: nr) :
    ∀ (t T : Str), '{' ∉ t → NoOccStart needle t T := by
  intro t
  induction t with
  | nil => intro T _ k hk; simp at hk
  | cons c t' ih =>
      intro T hbr k hk
      rcases k with _ | k
      · intro hpre
        obtain ⟨u, hu⟩ := hpre
        rw [hne] at hu
        simp only [List.drop_zero, List.cons_append] at hu
        injection hu with hc _
        exact hbr (by rw [hc]; exact List.mem_cons_self _ _)
      · have : (c :: t' ++ T).drop (k + 1) = (t' ++ T).drop k := by simp
        rw [this]
        refine ih T (fun hm => hbr (List.mem_cons_of_mem _ hm)) k ?_
        simpa using Nat.lt_of_succ_lt_succ hk

theorem noOcc_ph {n₀ : Str} (h0l : '{' ∉ n₀) (h0r : '}' ∉ n₀)
    (n v : Str) (hnl : '{' ∉ n) (hnr : '}' ∉ n) (hne : n ≠ n₀) (T : Str) :
    NoOccStart ('{' :: (n₀ ++ ['}'])) (patText (.ph n v)) T := by
  intro k hk
  rcases k with _ | k
  · intro hpre
    refine hne ?_
    refine (bracket_prefix_eq n₀ n T h0l h0r hnl hnr ?_).symm
    simpa [patText, List.append_assoc] using hpre
  · have hred : (patText (.ph n v) ++ T).drop (k + 1) = ((n ++ ['}']) ++ T).drop k := by
      simp [patText]
    rw [hred]
    have hbr : '{' ∉ n ++ ['}'] := by
      intro hm
      rcases List.mem_append.1 hm with h' | h'
      · exact hnl h'
      · simp at h'
    refine noOcc_litstr rfl (n ++ ['}']) T hbr k ?_
    simp only [patText, List.length_cons, List.length_append, List.length_singleton] at hk ⊢
    omega

theorem joinPat_append (A B : List EPiece) : joinPat (A ++ B) = joinPat A ++ joinPat B := by
  simp [joinPat]

theorem joinPat_cons (p : EPiece) (B : List EPiece) :
    joinPat (p :: B) = patText p ++ joinPat B := by
  simp [joinPat]

theorem joinVal_append (A B : List EPiece) : joinVal (A ++ B) = joinVal A ++ joinVal B := by
  simp [joinVal]

theorem joinVal_cons (p : EPiece) (B : List EPiece) :
    joinVal (p :: B) = valText p ++ joinVal B := by
  simp [joinVal]

theorem PiecesOK_of_append {A B : List EPiece} (h : PiecesOK (A ++ B)) :
    PiecesOK A ∧ PiecesOK B := by
  refine ⟨⟨fun t ht => h.1 t (List.mem_append.2 (Or.inl ht)),
          fun n v hm => h.2 n v (List.mem_append.2 (Or.inl hm))⟩,
         ⟨fun t ht => h.1 t (List.mem_append.2 (Or.inr ht)),
          fun n v hm => h.2 n v (List.mem_append.2 (Or.inr hm))⟩⟩

theorem noOcc_pieces {n₀ : Str} (h0l : '{' ∉ n₀) (h0r : '}' ∉ n₀) :
    ∀ (P : List EPiece) (T : Str), PiecesOK P →
      (∀ n v, EPiece.ph n v ∈ P → n ≠ n₀) →
      NoOccStart ('{' :: (n₀ ++ ['}'])) (joinPat P) T := by
  intro P
  induction P with
  | nil => intro T _ _ k hk; simp [joinPat] at hk
  | cons p P' ih =>
      intro T hok hname
      rw [joinPat_cons]
      refine noOcc_append ?_ (ih T
        ⟨fun t ht => hok.1 t (List.mem_cons_of_mem _ ht),
         fun n v hm => hok.2 n v (List.mem_cons_of_mem _ hm)⟩
        (fun n v hm => hname n v (List.mem_cons_of_mem _ hm)))
      cases p with
      | lit t => exact noOcc_litstr rfl t _ (hok.1 t (List.mem_cons_self _ _))
      | ph n v =>
          obtain ⟨hnl, hnr, _, _⟩ := hok.2 n v (List.mem_cons_self _ _)
          exact noOcc_ph h0l h0r n v hnl hnr (hname n v (List.mem_cons_self _ _)) _

/-- Replacing the unique `{n₀}` placeholder by its value turns the
placeholder piece into a literal piece. -/
theorem replace_step (P1 P2 : List EPiece) (n₀ v₀ : Str)
    (hok : PiecesOK (P1 ++ .ph n₀ v₀ :: P2))
    (hname : ∀ n v, EPiece.ph n v ∈ P1 ++ P2 → n ≠ n₀) :
    replaceAllW (joinPat (P1 ++ .ph n₀ v₀ :: P2)) ('{' :: (n₀ ++ ['}'])) v₀ (by simp) =
      joinPat (P1 ++ .lit v₀ :: P2) := by
  obtain ⟨h0l, h0r, _, _⟩ := hok.2 n₀ v₀ (List.mem_append.2 (Or.inr (List.mem_cons_self _ _)))
  have hokpair := PiecesOK_of_append hok
  have hok2 : PiecesOK P2 :=
    ⟨fun t ht => hokpair.2.1 t (List.mem_cons_of_mem _ ht),
     fun n v hm => hokpair.2.2 n v (List.mem_cons_of_mem _ hm)⟩
  rw [joinPat_append, joinPat_cons]
  have hA := noOcc_pieces h0l h0r P1 (patText (.ph n₀ v₀) ++ joinPat P2) hokpair.1
    (fun n v hm => hname n v (List.mem_append.2 (Or.inl hm)))
  rw [replaceAllW_append _ _ _ _ _ hA]
  have hpat : patText (EPiece.ph n₀ v₀) = '{' :: (n₀ ++ ['}']) := rfl
  rw [hpat, replaceAllW_head]
  rw [replaceAllW_no_occ _ _ _ _ (by
    have := noOcc_pieces h0l h0r P2 [] hok2
      (fun n v hm => hname n v (List.mem_append.2 (Or.inr hm)))
    intro k hk
    have h' := this k hk
    simpa using h')]
  rw [joinPat_append, joinPat_cons]
  rfl

theorem phList_append (A B : List EPiece) : phList (A ++ B) = phList A ++ phList B := by
  simp [phList]

theorem phList_all_lit {P : List EPiece} (h : phList P = []) :
    joinPat P = joinVal P := by
  induction P with
  | nil => rfl
  | cons p P' ih =>
      cases p with
      | lit t =>
          rw [joinPat_cons, joinVal_cons]
          have h' : phList P' = [] := by simpa [phList] using h
          rw [ih h']
          rfl
      | ph n v => simp [phList] at h

theorem mem_phList {n v : Str} {P : List EPiece} (h : EPiece.ph n v ∈ P) :
    (n, v) ∈ phList P := by
  rw [phList, List.mem_filterMap]
  exact ⟨_, h, rfl⟩

/-- The fold at the heart of `rehydrate_message` undoes the pattern when
the variables are exactly the placeholders (in any order, distinct
names). -/
theorem rehydrate_fold : ∀ (vars : List (Str × Str)) (pieces : List EPiece),
    PiecesOK pieces → vars.Perm (phList pieces) →
    ((phList pieces).map Prod.fst).Nodup →
    List.foldl (fun acc nv =>
      if nv.2.isEmpty then acc else replaceAll acc ('{' :: (nv.1 ++ ['}'])) nv.2)
      (joinPat pieces) vars = joinVal pieces := by
  intro vars
  induction vars with
  | nil =>
      intro pieces _ hperm _
      have hnil : phList pieces = [] := List.Perm.eq_nil hperm.symm
      simp only [List.foldl_nil]
      exact phList_all_lit hnil
  | cons nv tail ih =>
      intro pieces hok hperm hnodup
      obtain ⟨n₀, v₀⟩ := nv
      have hmem : EPiece.ph n₀ v₀ ∈ pieces := by
        have hm := hperm.subset (List.mem_cons_self _ _)
        rw [phList, List.mem_filterMap] at hm
        obtain ⟨p, hp, he⟩ := hm
        cases p with
        | lit t => simp at he
        | ph n v =>
            simp only [Option.some.injEq, Prod.mk.injEq] at he
            obtain ⟨rfl, rfl⟩ := he
            exact hp
      obtain ⟨P1, P2, rfl⟩ := List.append_of_mem hmem
      obtain ⟨h0l, h0r, h0v, h0ne⟩ :=
        hok.2 n₀ v₀ (List.mem_append.2 (Or.inr (List.mem_cons_self _ _)))
      have hph : phList (P1 ++ EPiece.ph n₀ v₀ :: P2) =
          phList P1 ++ (n₀, v₀) :: phList P2 := by
        simp [phList]
      rw [hph] at hperm hnodup
      have hmap : ((phList P1 ++ (n₀, v₀) :: phList P2).map Prod.fst) =
          (phList P1).map Prod.fst ++ n₀ :: (phList P2).map Prod.fst := by
        simp
      rw [hmap] at hnodup
      have hnd := List.nodup_append.1 hnodup
      have hn0A : n₀ ∉ (phList P1).map Prod.fst := fun hc =>
        hnd.2.2 hc (List.mem_cons_self _ _)
      have hn0B : n₀ ∉ (phList P2).map Prod.fst := by
        have h' := hnd.2.1
        rw [List.nodup_cons] at h'
        exact h'.1
      have hname : ∀ n v, EPiece.ph n v ∈ P1 ++ P2 → n ≠ n₀ := by
        intro n v hm hcontra
        subst hcontra
        rcases List.mem_append.1 hm with h' | h'
        · exact hn0A (List.mem_map.2 ⟨(n, v), mem_phList h', rfl⟩)
        · exact hn0B (List.mem_map.2 ⟨(n, v), mem_phList h', rfl⟩)
      have hempty : v₀.isEmpty = false := by
        cases v₀ with
        | nil => exact absurd rfl h0ne
        | cons a l => rfl
      have hok' : PiecesOK (P1 ++ EPiece.lit v₀ :: P2) := by
        constructor
        · intro t ht
          rcases List.mem_append.1 ht with h' | h'
          · exact hok.1 t (List.mem_append.2 (Or.inl h'))
          · rcases List.mem_cons.1 h' with h'' | h''
            · injection h'' with h; subst h; exact h0v
            · exact hok.1 t (List.mem_append.2 (Or.inr (List.mem_cons_of_mem _ h'')))
        · intro n v hm
          rcases List.mem_append.1 hm with h' | h'
          · exact hok.2 n v (List.mem_append.2 (Or.inl h'))
          · rcases List.mem_cons.1 h' with h'' | h''
            · cases h''
            · exact hok.2 n v (List.mem_append.2 (Or.inr (List.mem_cons_of_mem _ h'')))
      have hph2 : phList (P1 ++ EPiece.lit v₀ :: P2) = phList P1 ++ phList P2 := by
        simp [phList]
      have hperm' : tail.Perm (phList (P1 ++ EPiece.lit v₀ :: P2)) := by
        rw [hph2]
        exact (hperm.trans List.perm_middle).cons_inv
      have hnodup' : ((phList (P1 ++ EPiece.lit v₀ :: P2)).map Prod.fst).Nodup := by
        rw [hph2, List.map_append]
        refine List.Nodup.append hnd.1 ?_ ?_
        · have h' := hnd.2.1
          rw [List.nodup_cons] at h'
          exact h'.2
        · intro a haA haB
          exact hnd.2.2 haA (List.mem_cons_of_mem _ haB)
      have hval : joinVal (P1 ++ EPiece.lit v₀ :: P2) =
          joinVal (P1 ++ EPiece.ph n₀ v₀ :: P2) := by
        rw [joinVal_append, joinVal_append, joinVal_cons, joinVal_cons]
        rfl
      have hstep : replaceAll (joinPat (P1 ++ EPiece.ph n₀ v₀ :: P2))
          ('{' :: (n₀ ++ ['}'])) v₀ = joinPat (P1 ++ EPiece.lit v₀ :: P2) := by
        rw [replaceAll_eq_W _ _ _ (by simp : ('{' :: (n₀ ++ ['}']) : Str) ≠ [])]
        exact replace_step P1 P2 n₀ v₀ hok hname
      simp only [List.foldl_cons, hempty, Bool.false_eq_true, if_false]
      rw [hstep, ← hval]
      exact ih _ hok' hperm' hnodup'

/-! ### Bridging `extract_pattern` to a piece decomposition (claim C2) -/

/-- The text a timestamp-scan piece stands for. -/
def subText : SubPiece → Str
  | .lit c => [c]
  | .ts t => t

/-- Whether a scan piece is a plain literal (no timestamp match). -/
def SubPiece.isLit : SubPiece → Bool
  | .lit _ => true
  | .ts _ => false

theorem tsScan_join : ∀ (fuel : Nat) (b : Bool) (s : Str),
    ((tsScanF fuel b s).map subText).flatten = s := by
  intro fuel
  induction fuel with
  | zero =>
      intro b s
      induction s with
      | nil => rfl
      | cons c cs ihs =>
          simp only [tsScanF, List.map_cons, List.flatten_cons, subText,
            List.singleton_append] at ihs ⊢
          rw [ihs]
  | succ f ih =>
      intro b s
      cases s with
      | nil => rfl
      | cons c rest =>
          rw [tsScanF]
          by_cases hb : b
          · simp only [if_pos hb, List.map_cons, List.flatten_cons, ih]
            rfl
          · rw [if_neg hb]
            cases hm : tsMatchLen (c :: rest) with
            | some n =>
                simp only [List.map_cons, List.flatten_cons, ih, subText]
                exact List.take_append_drop n (c :: rest)
            | none =>
                simp only [List.map_cons, List.flatten_cons, ih]
                rfl

theorem applyTs_lits (root : Str) : ∀ (l : List SubPiece) (cnt : VarCounts)
    (vars : List (Str × Str)), l.all SubPiece.isLit = true →
    applyTs root l cnt vars = (l.map (fun p => EPiece.lit (subText p)), cnt, vars) := by
  intro l
  induction l with
  | nil => intro cnt vars _; rfl
  | cons p rest ih =>
      intro cnt vars hall
      rw [List.all_cons, Bool.and_eq_true] at hall
      cases p with
      | lit c =>
          rw [applyTs, ih cnt vars hall.2]
          rfl
      | ts t => simp [SubPiece.isLit] at hall

theorem tokGo_flatten : ∀ (s : Str),
    (∀ cur, (tokenizeGo cur s).flatten = cur ++ s) ∧
    (∀ ws, (spaceGo ws s).flatten = ws ++ s) := by
  intro s
  induction s with
  | nil =>
      constructor
      · intro cur; simp [tokenizeGo]
      · intro ws; simp [spaceGo]
  | cons c rest ih =>
      constructor
      · intro cur
        rw [tokenizeGo]
        by_cases h1 : isSpaceChar c
        · rw [if_pos h1]
          simp only [List.flatten_cons, ih.2]
          simp
        · rw [if_neg h1]
          by_cases h2 : isSpecialSep c
          · rw [if_pos h2]
            simp only [List.flatten_cons, ih.1]
            simp
          · rw [if_neg h2, ih.1]
            simp
      · intro ws
        rw [spaceGo]
        by_cases h1 : isSpaceChar c
        · rw [if_pos h1, ih.2]
          simp
        · rw [if_neg h1]
          by_cases h2 : isSpecialSep c
          · rw [if_pos h2]
            simp only [List.flatten_cons, ih.1]
            simp
          · rw [if_neg h2]
            simp only [List.flatten_cons, ih.1]
            simp

theorem tokenize_flatten (s : Str) : (tokenize s).flatten = s := by
  rw [tokenize, (tokGo_flatten s).1]
  rfl

theorem mem_of_mem_token {s t : Str} {c : Char} (ht : t ∈ tokenize s) (hc : c ∈ t) :
    c ∈ s := by
  have h := List.mem_flatten.2 ⟨t, ht, hc⟩
  rwa [tokenize_flatten] at h

/-- The five variable kinds of the token loop. -/
inductive VKind where
  | tsc | num | tim | hex | ip
deriving DecidableEq

/-- The kind string used in the variable name. -/
def kindName : VKind → Str
  | .tsc => "timestamp".toList
  | .num => "number".toList
  | .tim => "time".toList
  | .hex => "hex".toList
  | .ip => "ip".toList

/-- The per-kind counter. -/
def kindCount (cnt : VarCounts) : VKind → Nat
  | .tsc => cnt.tsc
  | .num => cnt.num
  | .tim => cnt.tim
  | .hex => cnt.hex
  | .ip => cnt.ip

theorem kindName_inj : ∀ k k' : VKind, kindName k = kindName k' → k = k' := by
  intro k k'
  cases k <;> cases k' <;> intro h <;> first | rfl | exact absurd h (by decide)

theorem natToStr_lt10 : ∀ d, d < 10 → natToStr d = [digitChar d] := by decide

theorem digitChar_inj : ∀ d, d < 10 → ∀ d', d' < 10 → digitChar d = digitChar d' → d = d' := by
  decide

theorem varName_inj (root : Str) {d d' : Nat} (hd : d < 10) (hd' : d' < 10)
    {k k' : VKind} (h : varName root d (kindName k) = varName root d' (kindName k')) :
    d = d' ∧ k = k' := by
  rw [varName, varName, natToStr_lt10 d hd, natToStr_lt10 d' hd'] at h
  simp only [List.append_assoc, List.singleton_append, List.cons_append,
    List.append_cancel_left_eq, List.cons.injEq, List.nil_append] at h
  exact ⟨digitChar_inj d hd d' hd' h.1, kindName_inj k k' h.2⟩

theorem kindName_no_brace : ∀ k : VKind, '{' ∉ kindName k ∧ '}' ∉ kindName k := by
  intro k; cases k <;> exact (by decide)

theorem natToStr_no_brace : ∀ d, d < 10 → '{' ∉ natToStr d ∧ '}' ∉ natToStr d := by
  decide

theorem varName_no_brace {root : Str} {d : Nat} (hd : d < 10) (k : VKind)
    (hl : '{' ∉ root) (hr : '}' ∉ root) :
    '{' ∉ varName root d (kindName k) ∧ '}' ∉ varName root d (kindName k) := by
  rw [varName]
  constructor <;> intro hc <;>
    simp only [List.mem_append] at hc
  · rcases hc with ((((h' | h') | h') | h') | h') | h'
    · exact absurd h' (by decide)
    · exact hl h'
    · exact absurd h' (by decide)
    · exact (natToStr_no_brace d hd).1 h'
    · exact absurd h' (by decide)
    · exact (kindName_no_brace k).1 h'
  · rcases hc with ((((h' | h') | h') | h') | h') | h'
    · exact absurd h' (by decide)
    · exact hr h'
    · exact absurd h' (by decide)
    · exact (natToStr_no_brace d hd).2 h'
    · exact absurd h' (by decide)
    · exact (kindName_no_brace k).2 h'

/-- A variable name the loop can have produced so far. -/
def nameFits (root : Str) (cnt : VarCounts) (n : Str) : Prop :=
  ∃ k d, d < kindCount cnt k ∧ n = varName root d (kindName k)

/-- Componentwise growth of the counters. -/
def cntLE (c c' : VarCounts) : Prop := ∀ k, kindCount c k ≤ kindCount c' k

/-- Invariant of the token-loop state `(cnt, vars)`. -/
def StInv (root : Str) (cnt : VarCounts) (vars : List (Str × Str)) : Prop :=
  (∀ nv ∈ vars, nameFits root cnt nv.1) ∧
  (∀ k, kindCount cnt k ≤ cnt.total) ∧ cnt.total ≤ 10 ∧
  (vars.map Prod.fst).Nodup

theorem nameFits_mono {root : Str} {c c' : VarCounts} (h : cntLE c c') {n : Str}
    (hf : nameFits root c n) : nameFits root c' n := by
  obtain ⟨k, d, hd, hn⟩ := hf
  exact ⟨k, d, lt_of_lt_of_le hd (h k), hn⟩

/-- Creating a fresh variable of kind `k` preserves the invariant; the
dict grows by appending the new entry at the end. -/
theorem inv_bump (root : Str) {cnt : VarCounts} {vars : List (Str × Str)}
    (hinv : StInv root cnt vars) (k : VKind) (cnt' : VarCounts)
    (hcounts : ∀ k', kindCount cnt' k' = kindCount cnt k' + (if k' = k then 1 else 0))
    (htot : cnt.total < 10) (htot' : cnt'.total = cnt.total + 1) (tok : Str) :
    dictSet vars (varName root (kindCount cnt k) (kindName k)) tok =
      vars ++ [(varName root (kindCount cnt k) (kindName k), tok)] ∧
    StInv root cnt' (dictSet vars (varName root (kindCount cnt k) (kindName k)) tok) ∧
    nameFits root cnt' (varName root (kindCount cnt k) (kindName k)) ∧
    cntLE cnt cnt' := by
  obtain ⟨hfits, hkc, _, hnd⟩ := hinv
  have hle : cntLE cnt cnt' := fun k' => by rw [hcounts k']; omega
  have hfresh : varName root (kindCount cnt k) (kindName k) ∉ vars.map Prod.fst := by
    intro hc
    obtain ⟨nv, hnv, he⟩ := List.mem_map.1 hc
    obtain ⟨k₀, d, hd, hn⟩ := hfits nv hnv
    have hd10 : d < 10 := lt_of_lt_of_le hd (le_trans (hkc k₀) (le_of_lt htot))
    have hk10 : kindCount cnt k < 10 := lt_of_le_of_lt (hkc k) htot
    obtain ⟨hde, hke⟩ := varName_inj root hd10 hk10 (by rw [← hn, he])
    rw [hke] at hd
    omega
  have happ := dictSet_append_of_notMem tok hfresh
  have hnew : nameFits root cnt' (varName root (kindCount cnt k) (kindName k)) := by
    refine ⟨k, kindCount cnt k, ?_, rfl⟩
    rw [hcounts k, if_pos rfl]
    omega
  refine ⟨happ, ⟨?_, ?_, by omega, ?_⟩, hnew, hle⟩
  · intro nv hnv
    rw [happ] at hnv
    rcases List.mem_append.1 hnv with h' | h'
    · exact nameFits_mono hle (hfits nv h')
    · rcases List.mem_cons.1 h' with h'' | h''
      · rw [h'']; exact hnew
      · simp at h''
  · intro k'
    rw [hcounts k', htot']
    have := hkc k'
    split_ifs <;> omega
  · rw [happ, List.map_append]
    rw [List.nodup_append]
    refine ⟨hnd, by simp, ?_⟩
    intro a ha ha'
    simp only [List.map_cons, List.map_nil, List.mem_cons, List.not_mem_nil,
      or_false] at ha'
    rw [ha'] at ha
    exact hfresh ha

/-- What one token-loop step guarantees, literal case. -/
theorem stepSpecLit (root : Str) (cnt : VarCounts) (vars : List (Str × Str)) (tok : Str)
    (hinv : StInv root cnt vars) :
    valText (EPiece.lit tok) = tok ∧
    vars = vars ++ phList [EPiece.lit tok] ∧
    StInv root cnt vars ∧
    (∀ t, EPiece.lit tok = EPiece.lit t → t = tok) ∧
    (∀ n v, EPiece.lit tok = EPiece.ph n v →
      v = tok ∧ v ≠ [] ∧ nameFits root cnt n) ∧
    cntLE cnt cnt :=
  ⟨rfl, by simp [phList], hinv, fun t ht => (EPiece.lit.inj ht).symm,
    fun n v hc => absurd hc (by simp), fun k => le_rfl⟩

/-- What one token-loop step guarantees, fresh-variable case. -/
theorem stepSpecPh (root : Str) (cnt cnt' : VarCounts) (vars : List (Str × Str))
    (tok : Str) (k : VKind) (hinv : StInv root cnt vars)
    (hcounts : ∀ k', kindCount cnt' k' = kindCount cnt k' + (if k' = k then 1 else 0))
    (htot : cnt.total < 10) (htot' : cnt'.total = cnt.total + 1)
    (htok : ¬ (tok.all isSpaceChar = true)) :
    valText (EPiece.ph (varName root (kindCount cnt k) (kindName k)) tok) = tok ∧
    dictSet vars (varName root (kindCount cnt k) (kindName k)) tok =
      vars ++ phList [EPiece.ph (varName root (kindCount cnt k) (kindName k)) tok] ∧
    StInv root cnt' (dictSet vars (varName root (kindCount cnt k) (kindName k)) tok) ∧
    (∀ t, EPiece.ph (varName root (kindCount cnt k) (kindName k)) tok = EPiece.lit t →
      t = tok) ∧
    (∀ n v, EPiece.ph (varName root (kindCount cnt k) (kindName k)) tok = EPiece.ph n v →
      v = tok ∧ v ≠ [] ∧ nameFits root cnt' n) ∧
    cntLE cnt cnt' := by
  obtain ⟨hb, hinv', hnew, hle⟩ := inv_bump root hinv k cnt' hcounts htot htot' tok
  refine ⟨rfl, ?_, hinv', fun t ht => absurd ht (by simp), ?_, hle⟩
  · rw [hb]
    rfl
  · intro n v hc
    obtain ⟨hn, hv⟩ := EPiece.ph.inj hc
    refine ⟨hv.symm, ?_, ?_⟩
    · intro hnil
      rw [hv, hnil] at htok
      exact htok rfl
    · rw [← hn]
      exact hnew

theorem tokenStep_spec (root : Str) (cnt : VarCounts) (vars : List (Str × Str)) (tok : Str)
    (hinv : StInv root cnt vars) :
    valText (tokenStep root cnt vars tok).1 = tok ∧
    (tokenStep root cnt vars tok).2.2 = vars ++ phList [(tokenStep root cnt vars tok).1] ∧
    StInv root (tokenStep root cnt vars tok).2.1 (tokenStep root cnt vars tok).2.2 ∧
    (∀ t, (tokenStep root cnt vars tok).1 = EPiece.lit t → t = tok) ∧
    (∀ n v, (tokenStep root cnt vars tok).1 = EPiece.ph n v →
      v = tok ∧ v ≠ [] ∧ nameFits root (tokenStep root cnt vars tok).2.1 n) ∧
    cntLE cnt (tokenStep root cnt vars tok).2.1 := by
  rw [tokenStep]
  split_ifs with h1 h2 h3 h4 h5 h6
  · obtain ⟨a, b, c, d, e, f⟩ := stepSpecLit root cnt vars tok hinv
    exact ⟨a, b, c, d, fun n v hc => hc.elim, f⟩
  · rw [Bool.and_eq_true, decide_eq_true_eq] at h2
    obtain ⟨a, b, c, d, e, f⟩ := stepSpecPh root cnt
      { cnt with tsc := cnt.tsc + 1, total := cnt.total + 1 }
      vars tok VKind.tsc hinv (by intro k'; cases k' <;> simp [kindCount]) h2.1 rfl h1
    exact ⟨a, b, c, fun t ht => ht.elim, e, f⟩
  · rw [Bool.and_eq_true, decide_eq_true_eq] at h3
    obtain ⟨a, b, c, d, e, f⟩ := stepSpecPh root cnt
      { cnt with num := cnt.num + 1, total := cnt.total + 1 }
      vars tok VKind.num hinv (by intro k'; cases k' <;> simp [kindCount]) h3.1 rfl h1
    exact ⟨a, b, c, fun t ht => ht.elim, e, f⟩
  · rw [Bool.and_eq_true, decide_eq_true_eq] at h4
    obtain ⟨a, b, c, d, e, f⟩ := stepSpecPh root cnt
      { cnt with tim := cnt.tim + 1, total := cnt.total + 1 }
      vars tok VKind.tim hinv (by intro k'; cases k' <;> simp [kindCount]) h4.1 rfl h1
    exact ⟨a, b, c, fun t ht => ht.elim, e, f⟩
  · rw [Bool.and_eq_true, decide_eq_true_eq] at h5
    obtain ⟨a, b, c, d, e, f⟩ := stepSpecPh root cnt
      { cnt with hex := cnt.hex + 1, total := cnt.total + 1 }
      vars tok VKind.hex hinv (by intro k'; cases k' <;> simp [kindCount]) h5.1 rfl h1
    exact ⟨a, b, c, fun t ht => ht.elim, e, f⟩
  · rw [Bool.and_eq_true, decide_eq_true_eq] at h6
    obtain ⟨a, b, c, d, e, f⟩ := stepSpecPh root cnt
      { cnt with ip := cnt.ip + 1, total := cnt.total + 1 }
      vars tok VKind.ip hinv (by intro k'; cases k' <;> simp [kindCount]) h6.1 rfl h1
    exact ⟨a, b, c, fun t ht => ht.elim, e, f⟩
  · obtain ⟨a, b, c, d, e, f⟩ := stepSpecLit root cnt vars tok hinv
    exact ⟨a, b, c, d, fun n v hc => hc.elim, f⟩

theorem phList_cons (p : EPiece) (l : List EPiece) :
    phList (p :: l) = phList [p] ++ phList l := by
  cases p <;> simp [phList]

theorem phList_cons_rev (p : EPiece) (l : List EPiece) :
    phList [p] ++ phList l = phList (p :: l) := (phList_cons p l).symm

theorem tokenLoop_spec (root : Str) : ∀ (toks : List Str) (cnt : VarCounts)
    (vars : List (Str × Str)), StInv root cnt vars →
    joinVal (tokenLoop root toks cnt vars).1 = toks.flatten ∧
    (tokenLoop root toks cnt vars).2.2 =
      vars ++ phList (tokenLoop root toks cnt vars).1 ∧
    StInv root (tokenLoop root toks cnt vars).2.1 (tokenLoop root toks cnt vars).2.2 ∧
    (∀ t, EPiece.lit t ∈ (tokenLoop root toks cnt vars).1 → t ∈ toks) ∧
    (∀ n v, EPiece.ph n v ∈ (tokenLoop root toks cnt vars).1 →
      v ∈ toks ∧ v ≠ [] ∧ nameFits root (tokenLoop root toks cnt vars).2.1 n) ∧
    cntLE cnt (tokenLoop root toks cnt vars).2.1 := by
  intro toks
  induction toks with
  | nil =>
      intro cnt vars hinv
      exact ⟨rfl, by simp [tokenLoop, phList], hinv,
        fun t ht => absurd ht (by simp [tokenLoop]),
        fun n v hm => absurd hm (by simp [tokenLoop]), fun k => le_rfl⟩
  | cons tok rest ih =>
      intro cnt vars hinv
      obtain ⟨sval, sdict, sinv, slit, sph, sle⟩ := tokenStep_spec root cnt vars tok hinv
      obtain ⟨ival, idict, iinv, ilit, iph, ile⟩ :=
        ih (tokenStep root cnt vars tok).2.1 (tokenStep root cnt vars tok).2.2 sinv
      simp only [tokenLoop]
      refine ⟨?_, ?_, iinv, ?_, ?_, fun k => le_trans (sle k) (ile k)⟩
      · rw [joinVal_cons, sval, ival, List.flatten_cons]
      · refine idict.trans ?_
        rw [sdict, List.append_assoc, phList_cons_rev]
      · intro t ht
        rcases List.mem_cons.1 ht with h' | h'
        · rw [slit t h'.symm]
          exact List.mem_cons_self _ _
        · exact List.mem_cons_of_mem _ (ilit t h')
      · intro n v hm
        rcases List.mem_cons.1 hm with h' | h'
        · obtain ⟨hv, hne, hfit⟩ := sph n v h'.symm
          exact ⟨by rw [hv]; exact List.mem_cons_self _ _, hne,
            nameFits_mono ile hfit⟩
        · obtain ⟨hv, hne, hfit⟩ := iph n v h'
          exact ⟨List.mem_cons_of_mem _ hv, hne, hfit⟩

theorem joinPat_map_lit : ∀ l : List SubPiece,
    joinPat (l.map fun p => EPiece.lit (subText p)) = (l.map subText).flatten := by
  intro l
  induction l with
  | nil => rfl
  | cons p r ih =>
      rw [List.map_cons, joinPat_cons, List.map_cons, List.flatten_cons, ih]
      rfl

/-- **C2 (counterexample).**  On the message `"{var_a_0_number} 5"` with
root `"a"`, the extractor reuses the name `var_a_0_number` that already
occurs literally in the message, and rehydration substitutes both
occurrences: the reconstruction is `"5 5"`, not the original message. -/
theorem C2_counterexample :
    rehydrate_message (extract_pattern "{var_a_0_number} 5".toList "a".toList).1
        (extract_pattern "{var_a_0_number} 5".toList "a".toList).2 =
      "5 5".toList ∧
    rehydrate_message (extract_pattern "{var_a_0_number} 5".toList "a".toList).1
        (extract_pattern "{var_a_0_number} 5".toList "a".toList).2 ≠
      "{var_a_0_number} 5".toList := by
  constructor
  · decide
  · decide
/-! ### Tokenizer composition (for the timestamp pre-pass bridge) -/

theorem tokenizeGo_sepfree : ∀ (X cur : Str), (∀ c ∈ X, isSepChar c = false) →
    tokenizeGo cur X = [cur ++ X] := by
  intro X
  induction X with
  | nil => intro cur _; simp [tokenizeGo]
  | cons c r ih =>
      intro cur hsep
      have hc := hsep c (List.mem_cons_self _ _)
      rw [isSepChar, Bool.or_eq_false_iff] at hc
      rw [tokenizeGo, if_neg (by rw [hc.1]; exact Bool.false_ne_true),
        if_neg (by rw [hc.2]; exact Bool.false_ne_true),
        ih (cur ++ [c]) (fun c' hc' => hsep c' (List.mem_cons_of_mem _ hc'))]
      simp

theorem tokenize_split (c : Char) (Y : Str) (hsp : isSpaceChar c = false)
    (hspec : isSpecialSep c = true) :
    ∀ (X : Str),
      (∀ cur, tokenizeGo cur (X ++ c :: Y) = tokenizeGo cur X ++ [c] :: tokenizeGo [] Y) ∧
      (∀ ws, spaceGo ws (X ++ c :: Y) = spaceGo ws X ++ [c] :: tokenizeGo [] Y) := by
  intro X
  induction X with
  | nil =>
      constructor
      · intro cur
        rw [List.nil_append]
        conv_lhs => rw [tokenizeGo]
        rw [if_neg (by rw [hsp]; exact Bool.false_ne_true), if_pos hspec]
        rfl
      · intro ws
        rw [List.nil_append]
        conv_lhs => rw [spaceGo]
        rw [if_neg (by rw [hsp]; exact Bool.false_ne_true), if_pos hspec]
        rfl
  | cons d X' ih =>
      constructor
      · intro cur
        rw [List.cons_append]
        conv_lhs => rw [tokenizeGo]
        conv_rhs => rw [tokenizeGo]
        by_cases h1 : isSpaceChar d
        · rw [if_pos h1, if_pos h1, ih.2 [d]]
          rfl
        · rw [if_neg h1, if_neg h1]
          by_cases h2 : isSpecialSep d
          · rw [if_pos h2, if_pos h2, ih.1 []]
            rfl
          · rw [if_neg h2, if_neg h2, ih.1 (cur ++ [d])]
      · intro ws
        rw [List.cons_append]
        conv_lhs => rw [spaceGo]
        conv_rhs => rw [spaceGo]
        by_cases h1 : isSpaceChar d
        · rw [if_pos h1, if_pos h1, ih.2 (ws ++ [d])]
        · rw [if_neg h1, if_neg h1]
          by_cases h2 : isSpecialSep d
          · rw [if_pos h2, if_pos h2, ih.1 []]
            rfl
          · rw [if_neg h2, if_neg h2, ih.1 [d]]
            rfl

theorem tokenLoop_append (root : Str) : ∀ (T₁ T₂ : List Str) (cnt : VarCounts)
    (vars : List (Str × Str)),
    tokenLoop root (T₁ ++ T₂) cnt vars =
      ((tokenLoop root T₁ cnt vars).1 ++
        (tokenLoop root T₂ (tokenLoop root T₁ cnt vars).2.1
          (tokenLoop root T₁ cnt vars).2.2).1,
       (tokenLoop root T₂ (tokenLoop root T₁ cnt vars).2.1
          (tokenLoop root T₁ cnt vars).2.2).2) := by
  intro T₁
  induction T₁ with
  | nil => intro T₂ cnt vars; rfl
  | cons tok T₁' ih =>
      intro T₂ cnt vars
      rw [List.cons_append, tokenLoop, tokenLoop, ih]
      rfl

/-- A token whose matchers all fail passes through the loop as literal
text with the state untouched. -/
theorem tokenStep_allFail (root : Str) (cnt : VarCounts) (vars : List (Str × Str))
    (tok : Str) (h1 : tok.all isSpaceChar = false) (h2 : tsFullmatch tok = false)
    (h3 : matchNumber tok = false) (h4 : matchTime tok = false)
    (h5 : matchHex tok = false) (h6 : matchIp tok = false) :
    tokenStep root cnt vars tok = (.lit tok, cnt, vars) := by
  rw [tokenStep, if_neg (by rw [h1]; exact Bool.false_ne_true),
    if_neg (by rw [h2, Bool.and_false]; exact Bool.false_ne_true),
    if_neg (by rw [h3, Bool.and_false]; exact Bool.false_ne_true),
    if_neg (by rw [h4, Bool.and_false]; exact Bool.false_ne_true),
    if_neg (by rw [h5, Bool.and_false]; exact Bool.false_ne_true),
    if_neg (by rw [h6, Bool.and_false]; exact Bool.false_ne_true)]

theorem tsMatchLen_digit : ∀ (l : Str) (n : Nat), tsMatchLen l = some n →
    ∀ c t, l = c :: t → c.isDigit = true := by
  intro l n h
  rw [tsMatchLen.eq_def] at h
  split at h
  · rename_i y1 y2 y3 y4 k1 m1 m2 k2 d1 d2 k3 h1 h2 k4 n1 n2 k5 s1 s2 rest
    intro c t hct
    injection hct with hc _
    split at h
    · rename_i hg
      rw [Bool.and_eq_true] at hg
      have hall := hg.2
      rw [List.all_cons, Bool.and_eq_true] at hall
      rw [← hc]
      exact hall.1
    · cases h
  · exact fun c t hct => Option.noConfusion h

theorem tsFullmatch_head {c : Char} (rest : Str) (hc : c.isDigit = false) :
    tsFullmatch (c :: rest) = false := by
  rw [tsFullmatch]
  rcases hm : tsMatchLen (c :: rest) with _ | n
  · rfl
  · have := tsMatchLen_digit (c :: rest) n hm c rest rfl
    rw [hc] at this
    cases this

theorem matchTime_head {c : Char} (rest : Str) (hc : c.isDigit = false)
    (hs : c ≠ 's') : matchTime (c :: rest) = false := by
  rw [matchTime]
  split
  · rename_i c' ds heq
    have hcm : c ∈ c' :: ds := by
      rw [← heq, List.mem_reverse]
      exact List.mem_cons_self _ _
    by_cases hc' : c' = 's'
    · have hcds : c ∈ ds := by
        rcases List.mem_cons.1 hcm with h' | h'
        · exact absurd (h'.trans hc') hs
        · exact h'
      cases hall : ds.all Char.isDigit
      · rw [Bool.and_false, Bool.and_false]
      · exact absurd (List.all_eq_true.1 hall c hcds)
          (by rw [hc]; exact Bool.false_ne_true)
    · rw [decide_eq_false hc', Bool.false_and]
  · rfl

theorem matchHex_head {c : Char} (rest : Str) (hc : isHexDigit c = false)
    (h0 : c ≠ '0') : matchHex (c :: rest) = false := by
  rcases rest with _ | ⟨c2, rest'⟩ <;> simp [matchHex, hc, h0]

theorem matchIp_head {c : Char} (rest : Str) (hc : c.isDigit = false)
    (hdot : c ≠ '.') : matchIp (c :: rest) = false := by
  rw [matchIp, List.splitOn, List.splitOnP_cons,
    if_neg (by simpa using fun h => hdot (by rw [h]))]
  rcases hsp : rest.splitOnP (fun x => x == '.') with _ | ⟨x, xs⟩
  · exact absurd hsp (List.splitOnP_ne_nil _ _)
  · rw [List.modifyHead]
    split
    · rename_i a b d e heq
      injection heq with ha htail
      rw [← ha, digits13, List.all_cons, hc, Bool.false_and, Bool.and_false,
        Bool.false_and]
      rfl
    · rfl

/-! ### Facts feeding the timestamp bridge -/

theorem matchNumber_head {c : Char} (rest : Str) (hc : c.isDigit = false) :
    matchNumber (c :: rest) = false := by
  simp [matchNumber, hc]

theorem tsTail_ge : ∀ (base : Nat) (rest : Str) (n : Nat),
    tsTail base rest = some n → base ≤ n := by
  intro base rest n h
  cases rest with
  | nil =>
      simp [tsTail, endB] at h
      omega
  | cons c r2 =>
      simp only [tsTail] at h
      repeat' split at h
      all_goals first
        | exact Option.noConfusion h
        | (injection h with hh; omega)

theorem tsMatchLen_ge19 : ∀ (l : Str) (n : Nat), tsMatchLen l = some n → 19 ≤ n := by
  intro l n h
  rw [tsMatchLen.eq_def] at h
  split at h
  · split at h
    · exact tsTail_ge 19 _ n h
    · exact Option.noConfusion h
  · exact Option.noConfusion h

theorem tsScan_ts_ne_nil : ∀ (fuel : Nat) (b : Bool) (s : Str) (text : Str),
    SubPiece.ts text ∈ tsScanF fuel b s → text ≠ [] := by
  intro fuel
  induction fuel with
  | zero =>
      intro b s text hm
      rw [tsScanF] at hm
      obtain ⟨c, _, hce⟩ := List.mem_map.1 hm
      exact SubPiece.noConfusion hce
  | succ f ih =>
      intro b s text hm
      cases s with
      | nil => exact absurd hm (List.not_mem_nil _)
      | cons c rest =>
          rw [tsScanF] at hm
          by_cases hb : b
          · rw [if_pos hb] at hm
            rcases List.mem_cons.1 hm with h' | h'
            · exact SubPiece.noConfusion h'
            · exact ih _ _ _ h'
          · rw [if_neg hb] at hm
            cases hmt : tsMatchLen (c :: rest) with
            | some nn =>
                rw [hmt] at hm
                rcases List.mem_cons.1 hm with h' | h'
                · have hinj := SubPiece.ts.inj h'
                  have h19 := tsMatchLen_ge19 _ _ hmt
                  cases nn with
                  | zero => omega
                  | succ m =>
                      rw [hinj]
                      simp [List.take]
                · exact ih _ _ _ h'
            | none =>
                rw [hmt] at hm
                rcases List.mem_cons.1 hm with h' | h'
                · exact SubPiece.noConfusion h'
                · exact ih _ _ _ h'

theorem varName_head (root : Str) (d : Nat) (kind : Str) :
    varName root d kind =
      'v' :: ("ar_".toList ++ root ++ "_".toList ++ natToStr d ++ "_".toList ++ kind) :=
  rfl

/-- A generated variable name passes through the token loop untouched:
its head `v` defeats every matcher. -/
theorem tokenStep_varName (root : Str) (cnt : VarCounts) (vars : List (Str × Str))
    (d : Nat) (k : VKind) :
    tokenStep root cnt vars (varName root d (kindName k)) =
      (.lit (varName root d (kindName k)), cnt, vars) := by
  rw [varName_head]
  refine tokenStep_allFail root cnt vars _ ?_ ?_ ?_ ?_ ?_ ?_
  · rw [List.all_cons, show isSpaceChar 'v' = false from by decide, Bool.false_and]
  · exact tsFullmatch_head _ (by decide)
  · exact matchNumber_head _ (by decide)
  · exact matchTime_head _ (by decide) (by decide)
  · exact matchHex_head _ (by decide) (by decide)
  · exact matchIp_head _ (by decide) (by decide)

theorem natToStr_sepfree : ∀ d, d < 10 → ∀ c ∈ natToStr d, isSepChar c = false := by
  decide

theorem kindName_sepfree : ∀ k : VKind, ∀ c ∈ kindName k, isSepChar c = false := by
  intro k
  cases k <;> decide

/-- A generated variable name contains no separator character when the
root key is separator-free (needed so the tokenizer keeps it whole). -/
theorem varName_sepfree (root : Str) (hroot : ∀ c ∈ root, isSepChar c = false)
    {d : Nat} (hd : d < 10) (k : VKind) :
    ∀ c ∈ varName root d (kindName k), isSepChar c = false := by
  intro c hc
  rw [varName] at hc
  simp only [List.mem_append] at hc
  rcases hc with ((((h' | h') | h') | h') | h') | h'
  · exact (by decide : ∀ x ∈ ("var_".toList : Str), isSepChar x = false) c h'
  · exact hroot c h'
  · exact (by decide : ∀ x ∈ ("_".toList : Str), isSepChar x = false) c h'
  · exact natToStr_sepfree d hd c h'
  · exact (by decide : ∀ x ∈ ("_".toList : Str), isSepChar x = false) c h'
  · exact kindName_sepfree k c h'

/-- Either a piece list is placeholder-free, or it splits at its first
placeholder. -/
theorem firstPh : ∀ P : List EPiece, phList P = [] ∨
    ∃ L n₀ v₀ R, P = L ++ EPiece.ph n₀ v₀ :: R ∧ phList L = [] := by
  intro P
  induction P with
  | nil => exact Or.inl rfl
  | cons p P' ih =>
      cases p with
      | ph n v => exact Or.inr ⟨[], n, v, P', rfl, rfl⟩
      | lit t =>
          rcases ih with h | ⟨L, n₀, v₀, R, hP, hL⟩
          · refine Or.inl ?_
            simpa [phList] using h
          · refine Or.inr ⟨EPiece.lit t :: L, n₀, v₀, R, by rw [hP]; rfl, ?_⟩
            simpa [phList] using hL

/-- What the timestamp pre-pass guarantees: the pieces spell the scanned
string, the dict grows by exactly the placeholder entries, the state
invariant is preserved, and placeholders carry non-empty values under
fitting names. -/
theorem applyTs_spec (root : Str) : ∀ (l : List SubPiece) (cnt : VarCounts)
    (vars : List (Str × Str)), StInv root cnt vars →
    (∀ text, SubPiece.ts text ∈ l → text ≠ []) →
    joinVal (applyTs root l cnt vars).1 = (l.map subText).flatten ∧
    (applyTs root l cnt vars).2.2 = vars ++ phList (applyTs root l cnt vars).1 ∧
    StInv root (applyTs root l cnt vars).2.1 (applyTs root l cnt vars).2.2 ∧
    (∀ n v, EPiece.ph n v ∈ (applyTs root l cnt vars).1 →
      v ≠ [] ∧ nameFits root (applyTs root l cnt vars).2.1 n) ∧
    cntLE cnt (applyTs root l cnt vars).2.1 := by
  intro l
  induction l with
  | nil =>
      intro cnt vars hinv _
      exact ⟨rfl, by simp [applyTs, phList], hinv,
        fun n v hm => absurd hm (by simp [applyTs]), fun k => le_rfl⟩
  | cons p rest ih =>
      intro cnt vars hinv hts
      have htsr : ∀ text, SubPiece.ts text ∈ rest → text ≠ [] :=
        fun text ht => hts text (List.mem_cons_of_mem _ ht)
      cases p with
      | lit c =>
          obtain ⟨ival, idict, iinv, iph, ile⟩ := ih cnt vars hinv htsr
          simp only [applyTs]
          refine ⟨?_, ?_, iinv, ?_, ile⟩
          · rw [joinVal_cons, ival, List.map_cons, List.flatten_cons]
            rfl
          · rw [phList_cons]
            show (applyTs root rest cnt vars).2.2 =
              vars ++ ([] ++ phList (applyTs root rest cnt vars).1)
            rw [List.nil_append]
            exact idict
          · intro n v hm
            rcases List.mem_cons.1 hm with h' | h'
            · exact EPiece.noConfusion h'
            · exact iph n v h'
      | ts text =>
          by_cases hcap : cnt.total ≥ 10
          · obtain ⟨ival, idict, iinv, iph, ile⟩ := ih cnt vars hinv htsr
            simp only [applyTs, if_pos hcap]
            refine ⟨?_, ?_, iinv, ?_, ile⟩
            · rw [joinVal_cons, ival, List.map_cons, List.flatten_cons]
              rfl
            · rw [phList_cons]
              show (applyTs root rest cnt vars).2.2 =
                vars ++ ([] ++ phList (applyTs root rest cnt vars).1)
              rw [List.nil_append]
              exact idict
            · intro n v hm
              rcases List.mem_cons.1 hm with h' | h'
              · exact EPiece.noConfusion h'
              · exact iph n v h'
          · have htot : cnt.total < 10 := by omega
            obtain ⟨hb, hinv', hnew, hle⟩ := inv_bump root hinv VKind.tsc
              { cnt with tsc := cnt.tsc + 1, total := cnt.total + 1 }
              (by intro k'; cases k' <;> simp [kindCount]) htot rfl text
            have hb' : dictSet vars (varName root cnt.tsc "timestamp".toList) text =
                vars ++ [(varName root cnt.tsc "timestamp".toList, text)] := hb
            have hinv'' : StInv root { cnt with tsc := cnt.tsc + 1, total := cnt.total + 1 }
                (dictSet vars (varName root cnt.tsc "timestamp".toList) text) := hinv'
            have hnew' : nameFits root { cnt with tsc := cnt.tsc + 1, total := cnt.total + 1 }
                (varName root cnt.tsc "timestamp".toList) := hnew
            obtain ⟨ival, idict, iinv, iph, ile⟩ := ih
              { cnt with tsc := cnt.tsc + 1, total := cnt.total + 1 }
              (dictSet vars (varName root cnt.tsc "timestamp".toList) text) hinv'' htsr
            simp only [applyTs, if_neg hcap]
            refine ⟨?_, ?_, iinv, ?_, ?_⟩
            · rw [joinVal_cons, ival, List.map_cons, List.flatten_cons]
              rfl
            · rw [phList_cons, idict, hb', List.append_assoc]
              rfl
            · intro n v hm
              rcases List.mem_cons.1 hm with h' | h'
              · obtain ⟨hn, hv⟩ := EPiece.ph.inj h'
                refine ⟨?_, ?_⟩
                · rw [hv]
                  exact hts text (List.mem_cons_self _ _)
                · rw [hn]
                  exact nameFits_mono ile hnew'
              · exact iph n v h'
            · exact fun k => le_trans (hle k) (ile k)

/-- The token loop on the tokens of a placeholder-free piece list: the
output pieces themselves decompose the result (base case of the
placeholder induction). -/
theorem tsMasterLit (root : Str) (P1 : List EPiece) (cnt : VarCounts)
    (vars : List (Str × Str)) (res : List EPiece × VarCounts × List (Str × Str))
    (hres : res = tokenLoop root (tokenize (joinPat P1)) cnt vars)
    (hlit : phList P1 = []) (hinv : StInv root cnt vars) :
    ∃ Q : List EPiece,
      joinPat Q = joinPat res.1 ∧
      joinVal Q = joinVal P1 ∧
      res.2.2 = vars ++ phList res.1 ∧
      (phList P1 ++ phList res.1).Perm (phList Q) ∧
      StInv root res.2.1 res.2.2 ∧
      (∀ n v, EPiece.ph n v ∈ Q → v ≠ [] ∧ (∀ c ∈ v, c ∈ joinVal P1) ∧
        nameFits root res.2.1 n) ∧
      cntLE cnt res.2.1 ∧
      (∀ t, EPiece.lit t ∈ Q → ∀ c ∈ t, c ∈ joinVal P1) := by
  subst hres
  obtain ⟨ival, idict, iinv, ilit, iph, ile⟩ :=
    tokenLoop_spec root (tokenize (joinPat P1)) cnt vars hinv
  have hjp : joinPat P1 = joinVal P1 := phList_all_lit hlit
  have hval : joinVal (tokenLoop root (tokenize (joinPat P1)) cnt vars).1 = joinVal P1 := by
    rw [ival, tokenize_flatten, hjp]
  refine ⟨(tokenLoop root (tokenize (joinPat P1)) cnt vars).1, rfl, hval, idict, ?_,
    iinv, ?_, ile, ?_⟩
  · simp [hlit]
  · intro n v hm
    obtain ⟨hvtok, hne, hfit⟩ := iph n v hm
    exact ⟨hne, fun c hc => by rw [← hjp]; exact mem_of_mem_token hvtok hc, hfit⟩
  · intro t ht c hc
    rw [← hjp]
    exact mem_of_mem_token (ilit t ht) hc

/-- The bridge between the pre-pass pieces and the token loop: running
the loop on the tokens of `joinPat P1` yields a result whose pattern
string admits a piece decomposition `Q` spelling the original string,
with the final dict a permutation of `Q`'s placeholders (relative to the
incoming entries). -/
theorem tsMaster (root : Str) (hroot : ∀ c ∈ root, isSepChar c = false) :
    ∀ (m : Nat) (P1 : List EPiece) (cnt : VarCounts)
    (vars : List (Str × Str)) (res : List EPiece × VarCounts × List (Str × Str)),
    res = tokenLoop root (tokenize (joinPat P1)) cnt vars →
    (phList P1).length ≤ m →
    StInv root cnt vars →
    (∀ n v, EPiece.ph n v ∈ P1 → v ≠ [] ∧ nameFits root cnt n) →
    ∃ Q : List EPiece,
      joinPat Q = joinPat res.1 ∧
      joinVal Q = joinVal P1 ∧
      res.2.2 = vars ++ phList res.1 ∧
      (phList P1 ++ phList res.1).Perm (phList Q) ∧
      StInv root res.2.1 res.2.2 ∧
      (∀ n v, EPiece.ph n v ∈ Q → v ≠ [] ∧ (∀ c ∈ v, c ∈ joinVal P1) ∧
        nameFits root res.2.1 n) ∧
      cntLE cnt res.2.1 ∧
      (∀ t, EPiece.lit t ∈ Q → ∀ c ∈ t, c ∈ joinVal P1) := by
  intro m
  induction m with
  | zero =>
      intro P1 cnt vars res hres hm hinv _
      exact tsMasterLit root P1 cnt vars res hres
        (List.eq_nil_of_length_eq_zero (Nat.le_zero.1 hm)) hinv
  | succ m ih =>
      intro P1 cnt vars res hres hm hinv hph
      rcases firstPh P1 with hl | ⟨L, n₀, v₀, R, hP, hL⟩
      · exact tsMasterLit root P1 cnt vars res hres hl hinv
      · subst hP
        have hphP : phList (L ++ EPiece.ph n₀ v₀ :: R) = (n₀, v₀) :: phList R := by
          rw [phList_append, hL, List.nil_append, phList_cons]
          rfl
        have hlenR : (phList R).length ≤ m := by
          rw [hphP, List.length_cons] at hm
          omega
        have hfit₀ := hph n₀ v₀ (List.mem_append.2 (Or.inr (List.mem_cons_self _ _)))
        have hv₀ne := hfit₀.1
        obtain ⟨k, d, hd, hn⟩ := hfit₀.2
        have hd10 : d < 10 := lt_of_lt_of_le hd (le_trans (hinv.2.1 k) hinv.2.2.1)
        have hsep : ∀ c ∈ n₀, isSepChar c = false := by
          rw [hn]
          exact varName_sepfree root hroot hd10 k
        have ht3 : tokenizeGo [] n₀ = [n₀] := by
          simpa using tokenizeGo_sepfree n₀ [] hsep
        have ht2 : tokenizeGo [] (n₀ ++ '}' :: joinPat R) =
            [n₀] ++ ['}'] :: tokenizeGo [] (joinPat R) := by
          rw [(tokenize_split '}' (joinPat R) (by decide) (by decide) n₀).1 [], ht3]
        have hjoin : joinPat (L ++ EPiece.ph n₀ v₀ :: R) =
            joinPat L ++ '{' :: (n₀ ++ '}' :: joinPat R) := by
          rw [joinPat_append, joinPat_cons]
          show joinPat L ++ (('{' :: (n₀ ++ ['}'])) ++ joinPat R) = _
          simp [List.append_assoc]
        have htoks : tokenize (joinPat (L ++ EPiece.ph n₀ v₀ :: R)) =
            tokenize (joinPat L) ++ (['{'] :: n₀ :: ['}'] :: tokenize (joinPat R)) := by
          rw [hjoin, tokenize,
            (tokenize_split '{' (n₀ ++ '}' :: joinPat R) (by decide) (by decide)
              (joinPat L)).1 [], ht2]
          rfl
        set RA := tokenLoop root (tokenize (joinPat L)) cnt vars with hRA
        set RR := tokenLoop root (tokenize (joinPat R)) RA.2.1 RA.2.2 with hRR
        obtain ⟨aval, adict, ainv, alit, aph, aLe⟩ :=
          tokenLoop_spec root (tokenize (joinPat L)) cnt vars hinv
        have phR : ∀ n v, EPiece.ph n v ∈ R → v ≠ [] ∧ nameFits root RA.2.1 n := by
          intro n v hmv
          obtain ⟨h1, h2⟩ := hph n v
            (List.mem_append.2 (Or.inr (List.mem_cons_of_mem _ hmv)))
          exact ⟨h1, nameFits_mono aLe h2⟩
        obtain ⟨QR, q1, q2, q3, q4, q5, q6, q7, q8⟩ :=
          ih R RA.2.1 RA.2.2 RR hRR hlenR ainv phR
        have hstepL : tokenStep root RA.2.1 RA.2.2 ['{'] = (.lit ['{'], RA.2.1, RA.2.2) :=
          tokenStep_allFail root RA.2.1 RA.2.2 ['{']
            (by decide) (by decide) (by decide) (by decide) (by decide) (by decide)
        have hstepB : tokenStep root RA.2.1 RA.2.2 ['}'] = (.lit ['}'], RA.2.1, RA.2.2) :=
          tokenStep_allFail root RA.2.1 RA.2.2 ['}']
            (by decide) (by decide) (by decide) (by decide) (by decide) (by decide)
        have hstepN : tokenStep root RA.2.1 RA.2.2 n₀ = (.lit n₀, RA.2.1, RA.2.2) := by
          rw [hn]
          exact tokenStep_varName root RA.2.1 RA.2.2 d k
        have hmid : tokenLoop root (['{'] :: n₀ :: ['}'] :: tokenize (joinPat R))
            RA.2.1 RA.2.2 =
            (EPiece.lit ['{'] :: EPiece.lit n₀ :: EPiece.lit ['}'] :: RR.1, RR.2) := by
          simp only [tokenLoop, hstepL, hstepN, hstepB]
        rw [htoks, tokenLoop_append, ← hRA, hmid] at hres
        have e1 : res.1 = RA.1 ++
            (EPiece.lit ['{'] :: EPiece.lit n₀ :: EPiece.lit ['}'] :: RR.1) := by rw [hres]
        have e2 : res.2.1 = RR.2.1 := by rw [hres]
        have e3 : res.2.2 = RR.2.2 := by rw [hres]
        have havalL : joinVal RA.1 = joinVal L := by
          rw [aval, tokenize_flatten]
          exact phList_all_lit hL
        have hphres : phList (RA.1 ++
            (EPiece.lit ['{'] :: EPiece.lit n₀ :: EPiece.lit ['}'] :: RR.1)) =
            phList RA.1 ++ phList RR.1 := by
          simp [phList_append, phList]
        have hphQ : phList (RA.1 ++ EPiece.ph n₀ v₀ :: QR) =
            phList RA.1 ++ (n₀, v₀) :: phList QR := by
          simp [phList_append, phList]
        refine ⟨RA.1 ++ EPiece.ph n₀ v₀ :: QR, ?_, ?_, ?_, ?_, ?_, ?_, ?_, ?_⟩
        · rw [e1]
          simp [joinPat_append, joinPat_cons, patText, q1, List.append_assoc]
        · rw [joinVal_append, joinVal_cons, joinVal_append, joinVal_cons,
            havalL, q2]
        · rw [e3, e1, hphres, q3, adict, List.append_assoc]
        · rw [e1, hphres, hphP, hphQ]
          refine List.Perm.trans (List.Perm.cons _ ?_) List.perm_middle.symm
          have h1 : (phList R ++ (phList RA.1 ++ phList RR.1)).Perm
              (phList RA.1 ++ (phList R ++ phList RR.1)) := by
            rw [← List.append_assoc, ← List.append_assoc]
            exact List.Perm.append_right _ List.perm_append_comm
          exact h1.trans (List.Perm.append_left _ q4)
        · rw [e2, e3]
          exact q5
        · intro n v hmv
          rcases List.mem_append.1 hmv with hA' | hMid
          · obtain ⟨hvtok, hne, hfit⟩ := aph n v hA'
            refine ⟨hne, ?_, ?_⟩
            · intro c hc
              rw [joinVal_append, joinVal_cons]
              refine List.mem_append.2 (Or.inl ?_)
              rw [← phList_all_lit hL]
              exact mem_of_mem_token hvtok hc
            · rw [e2]
              exact nameFits_mono q7 hfit
          · rcases List.mem_cons.1 hMid with hHead | hQR
            · obtain ⟨hn', hv'⟩ := EPiece.ph.inj hHead
              refine ⟨by rw [hv']; exact hv₀ne, ?_, ?_⟩
              · intro c hc
                rw [hv'] at hc
                rw [joinVal_append, joinVal_cons]
                exact List.mem_append.2 (Or.inr (List.mem_append.2 (Or.inl hc)))
              · rw [hn', e2, hn]
                exact nameFits_mono (fun kk => le_trans (aLe kk) (q7 kk)) ⟨k, d, hd, rfl⟩
            · obtain ⟨hne, hchars, hfit⟩ := q6 n v hQR
              refine ⟨hne, ?_, ?_⟩
              · intro c hc
                rw [joinVal_append, joinVal_cons]
                exact List.mem_append.2 (Or.inr (List.mem_append.2 (Or.inr (hchars c hc))))
              · rw [e2]
                exact hfit
        · intro kk
          rw [e2]
          exact le_trans (aLe kk) (q7 kk)
        · intro t ht c hc
          rcases List.mem_append.1 ht with hA' | hMid
          · rw [joinVal_append, joinVal_cons]
            refine List.mem_append.2 (Or.inl ?_)
            rw [← phList_all_lit hL]
            exact mem_of_mem_token (alit t hA') hc
          · rcases List.mem_cons.1 hMid with hHead | hQR
            · exact EPiece.noConfusion hHead
            · rw [joinVal_append, joinVal_cons]
              exact List.mem_append.2 (Or.inr (List.mem_append.2 (Or.inr (q8 t hQR c hc))))

/-- **C2 (amended).**  Pattern rehydration: for a message containing no
brace `{` and a root key free of separator characters, substituting each
`{name}` of the extracted pattern by its variable value reproduces the
message exactly.  (The unrestricted claim is refuted by
`C2_counterexample`.) -/
theorem C2_rehydrate (s root : Str)
    (hbrace : '{' ∉ s)
    (hroot : ∀ c ∈ root, isSepChar c = false) :
    rehydrate_message (extract_pattern s root).1 (extract_pattern s root).2 = s := by
  have hinv0 : StInv root VarCounts.zero [] :=
    ⟨fun nv h => absurd h (List.not_mem_nil nv), fun k => by cases k <;> exact le_rfl,
      by decide, List.nodup_nil⟩
  have htsne : ∀ text, SubPiece.ts text ∈ tsScanF s.length false s → text ≠ [] :=
    fun text ht => tsScan_ts_ne_nil s.length false s text ht
  obtain ⟨aval, adict, ainv, aph, aLe⟩ :=
    applyTs_spec root (tsScanF s.length false s) VarCounts.zero [] hinv0 htsne
  set P0 := applyTs root (tsScanF s.length false s) VarCounts.zero [] with hP0
  set RES := tokenLoop root (tokenize (joinPat P0.1)) P0.2.1 P0.2.2 with hRES
  obtain ⟨Q, m1, m2, m3, m4, m5, m6, m7, m8⟩ :=
    tsMaster root hroot ((phList P0.1).length) P0.1 P0.2.1 P0.2.2 RES hRES
      le_rfl ainv aph
  have hjv : joinVal P0.1 = s := by
    rw [aval]
    exact tsScan_join _ _ _
  have hex : extract_pattern s root = (joinPat RES.1, RES.2.2) := rfl
  have hvars : RES.2.2.Perm (phList Q) := by
    rw [m3, adict, List.nil_append]
    exact m4
  have hnodup : ((phList Q).map Prod.fst).Nodup :=
    (hvars.map Prod.fst).nodup m5.2.2.2
  have hokQ : PiecesOK Q := by
    constructor
    · intro t ht hc
      exact hbrace (hjv ▸ m8 t ht '{' hc)
    · intro n v hm
      obtain ⟨hne, hchars, hfit⟩ := m6 n v hm
      obtain ⟨k, d, hd, hn⟩ := hfit
      have hd10 : d < 10 := lt_of_lt_of_le hd (le_trans (m5.2.1 k) m5.2.2.1)
      have hbr := varName_no_brace hd10 k
        (fun hc => absurd (hroot _ hc) (by decide))
        (fun hc => absurd (hroot _ hc) (by decide))
      rw [hn]
      refine ⟨hbr.1, hbr.2, ?_, hne⟩
      intro hc
      exact hbrace (hjv ▸ hchars '{' hc)
  have hmain := rehydrate_fold RES.2.2 Q hokQ hvars hnodup
  rw [hex, rehydrate_message, ← m1]
  exact hmain.trans (m2.trans hjv)

/-- Witness for the amended C2 on a message carrying a timestamp, a
number and plain words. -/
theorem C2_rehydrate_witness :
    rehydrate_message
      (extract_pattern "job 7 ran at 2021-01-02T03:04:05Z ok".toList "w".toList).1
      (extract_pattern "job 7 ran at 2021-01-02T03:04:05Z ok".toList "w".toList).2 =
      "job 7 ran at 2021-01-02T03:04:05Z ok".toList :=
  C2_rehydrate "job 7 ran at 2021-01-02T03:04:05Z ok".toList "w".toList
    (by decide) (by decide)
/-! ### The database model (`joedb.py`, class `JoeDB`)

Byte strings are `List Nat` (each entry one byte).  The external
libraries the encoder drives are modelled as follows: `pyzstd`
compression is the identity codec (decompression inverts compression,
which is all the format relies on), `hyperloglog` is the exact distinct
count (the library approximates it within 1%), and the `datetime`
conversions are fixed to the UTC timezone. -/

/-- `int.bit_length()` (fuel-structured halving). -/
def bitLengthGo : Nat → Nat → Nat
  | 0, _ => 0
  | fuel + 1, n => if n = 0 then 0 else bitLengthGo fuel (n / 2) + 1

/-- `n.bit_length()` for a natural number. -/
def bitLength (n : Nat) : Nat := bitLengthGo (n + 1) n

/-- `n.to_bytes(w, byteorder='big')`. -/
def natToBytesBE : Nat → Nat → List Nat
  | 0, _ => []
  | w + 1, n => natToBytesBE w (n / 256) ++ [n % 256]

/-- `int.from_bytes(bs, byteorder='big')`. -/
def natFromBytes (bs : List Nat) : Nat := bs.foldl (fun a b => a * 256 + b) 0

/-- `int.from_bytes(bs, byteorder='big', signed=True)`: two's complement
over the actual byte count. -/
def intFromBytesSigned (bs : List Nat) : Int :=
  let n := natFromBytes bs
  if bs.length = 0 then 0
  else if n < 2 ^ (8 * bs.length - 1) then (n : Int)
  else (n : Int) - (2 ^ (8 * bs.length) : Nat)

/-- `i.to_bytes(w, byteorder='big', signed=True)`: two's complement. -/
def intToBytesBE (w : Nat) (i : Int) : List Nat :=
  natToBytesBE w (i.emod ((2 : Int) ^ (8 * w))).toNat

/-- UTF-8 encoding of one character. -/
def charUtf8 (c : Char) : List Nat :=
  let n := c.toNat
  if n < 0x80 then [n]
  else if n < 0x800 then [0xC0 + n / 64, 0x80 + n % 64]
  else if n < 0x10000 then [0xE0 + n / 4096, 0x80 + n / 64 % 64, 0x80 + n % 64]
  else [0xF0 + n / 262144, 0x80 + n / 4096 % 64, 0x80 + n / 64 % 64, 0x80 + n % 64]

/-- `s.encode('utf-8')`. -/
def strUtf8 (s : Str) : List Nat := s.flatMap charUtf8

/-- Whether a byte is a UTF-8 continuation byte. -/
def utf8Cont (b : Nat) : Bool := 0x80 ≤ b && b < 0xC0

/-- `bytes.decode('utf-8', errors='replace')` for well-formed sequences;
invalid lead or missing continuation bytes become U+FFFD. -/
def utf8DecodeGo : Nat → List Nat → Str
  | 0, _ => []
  | _ + 1, [] => []
  | fuel + 1, b :: rest =>
    if b < 0x80 then Char.ofNat b :: utf8DecodeGo fuel rest
    else if b < 0xC0 then Char.ofNat 0xFFFD :: utf8DecodeGo fuel rest
    else if b < 0xE0 then
      match rest with
      | c1 :: rest2 =>
          if utf8Cont c1 then
            Char.ofNat ((b - 0xC0) * 64 + (c1 - 0x80)) :: utf8DecodeGo fuel rest2
          else Char.ofNat 0xFFFD :: utf8DecodeGo fuel rest
      | [] => [Char.ofNat 0xFFFD]
    else if b < 0xF0 then
      match rest with
      | c1 :: c2 :: rest2 =>
          if utf8Cont c1 && utf8Cont c2 then
            Char.ofNat ((b - 0xE0) * 4096 + (c1 - 0x80) * 64 + (c2 - 0x80)) ::
              utf8DecodeGo fuel rest2
          else Char.ofNat 0xFFFD :: utf8DecodeGo fuel rest
      | _ => Char.ofNat 0xFFFD :: utf8DecodeGo fuel rest.tail
    else
      match rest with
      | c1 :: c2 :: c3 :: rest2 =>
          if utf8Cont c1 && utf8Cont c2 && utf8Cont c3 then
            Char.ofNat ((b - 0xF0) * 262144 + (c1 - 0x80) * 4096 +
              (c2 - 0x80) * 64 + (c3 - 0x80)) :: utf8DecodeGo fuel rest2
          else Char.ofNat 0xFFFD :: utf8DecodeGo fuel rest
      | _ => Char.ofNat 0xFFFD :: utf8DecodeGo fuel rest.tail

/-- Decode a UTF-8 byte string. -/
def utf8Decode (bs : List Nat) : Str := utf8DecodeGo (bs.length + 1) bs

/-- `str(i)` for an integer. -/
def intToStr (i : Int) : Str :=
  if i < 0 then '-' :: natToStr (-i).toNat else natToStr i.toNat

/-- `int(s)`: optional surrounding whitespace, optional sign, decimal
digits with single underscores allowed between digits. -/
def pyInt (s : Str) : Option Int :=
  let t := (s.dropWhile isSpaceChar).reverse.dropWhile isSpaceChar |>.reverse
  let (sign, digs) : Int × Str :=
    match t with
    | '-' :: r => (-1, r)
    | '+' :: r => (1, r)
    | r => (1, r)
  if digs = [] then none
  else if digs.head? = some '_' ∨ digs.getLast? = some '_' then none
  else if digs.any (fun c => ¬ (c.isDigit ∨ c = '_')) then none
  else if (digs.zip digs.tail).any (fun p => p.1 = '_' ∧ p.2 = '_') then none
  else some (sign * ((digs.filter (·.isDigit)).foldl (fun a c => a * 10 + (c.toNat - 48)) 0 : Nat))

/-- Code-point comparison of two strings (Python `<` on `str`). -/
def strLtB : Str → Str → Bool
  | [], [] => false
  | [], _ :: _ => true
  | _ :: _, [] => false
  | a :: as, b :: bs =>
      if a.toNat < b.toNat then true
      else if b.toNat < a.toNat then false
      else strLtB as bs

/-- Lexicographic comparison of string tuples (Python `<` on tuples). -/
def tupleLtB : List Str → List Str → Bool
  | [], [] => false
  | [], _ :: _ => true
  | _ :: _, [] => false
  | a :: as, b :: bs =>
      if strLtB a b then true
      else if strLtB b a then false
      else tupleLtB as bs

/-- Stable insertion: place `x` before the first strictly greater
element, after all equal ones. -/
def insSorted {α : Type} (lt : α → α → Bool) : α → List α → List α
  | x, [] => [x]
  | x, y :: ys => if lt x y then x :: y :: ys else y :: insSorted lt x ys

/-- Python `sorted` with a strict comparator derived from the key
(stable ascending sort). -/
def pySorted {α : Type} (lt : α → α → Bool) (l : List α) : List α :=
  l.foldl (fun acc x => insSorted lt x acc) []

/-- `run_length_encode(data)` (`joedb.py` lines 134-149). -/
def rleGo {α : Type} [DecidableEq α] : α → Nat → List α → List (α × Nat)
  | prev, count, [] => [(prev, count)]
  | prev, count, v :: vs =>
      if v = prev then rleGo prev (count + 1) vs
      else (prev, count) :: rleGo v 1 vs

/-- Run-length encoding of a list of values. -/
def run_length_encode {α : Type} [DecidableEq α] : List α → List (α × Nat)
  | [] => []
  | d :: rest => rleGo d 1 rest

/-- A JSON value: a string leaf, a nested object, or `null` (the model
covers the leaf shapes the database handles). -/
inductive JValue where
  | str (s : Str)
  | obj (fields : List (Str × JValue))
  | null

/-- A value stored in a column: an integer (trie index, number or unix
timestamp), a raw string held for delta encoding, or Python `None`
(the index returned for an un-indexed trie node). -/
inductive Cell where
  | num (i : Int)
  | str (s : Str)
  | none
deriving DecidableEq

/-- `str(cell)` as the encoder's sort key and leading-zero source. -/
def cellStr : Cell → Str
  | .num i => intToStr i
  | .str s => s
  | .none => "None".toList

/-- `dict(items)`: fold the pairs into an insertion-ordered dict. -/
def dictFromList {κ α : Type} [DecidableEq κ] (l : List (κ × α)) : List (κ × α) :=
  l.foldl (fun d p => dictSet d p.1 p.2) []

mutual
/-- The items one JSON value contributes at its dotted key
(`joedb.py` lines 126-130): leaves keep their value (`Option.none`
models JSON null), nested objects flatten recursively through their own
`dict(items)`. -/
def flattenValue : JValue → Str → List (Str × Option Str)
  | .str s, key => [(key, some s)]
  | .null, key => [(key, Option.none)]
  | .obj fields, key => dictFromList (flattenItems fields key)
/-- The `items` list one level of `flatten_json` assembles. -/
def flattenItems : List (Str × JValue) → Str → List (Str × Option Str)
  | [], _ => []
  | (k, v) :: rest, parent =>
      let new_key := if parent.isEmpty then k else parent ++ '.' :: k
      flattenValue v new_key ++ flattenItems rest parent
end

/-- `flatten_json` (`joedb.py` lines 123-132): the final `dict(items)`
de-duplicates keys keeping the first position and the last value. -/
def flatten_json (data : List (Str × JValue)) (parent : Str) : List (Str × Option Str) :=
  dictFromList (flattenItems data parent)

/-- The `JoeDB` instance state (`joedb.py` lines 158-166). -/
structure JoeDB where
  columns : List (Str × List Cell)
  column_types : List (Str × Nat)
  cardinality : List (Str × List Str)
  tries : List (Str × Trie)
  record_count : Nat
  use_patternization : Bool

/-- A fresh database. -/
def JoeDB.new (p : Bool) : JoeDB := ⟨[], [], [], [], 0, p⟩

/-- Column type bytes. -/
def TYPE_STRING : Nat := 1
/-- Column type byte for number columns. -/
def TYPE_NUMBER : Nat := 2
/-- Column type byte for timestamp columns. -/
def TYPE_TIMESTAMP : Nat := 3

/-- The magic header bytes. -/
def MAGIC : List Nat :=
  [0xf0, 0x9f, 0x90, 0xbf, 0xef, 0xb8, 0x8f, 0x6a, 0x6f, 0x65, 0x64, 0x62]

/-- Leap year (proleptic Gregorian). -/
def isLeap (y : Int) : Bool := y.emod 4 = 0 && (y.emod 100 ≠ 0 || y.emod 400 = 0)

/-- Days in a month. -/
def monthLen (y m : Int) : Int :=
  if m = 2 then (if isLeap y then 29 else 28)
  else if m = 4 ∨ m = 6 ∨ m = 9 ∨ m = 11 then 30
  else 31

/-- Days since the Unix epoch of a civil date (proleptic Gregorian). -/
def daysFromCivil (y m d : Int) : Int :=
  let y' := if m ≤ 2 then y - 1 else y
  let era := Int.fdiv y' 400
  let yoe := y' - era * 400
  let mp := if m > 2 then m - 3 else m + 9
  let doy := Int.fdiv (153 * mp + 2) 5 + d - 1
  let doe := yoe * 365 + Int.fdiv yoe 4 - Int.fdiv yoe 100 + doy
  era * 146097 + doe - 719468

/-- Civil date of a day count since the Unix epoch. -/
def civilFromDays (z : Int) : Int × Int × Int :=
  let z' := z + 719468
  let era := Int.fdiv z' 146097
  let doe := z' - era * 146097
  let yoe := Int.fdiv (doe - Int.fdiv doe 1460 + Int.fdiv doe 36524 - Int.fdiv doe 146096) 365
  let y := yoe + era * 400
  let doy := doe - (365 * yoe + Int.fdiv yoe 4 - Int.fdiv yoe 100)
  let mp := Int.fdiv (5 * doy + 2) 153
  let d := doy - Int.fdiv (153 * mp + 2) 5 + 1
  let m := if mp < 10 then mp + 3 else mp - 9
  (if m ≤ 2 then y + 1 else y, m, d)

/-- The numeric value of a digit string. -/
def digitsVal (l : Str) : Nat := l.foldl (fun a c => a * 10 + (c.toNat - 48)) 0

/-- Read exactly `n` digits. -/
def parseDigits (n : Nat) (s : Str) : Option (Nat × Str) :=
  let pre := s.take n
  if pre.length = n ∧ pre.all Char.isDigit then some (digitsVal pre, s.drop n) else none

/-- Expect one specific character. -/
def expectChar (c : Char) : Str → Option Str
  | x :: r => if x = c then some r else Option.none
  | [] => Option.none

/-- `int(datetime.datetime.fromisoformat(s).timestamp())` on the
timestamp shapes the extractor produces
(`YYYY-MM-DD[T ]hh:mm:ss`, optional fraction, optional `Z`), with field
validation; the timezone for naive stamps is fixed to UTC. -/
def fromisoUnix (s : Str) : Option Int := do
  let (y, r1) ← parseDigits 4 s
  let r2 ← expectChar '-' r1
  let (mo, r3) ← parseDigits 2 r2
  let r4 ← expectChar '-' r3
  let (d, r5) ← parseDigits 2 r4
  let r6 ← match r5 with
    | 'T' :: r => some r
    | ' ' :: r => some r
    | _ => Option.none
  let (h, r7) ← parseDigits 2 r6
  let r8 ← expectChar ':' r7
  let (mi, r9) ← parseDigits 2 r8
  let r10 ← expectChar ':' r9
  let (se, r11) ← parseDigits 2 r10
  let r12 := match r11 with
    | '.' :: r => if (r.takeWhile Char.isDigit).length > 0 then r.dropWhile Char.isDigit else '.' :: r
    | r => r
  let r13 := match r12 with
    | 'Z' :: r => r
    | r => r
  if r13 ≠ [] then Option.none
  else if mo < 1 ∨ 12 < mo then Option.none
  else if d < 1 ∨ monthLen y mo < d then Option.none
  else if 23 < h ∨ 59 < mi ∨ 59 < se then Option.none
  else some (daysFromCivil y mo d * 86400 + h * 3600 + mi * 60 + se)

/-- Left-pad a nonnegative number with zeros to width `w`. -/
def padNum (w : Nat) (n : Int) : Str :=
  let s := intToStr n
  List.replicate (w - s.length) '0' ++ s

/-- `datetime.datetime.fromtimestamp(t, datetime.UTC).isoformat()` for a
whole number of seconds. -/
def unixToIso (t : Int) : Str :=
  let days := Int.fdiv t 86400
  let rem := (Int.emod t 86400).toNat
  let ymd := civilFromDays days
  padNum 4 ymd.1 ++ '-' :: padNum 2 ymd.2.1 ++ '-' :: padNum 2 ymd.2.2 ++
    'T' :: padNum 2 (rem / 3600) ++ ':' :: padNum 2 (rem % 3600 / 60) ++
    ':' :: padNum 2 (rem % 60) ++ "+00:00".toList

/-- The column-creation step of `JoeDB.insert`'s inner loop
(`joedb.py` lines 177-190): zero backfill, type detection from the
`var_`/`_number`/`_timestamp` naming, a fresh trie for non-number
columns. -/
def colCreate (db : JoeDB) (lk : Str) : JoeDB :=
  if dictHas db.columns lk then db
  else
    let isTsNew : Bool :=
      "var_".toList.isPrefixOf lk && "_timestamp".toList.isSuffixOf lk
    let isNumNew : Bool := isTsNew ||
      ("var_".toList.isPrefixOf lk && "_number".toList.isSuffixOf lk)
    { db with
      columns := dictSet db.columns lk (List.replicate db.record_count (Cell.num 0)),
      cardinality := dictSet db.cardinality lk [],
      column_types := dictSet db.column_types lk
        (if isTsNew then TYPE_TIMESTAMP else if isNumNew then TYPE_NUMBER else TYPE_STRING),
      tries := if isNumNew then db.tries else dictSet db.tries lk Trie.new }

/-- `is_number_column` after the creation step (for a fresh column it
covers timestamps too, as in the source; for an existing column it is
the type check alone). -/
def localIsNum (db : JoeDB) (lk : Str) : Bool :=
  if dictHas db.columns lk then
    match dictGet db.column_types lk with
    | some t => t == TYPE_NUMBER
    | _ => false
  else
    ("var_".toList.isPrefixOf lk && "_timestamp".toList.isSuffixOf lk) ||
      ("var_".toList.isPrefixOf lk && "_number".toList.isSuffixOf lk)

/-- `is_timestamp_column` after the creation step. -/
def localIsTs (db : JoeDB) (lk : Str) : Bool :=
  if dictHas db.columns lk then
    match dictGet db.column_types lk with
    | some t => t == TYPE_TIMESTAMP
    | _ => false
  else "var_".toList.isPrefixOf lk && "_timestamp".toList.isSuffixOf lk

/-- The `index` value of a local key (`joedb.py` 199-205): a trie
insert for strings, a unix timestamp for timestamp columns (which can
raise), the raw value for number columns; returns the cell and the
updated tries. -/
def localCell (db1 : JoeDB) (lk : Str) (isNum isTs : Bool) (local_value : Str) :
    Except String (Cell × List (Str × Trie)) :=
  if !isNum && !isTs then
    let tr := (dictGet db1.tries lk).getD Trie.new
    let r := tr.insert local_value
    .ok ((match r.2 with | some i => Cell.num i | _ => Cell.none),
      dictSet db1.tries lk r.1)
  else if isTs then
    match fromisoUnix local_value with
    | some t => .ok (Cell.num t, db1.tries)
    | _ => .error "ValueError"
  else .ok (Cell.str local_value, db1.tries)

/-- One `local_key` step of `JoeDB.insert`'s inner loop (`joedb.py`
lines 175-205): column creation, the cell value, appended to the column
and counted for cardinality.  A failing timestamp parse aborts. -/
def insertLocalKey (db : JoeDB) (key : Str) (pattern : Str)
    (vars : List (Str × Str)) (lk : Str) : JoeDB × Option String :=
  let db1 := colCreate db lk
  let local_value := if lk == key then pattern else (dictGet vars lk).getD []
  match localCell db1 lk (localIsNum db lk) (localIsTs db lk) local_value with
  | .error e => (db1, some e)
  | .ok (cell, tries2) =>
      let newCol := ((dictGet db1.columns lk).getD []) ++ [cell]
      let oldCard := (dictGet db1.cardinality lk).getD []
      let newCard := if local_value ∈ oldCard then oldCard else oldCard ++ [local_value]
      ({ db1 with
          columns := dictSet db1.columns lk newCol,
          cardinality := dictSet db1.cardinality lk newCard,
          tries := tries2 }, (Option.none : Option String))

/-- The loop over one item's `local_keys`, aborting on the first error. -/
def insertLocals (key : Str) (pattern : Str) (vars : List (Str × Str)) :
    JoeDB → List Str → JoeDB × Option String
  | db, [] => (db, (Option.none : Option String))
  | db, lk :: rest =>
      let r := insertLocalKey db key pattern vars lk
      match r.2 with
      | some e => (r.1, some e)
      | _ => insertLocals key pattern vars r.1 rest

/-- The loop over the flat record's items (`joedb.py` lines 172-205),
accumulating the `keys` set; a `null` leaf aborts like Python's
`extract_pattern(None, ...)` does. -/
def insertItems : JoeDB → List Str → List (Str × Option Str) →
    (JoeDB × List Str) × Option String
  | db, keysAcc, [] => ((db, keysAcc), (Option.none : Option String))
  | db, keysAcc, (key, val) :: rest =>
      match val with
      | Option.none => ((db, keysAcc), some "TypeError")
      | some value =>
          let pv := if db.use_patternization then extract_pattern value key
            else (value, [])
          let local_keys := key :: pv.2.map Prod.fst
          let keys2 := keysAcc ++ local_keys
          let r := insertLocals key pv.1 pv.2 db local_keys
          match r.2 with
          | some e => ((r.1, keys2), some e)
          | _ => insertItems r.1 keys2 rest

/-- `JoeDB.insert` (`joedb.py` lines 168-214): flatten, per-item pattern
extraction and per-local-key updates, zero padding of untouched
columns, then the record-count increment.  On an abort the partial
state is returned with the error. -/
def JoeDB.insert (db : JoeDB) (json : List (Str × JValue)) : JoeDB × Option String :=
  let flat := flatten_json json []
  let r := insertItems db (flat.map Prod.fst) flat
  match r.2 with
  | some e => (r.1.1, some e)
  | _ =>
      let db2 := r.1.1
      let keys := r.1.2
      let cols := db2.columns.map
        (fun kc => if kc.1 ∈ keys then kc else (kc.1, kc.2 ++ [Cell.num 0]))
      ({ db2 with columns := cols, record_count := db2.record_count + 1 },
        (Option.none : Option String))

mutual
/-- `_write_trie` (`joedb.py` lines 343-348): depth-first label, null
terminator, child count, children. -/
def writeTrieNode : TrieNode → List Nat
  | .mk children _ => writeTrieChildren children
/-- The per-child writes of `_write_trie`. -/
def writeTrieChildren : List (Str × TrieNode) → List Nat
  | [] => []
  | (k, c) :: rest =>
      strUtf8 k ++ [0] ++ [c.children.length] ++ writeTrieNode c ++ writeTrieChildren rest
end

/-- `max(l)` — raises on an empty sequence. -/
def pyMaxNat : List Nat → Except String Nat
  | [] => .error "ValueError"
  | x :: xs => .ok (xs.foldl Nat.max x)

/-- `max(l, key=abs)`: the first element of maximal absolute value. -/
def pyMaxAbs : List Int → Except String Int
  | [] => .error "ValueError"
  | x :: xs => .ok (xs.foldl (fun best v => if best.natAbs < v.natAbs then v else best) x)

/-- `max(rle, key=lambda x: x[1])[1]`: the longest run length. -/
def pyMaxRunLen {α : Type} : List (α × Nat) → Except String Nat
  | [] => .error "ValueError"
  | x :: xs => .ok (xs.foldl (fun best v => if best.2 < v.2 then v else best) x).2

/-- The string-column section of `JoeDB.encode` (`joedb.py` 283-309):
rename-map substitution, RLE, byte widths, then sizes, length and blob.
A non-integer cell (Python `None`) makes the `max` call raise before
anything is written. -/
def encodeStringColumn (rm : List (Nat × Nat)) (column : List Cell) :
    Except String (List Nat) := do
  let idxs ← column.mapM (fun c => match c with
    | Cell.num i => Except.ok ((dictGet rm i.toNat).getD i.toNat)
    | _ => Except.error "TypeError")
  let rle := run_length_encode idxs
  let mv ← pyMaxNat idxs
  let ml ← pyMaxRunLen rle
  let vbs := (bitLength mv + 7) / 8
  let lbs := (bitLength ml + 7) / 8
  let blob := rle.flatMap (fun p => natToBytesBE vbs p.1 ++ natToBytesBE lbs p.2)
  .ok ([vbs, lbs] ++ natToBytesBE 4 blob.length ++ blob)

/-- The per-run bytes of a number/timestamp column: signed value, run
length, and (for number columns) one leading-zeros byte popped per run. -/
def encNumBlob (vbs lbs : Nat) (isNumber : Bool) :
    List (Int × Nat) → List Nat → List Nat
  | [], _ => []
  | (v, l) :: rest, lz =>
      intToBytesBE vbs v ++ natToBytesBE lbs l ++
        (if isNumber then
          natToBytesBE 1 (lz.headD 0) ++ encNumBlob vbs lbs isNumber rest (lz.drop 1)
         else encNumBlob vbs lbs isNumber rest lz)

/-- The number/timestamp column section of `JoeDB.encode` (`joedb.py`
310-341): `int()` conversion (which raises on non-numeric strings),
delta encoding, RLE, leading-zero counts via `lstrip('0')`. -/
def encodeNumberColumn (isNumber : Bool) (column : List Cell) :
    Except String (List Nat) := do
  let ints ← column.mapM (fun c => match c with
    | Cell.num i => Except.ok i
    | Cell.str s =>
        match pyInt s with
        | some i => Except.ok i
        | _ => Except.error "ValueError"
    | Cell.none => Except.error "TypeError")
  match ints with
  | [] => .error "IndexError"
  | d0 :: restI =>
      let deltas := d0 :: (List.zip restI ints).map (fun p => p.1 - p.2)
      let rle := run_length_encode deltas
      let mv ← pyMaxAbs deltas
      let vbs := (bitLength mv.natAbs + 8) / 8
      let lz := column.map (fun c =>
        let s := cellStr c
        s.length - (s.dropWhile (· = '0')).length)
      let ml ← pyMaxRunLen rle
      let lbs := (bitLength ml + 7) / 8
      let blob := encNumBlob vbs lbs isNumber rle lz
      .ok ([vbs, lbs] ++ natToBytesBE 4 blob.length ++ blob)

/-- The per-column loop of `JoeDB.encode`, appending each section and
stopping at the first error (the bytes written so far are the partial
file). -/
def encodeColsGo (acc : List Nat) (ctypes : List (Str × Nat))
    (rmaps : List (Str × List (Nat × Nat))) :
    List (Str × List Cell) → List Nat × Option String
  | [] => (acc, (Option.none : Option String))
  | (k, col) :: rest =>
      let t := (dictGet ctypes k).getD 0
      let r := if t == TYPE_STRING then encodeStringColumn ((dictGet rmaps k).getD []) col
        else encodeNumberColumn (t == TYPE_NUMBER) col
      match r with
      | .ok bs => encodeColsGo (acc ++ bs) ctypes rmaps rest
      | .error e => (acc, some e)

/-- `JoeDB.encode` (`joedb.py` lines 216-341): header, record count,
trie merge with the column values protected, depth-first renumbering,
cardinality-ordered stable row sort, trie sections, column sections.
Returns the bytes written (a partial file if a column fails) and the
error if any.  The zstd wrapper is the identity codec here. -/
def JoeDB.encode (db : JoeDB) : List Nat × Option String :=
  let header := MAGIC ++ natToBytesBE 8 db.record_count
  let tries1 := db.tries.map (fun kt => (kt.1,
    kt.2.merge_single_children (((dictGet db.columns kt.1).getD []).filterMap
      (fun c => match c with | Cell.num i => some i.toNat | _ => (Option.none : Option Nat)))))
  let renamed := tries1.map (fun kt => (kt.1, kt.2.rename_indices))
  let tries2 := renamed.map (fun kt => (kt.1, kt.2.1))
  let rmaps := renamed.map (fun kt => (kt.1, kt.2.2))
  let ordered := pySorted (fun a b =>
      decide (((dictGet db.cardinality a).getD []).length <
        ((dictGet db.cardinality b).getD []).length))
    (db.columns.map Prod.fst)
  let records0 := (List.range db.record_count).map (fun i =>
    ordered.map (fun k => (k, ((dictGet db.columns k).getD []).getD i (Cell.num 0))))
  let records := pySorted (fun r1 r2 =>
      tupleLtB (r1.map (fun kc => cellStr kc.2)) (r2.map (fun kc => cellStr kc.2))) records0
  let cols2 := db.columns.map (fun kc => (kc.1,
      records.map (fun r => (dictGet r kc.1).getD (Cell.num 0))))
  let triesSec := cols2.flatMap (fun kc =>
      [(dictGet db.column_types kc.1).getD 0] ++ strUtf8 kc.1 ++ [0] ++
      (if (dictGet db.column_types kc.1).getD 0 == TYPE_STRING then
         let blob := writeTrieNode ((dictGet tries2 kc.1).getD Trie.new).root ++ [0]
         natToBytesBE 4 blob.length ++ blob
       else []))
  encodeColsGo (header ++ triesSec ++ [0]) db.column_types rmaps cols2

/-- `_read_null_terminated_string`'s byte scan (`joedb.py` 512-519):
bytes up to the first 0 or EOF, and the remaining input. -/
def readNullTerm : List Nat → List Nat × List Nat
  | [] => ([], [])
  | b :: rest =>
      if b = 0 then ([], rest)
      else
        let r := readNullTerm rest
        (b :: r.1, r.2)

/-- Add a child under a label. -/
def addChild (node : TrieNode) (lab : Str) (child : TrieNode) : TrieNode :=
  match node with
  | .mk ch idx => .mk (dictSet ch lab child) idx

mutual
/-- `_read_child_trie` (`joedb.py` 490-500): read a label (empty means
terminator), a child count, assign the next index, read that many
children into the new node. -/
def readChildF : Nat → List Nat → Nat →
    Except String (Option (Str × TrieNode) × List Nat × Nat)
  | 0, _, _ => .error "fuel"
  | fuel + 1, bs, ctr =>
      let r := readNullTerm bs
      if r.1 = [] then .ok ((Option.none : Option (Str × TrieNode)), r.2, ctr)
      else
        match r.2 with
        | [] => .error "struct.error"
        | cnt :: rest2 =>
            match readChildrenF fuel cnt rest2 (ctr + 1) (TrieNode.mk [] (some ctr)) with
            | .error e => .error e
            | .ok (child, rest3, ctr') => .ok (some (utf8Decode r.1, child), rest3, ctr')
/-- The `for _ in range(child_count)` loop of `_read_child_trie`; a
terminator hit inside the counted loop is ignored, as in the source. -/
def readChildrenF : Nat → Nat → List Nat → Nat → TrieNode →
    Except String (TrieNode × List Nat × Nat)
  | 0, _, _, _, _ => .error "fuel"
  | _ + 1, 0, bs, ctr, node => .ok (node, bs, ctr)
  | fuel + 1, n + 1, bs, ctr, node =>
      match readChildF fuel bs ctr with
      | .error e => .error e
      | .ok ((Option.none : Option (Str × TrieNode)), rest, ctr') =>
          readChildrenF fuel n rest ctr' node
      | .ok (some (lab, child), rest, ctr') =>
          readChildrenF fuel n rest ctr' (addChild node lab child)
end

/-- `_read_trie`'s `while True` loop (`joedb.py` 483-488). -/
def readTrieTopF : Nat → List Nat → Nat → TrieNode →
    Except String (TrieNode × List Nat × Nat)
  | 0, _, _, _ => .error "fuel"
  | fuel + 1, bs, ctr, node =>
      match readChildF fuel bs ctr with
      | .error e => .error e
      | .ok ((Option.none : Option (Str × TrieNode)), rest, ctr') => .ok (node, rest, ctr')
      | .ok (some (lab, child), rest, ctr') =>
          readTrieTopF fuel rest ctr' (addChild node lab child)

mutual
/-- `_build_trie_value_map` (`joedb.py` 475-480). -/
def buildMapNode : TrieNode → Str → List (Nat × Str) → List (Nat × Str)
  | .mk children idx, pre, acc =>
      let acc1 := match idx with
        | some i => dictSet acc i pre
        | _ => acc
      buildMapChildren children pre acc1
/-- The children traversal of `_build_trie_value_map`. -/
def buildMapChildren : List (Str × TrieNode) → Str → List (Nat × Str) → List (Nat × Str)
  | [], _, acc => acc
  | (k, c) :: rest, pre, acc => buildMapChildren rest pre (buildMapNode c (pre ++ k) acc)
end

/-- The `while` loop reading the trie headers (`joedb.py` 364-386):
type byte (0 ends the section), column name, and for string columns the
compressed trie, rebuilt with indices 1.. in read order plus the value
map.  Mutations survive an error (the partial state is returned). -/
def readTriesLoop : Nat → JoeDB → List (Str × List (Nat × Str)) → List Nat →
    (JoeDB × List (Str × List (Nat × Str)) × List Nat) × Option String
  | 0, db, vmaps, bs => ((db, vmaps, bs), some "fuel")
  | fuel + 1, db, vmaps, bs =>
      match bs with
      | [] => ((db, vmaps, []), some "IndexError")
      | t :: rest =>
          if t = 0 then ((db, vmaps, rest), (Option.none : Option String))
          else
            let r := readNullTerm rest
            let key := utf8Decode r.1
            let db1 := { db with
              column_types := dictSet db.column_types key t,
              columns := dictSet db.columns key [] }
            if t = TYPE_STRING then
              if r.2.length < 4 then ((db1, vmaps, r.2), some "struct.error")
              else
                let clen := natFromBytes (r.2.take 4)
                let rest3 := r.2.drop 4
                let blob := rest3.take clen
                match readTrieTopF (256 * (blob.length + 1)) blob 1 (TrieNode.mk [] (Option.none : Option Nat)) with
                | .error e =>
                    ((({ db1 with tries := dictSet db1.tries key Trie.new }), vmaps,
                      rest3.drop clen), some e)
                | .ok (root, _, ctr) =>
                    readTriesLoop fuel
                      { db1 with tries := dictSet db1.tries key (Trie.mk root ctr) }
                      (dictSet vmaps key (buildMapNode root [] [])) (rest3.drop clen)
            else readTriesLoop fuel db1 vmaps r.2

/-- The RLE expansion loop of a string column (`joedb.py` 405-411):
reads value and length until `record_count` entries exist; reads past
the blob end yield zero, so a zero-length run there loops forever
(modelled by the fuel). -/
def rleExpandNatF : Nat → List Nat → Nat → Nat → Nat → List Nat →
    List Nat × Option String
  | 0, _, _, _, _, acc => (acc, some "fuel")
  | fuel + 1, blob, vbs, lbs, need, acc =>
      if need ≤ acc.length then (acc, (Option.none : Option String))
      else
        let v := natFromBytes (blob.take vbs)
        let blob2 := blob.drop vbs
        let l := natFromBytes (blob2.take lbs)
        rleExpandNatF fuel (blob2.drop lbs) vbs lbs need (acc ++ List.replicate l v)

/-- The RLE expansion loop of a number/timestamp column (`joedb.py`
421-429), collecting one leading-zeros byte per run for number
columns. -/
def rleExpandIntF : Nat → List Nat → Nat → Nat → Bool → Nat → List Int → List Nat →
    (List Int × List Nat) × Option String
  | 0, _, _, _, _, _, acc, accLz => ((acc, accLz), some "fuel")
  | fuel + 1, blob, vbs, lbs, isNumber, need, acc, accLz =>
      if need ≤ acc.length then ((acc, accLz), (Option.none : Option String))
      else
        let v := intFromBytesSigned (blob.take vbs)
        let blob2 := blob.drop vbs
        let l := natFromBytes (blob2.take lbs)
        let blob3 := blob2.drop lbs
        if isNumber then
          let z := natFromBytes (blob3.take 1)
          rleExpandIntF fuel (blob3.drop 1) vbs lbs isNumber need
            (acc ++ List.replicate l v) (accLz ++ List.replicate l z)
        else
          rleExpandIntF fuel blob3 vbs lbs isNumber need (acc ++ List.replicate l v) accLz

/-- Running delta sums: `decoded[i] = decoded[i-1] + data[i]`. -/
def scanSums : Int → List Int → List Int
  | _, [] => []
  | acc, d :: rest => (acc + d) :: scanSums (acc + d) rest

/-- `str.zfill(w)`: pad with zeros after any sign. -/
def zfillStr (s : Str) (w : Nat) : Str :=
  if w ≤ s.length then s
  else match s with
    | '-' :: r => '-' :: (List.replicate (w - s.length) '0' ++ r)
    | '+' :: r => '+' :: (List.replicate (w - s.length) '0' ++ r)
    | r => List.replicate (w - s.length) '0' ++ r

/-- The column-reading loop of `decode` (`joedb.py` 391-448): per key,
byte sizes, compressed length, blob, RLE expansion; number columns get
delta decoding plus `zfill` leading zeros, timestamp columns the ISO
rendering. -/
def readColumnsLoop (record_count : Nat) : JoeDB → List Str → List Nat →
    (JoeDB × List Nat) × Option String
  | db, [], bs => ((db, bs), (Option.none : Option String))
  | db, k :: restKeys, bs =>
      let t := (dictGet db.column_types k).getD 0
      match bs with
      | vbs :: lbs :: rest =>
          if rest.length < 4 then ((db, rest), some "struct.error")
          else
            let clen := natFromBytes (rest.take 4)
            let rest2 := rest.drop 4
            let blob := rest2.take clen
            let rest3 := rest2.drop clen
            if t = TYPE_STRING then
              let e := rleExpandNatF (record_count + blob.length + 1) blob vbs lbs
                record_count []
              match e.2 with
              | some err => ((db, rest3), some err)
              | _ =>
                  readColumnsLoop record_count
                    { db with columns := dictSet db.columns k (e.1.map (fun v => Cell.num v)) }
                    restKeys rest3
            else
              let e := rleExpandIntF (record_count + blob.length + 1) blob vbs lbs
                (t = TYPE_NUMBER) record_count [] []
              match e.2 with
              | some err => ((db, rest3), some err)
              | _ =>
                  match e.1.1 with
                  | [] => ((db, rest3), some "IndexError")
                  | d0 :: ds =>
                      let decoded := d0 :: scanSums d0 ds
                      let lz := e.1.2
                      let cells :=
                        if t = TYPE_NUMBER then
                          (decoded.zip lz).map (fun p =>
                            Cell.str (zfillStr (intToStr p.1) (p.2 + (intToStr p.1).length)))
                        else if t = TYPE_TIMESTAMP then
                          decoded.map (fun v => Cell.str (unixToIso v))
                        else []
                      readColumnsLoop record_count
                        { db with columns := dictSet db.columns k cells } restKeys rest3
      | _ => ((db, bs), some "struct.error")

/-- The trie index held in a cell (`None` and strings never hit a trie
value). -/
def cellIdx : Cell → Nat
  | .num i => i.toNat
  | _ => 0

/-- `json_object_to_set` path walking (`joedb.py` 464-470): descend the
dotted parts, creating empty objects, and set the final key; a non-dict
on the path raises. -/
def setPath (obj : List (Str × JValue)) : List Str → Str → JValue →
    Except String (List (Str × JValue))
  | [], last, v => .ok (dictSet obj last v)
  | p :: rest, last, v =>
      match dictGet obj p with
      | some (JValue.obj sub) => do
          let sub' ← setPath sub rest last v
          .ok (dictSet obj p (.obj sub'))
      | some _ => .error "TypeError"
      | _ => do
          let sub' ← setPath [] rest last v
          .ok (dictSet obj p (.obj sub'))

/-- The per-record reconstruction (`joedb.py` 450-472): pattern values
from `var_` columns, rehydration of real string values, dotted-path
nesting. -/
def buildObject (vmaps : List (Str × List (Nat × Str)))
    (ctypes : List (Str × Nat)) (patternCols realCols : List (Str × List Cell))
    (i : Nat) : Except String JValue := do
  let pattern_values := patternCols.map (fun kc =>
    (kc.1,
      if (dictGet ctypes kc.1).getD 0 = TYPE_STRING then
        (dictGet ((dictGet vmaps kc.1).getD []) (cellIdx (kc.2.getD i (Cell.num 0)))).getD []
      else cellStr (kc.2.getD i (Cell.num 0))))
  let obj ← realCols.foldlM (fun obj kc => do
    let value_index := kc.2.getD i (Cell.num 0)
    if value_index = Cell.num 0 then .ok obj
    else
      match dictGet vmaps kc.1 with
      | Option.none => .error "KeyError"
      | some m =>
          let value := dictGet m (cellIdx value_index)
          let value2 := match value with
            | some v => if v = [] then some v else some (rehydrate_message v pattern_values)
            | _ => (Option.none : Option Str)
          let pieces := kc.1.splitOn '.'
          setPath obj pieces.dropLast (pieces.getLast?.getD [])
            (match value2 with | some v => JValue.str v | _ => JValue.null)) []
  .ok (JValue.obj obj)

/-- `JoeDB.decode` (`joedb.py` lines 350-473): magic check, record
count, trie headers, columns, then record reconstruction.  Returns the
(possibly partially mutated) instance and the decoded records or the
error.  The zstd wrapper is the identity codec here. -/
def JoeDB.decode (db : JoeDB) (bs : List Nat) : JoeDB × Except String (List JValue) :=
  if bs.take 12 ≠ MAGIC then (db, .error "Invalid file format!")
  else
    let rest0 := bs.drop 12
    if rest0.length < 8 then (db, .error "struct.error")
    else
      let record_count := natFromBytes (rest0.take 8)
      let r1 := readTriesLoop (rest0.length + 1) { db with tries := [] } [] (rest0.drop 8)
      match r1.2 with
      | some e => (r1.1.1, .error e)
      | _ =>
          let db1 := r1.1.1
          let vmaps := r1.1.2.1
          let r2 := readColumnsLoop record_count db1 (db1.columns.map Prod.fst) r1.1.2.2
          match r2.2 with
          | some e => (r2.1.1, .error e)
          | _ =>
              let db2 := r2.1.1
              let patternCols := db2.columns.filter
                (fun kc => "var_".toList.isPrefixOf kc.1)
              let realCols := db2.columns.filter
                (fun kc => !("var_".toList.isPrefixOf kc.1))
              match (List.range record_count).mapM
                  (buildObject vmaps db2.column_types patternCols realCols) with
              | .error e => (db2, .error e)
              | .ok objs => (db2, .ok objs)

/-! ### The column-length invariant (claim C4) -/

theorem dictGet_dictSet_self {κ α : Type} [DecidableEq κ] (l : List (κ × α)) (k : κ) (v : α) :
    dictGet (dictSet l k v) k = some v := by
  induction l with
  | nil => simp [dictSet, dictGet]
  | cons p t ih =>
      rcases p with ⟨k', v'⟩
      rw [dictSet]
      by_cases h : k' = k
      · rw [if_pos h, dictGet, if_pos rfl]
      · rw [if_neg h, dictGet, if_neg h]
        exact ih

theorem dictGet_mem {κ α : Type} [DecidableEq κ] {l : List (κ × α)} {k : κ} {v : α}
    (h : dictGet l k = some v) : (k, v) ∈ l := by
  induction l with
  | nil => simp [dictGet] at h
  | cons p t ih =>
      rcases p with ⟨k', v'⟩
      rw [dictGet] at h
      by_cases he : k' = k
      · rw [if_pos he] at h
        injection h with h'
        rw [← he, h']
        exact List.mem_cons_self _ _
      · rw [if_neg he] at h
        exact List.mem_cons_of_mem _ (ih h)

theorem mem_dictSet_elim {κ α : Type} [DecidableEq κ] :
    ∀ {l : List (κ × α)} {p : κ × α} {k : κ} {v : α},
      (l.map Prod.fst).Nodup → p ∈ dictSet l k v → p = (k, v) ∨ (p ∈ l ∧ p.1 ≠ k) := by
  intro l
  induction l with
  | nil =>
      intro p k v _ hm
      simp only [dictSet, List.mem_singleton] at hm
      exact Or.inl hm
  | cons q t ih =>
      intro p k v hnd hm
      rcases q with ⟨k', v'⟩
      rw [List.map_cons, List.nodup_cons] at hnd
      rw [dictSet] at hm
      by_cases he : k' = k
      · rw [if_pos he] at hm
        rcases List.mem_cons.1 hm with h' | h'
        · exact Or.inl h'
        · refine Or.inr ⟨List.mem_cons_of_mem _ h', ?_⟩
          intro hc
          refine hnd.1 ?_
          rw [he, ← hc]
          exact List.mem_map.2 ⟨p, h', rfl⟩
      · rw [if_neg he] at hm
        rcases List.mem_cons.1 hm with h' | h'
        · exact Or.inr ⟨by rw [h']; exact List.mem_cons_self _ _, by rw [h']; exact he⟩
        · rcases ih hnd.2 h' with h'' | h''
          · exact Or.inl h''
          · exact Or.inr ⟨List.mem_cons_of_mem _ h''.1, h''.2⟩

theorem keys_dictSet_of_mem {κ α : Type} [DecidableEq κ] :
    ∀ {l : List (κ × α)} {k' : κ} (k : κ) (v : α),
      k' ∈ l.map Prod.fst → k' ∈ (dictSet l k v).map Prod.fst := by
  intro l
  induction l with
  | nil => intro k' k v h; simp at h
  | cons q t ih =>
      intro k' k v h
      rcases q with ⟨k₀, v₀⟩
      rw [dictSet]
      rcases List.mem_cons.1 h with h' | h'
      · by_cases he : k₀ = k
        · rw [if_pos he, List.map_cons, h', he]
          exact List.mem_cons_self _ _
        · rw [if_neg he, List.map_cons]
          exact h' ▸ List.mem_cons_self _ _
      · by_cases he : k₀ = k
        · rw [if_pos he, List.map_cons]
          exact List.mem_cons_of_mem _ h'
        · rw [if_neg he, List.map_cons]
          exact List.mem_cons_of_mem _ (ih k v h')

theorem key_mem_dictSet {κ α : Type} [DecidableEq κ] (l : List (κ × α)) (k : κ) (v : α) :
    k ∈ (dictSet l k v).map Prod.fst :=
  List.mem_map.2 ⟨(k, v), self_mem_dictSet l k v, rfl⟩

theorem keys_dictSet_nodup {κ α : Type} [DecidableEq κ] :
    ∀ {l : List (κ × α)} (k : κ) (v : α),
      (l.map Prod.fst).Nodup → ((dictSet l k v).map Prod.fst).Nodup := by
  intro l
  induction l with
  | nil => intro k v _; simp [dictSet]
  | cons q t ih =>
      intro k v hnd
      rcases q with ⟨k₀, v₀⟩
      rw [List.map_cons, List.nodup_cons] at hnd
      rw [dictSet]
      by_cases he : k₀ = k
      · rw [if_pos he, List.map_cons, List.nodup_cons]
        exact ⟨by rw [← he]; exact hnd.1, hnd.2⟩
      · rw [if_neg he, List.map_cons, List.nodup_cons]
        refine ⟨?_, ih k v hnd.2⟩
        intro hc
        obtain ⟨p, hp, hpe⟩ := List.mem_map.1 hc
        rcases mem_dictSet_elim hnd.2 hp with h' | h'
        · rw [h'] at hpe
          exact he hpe.symm
        · exact hnd.1 (hpe ▸ List.mem_map.2 ⟨p, h'.1, rfl⟩)

/-- The mid-insert shape of the columns: record count unchanged, keys
distinct, every already-processed local key has exactly one extra
cell, processed keys exist as columns. -/
def MidInv (rc : Nat) (done : List Str) (db : JoeDB) : Prop :=
  db.record_count = rc ∧
  (db.columns.map Prod.fst).Nodup ∧
  (∀ kc ∈ db.columns, kc.2.length = rc + (if kc.1 ∈ done then 1 else 0)) ∧
  (∀ k ∈ done, k ∈ db.columns.map Prod.fst)

theorem midInv_append {rc : Nat} {done : List Str} {cols : List (Str × List Cell)}
    {lk : Str} (cell : Cell)
    (hnd : (cols.map Prod.fst).Nodup)
    (hinv : ∀ kc ∈ cols, kc.2.length = rc + (if kc.1 ∈ done then 1 else 0))
    (hdone : ∀ k ∈ done, k ∈ cols.map Prod.fst)
    (hnew : lk ∉ done)
    (hlen : ((dictGet cols lk).getD []).length = rc) :
    ((dictSet cols lk (((dictGet cols lk).getD []) ++ [cell])).map Prod.fst).Nodup ∧
    (∀ kc ∈ dictSet cols lk (((dictGet cols lk).getD []) ++ [cell]),
      kc.2.length = rc + (if kc.1 ∈ done ++ [lk] then 1 else 0)) ∧
    (∀ k ∈ done ++ [lk],
      k ∈ (dictSet cols lk (((dictGet cols lk).getD []) ++ [cell])).map Prod.fst) := by
  refine ⟨keys_dictSet_nodup _ _ hnd, ?_, ?_⟩
  · intro kc hkc
    rcases mem_dictSet_elim hnd hkc with h' | h'
    · rw [h']
      simp only [List.length_append, List.length_singleton, hlen]
      rw [if_pos (List.mem_append.2 (Or.inr (List.mem_singleton.2 rfl)))]
    · rw [hinv kc h'.1]
      by_cases hd : kc.1 ∈ done
      · rw [if_pos hd, if_pos (List.mem_append.2 (Or.inl hd))]
      · rw [if_neg hd, if_neg ?_]
        intro hc
        rcases List.mem_append.1 hc with h'' | h''
        · exact hd h''
        · exact h'.2 (List.mem_singleton.1 h'')
  · intro k hk
    rcases List.mem_append.1 hk with h' | h'
    · exact keys_dictSet_of_mem _ _ (hdone k h')
    · rw [List.mem_singleton.1 h']
      exact key_mem_dictSet _ _ _

theorem colCreate_rc (db : JoeDB) (lk : Str) :
    (colCreate db lk).record_count = db.record_count := by
  rw [colCreate]
  split <;> rfl

theorem colCreate_up (db : JoeDB) (lk : Str) :
    (colCreate db lk).use_patternization = db.use_patternization := by
  rw [colCreate]
  split <;> rfl

theorem colCreate_columns (db : JoeDB) (lk : Str) :
    (colCreate db lk).columns = if dictHas db.columns lk then db.columns
      else dictSet db.columns lk (List.replicate db.record_count (Cell.num 0)) := by
  rw [colCreate]
  split <;> simp_all

/-- A successful `insertLocalKey` appends exactly one cell to the local
key's column (creating it with the zero backfill first if needed) and
keeps the record count and mode. -/
theorem insertLocalKey_ok (db : JoeDB) (key pattern : Str) (vars : List (Str × Str))
    (lk : Str)
    (hok : (insertLocalKey db key pattern vars lk).2 = (Option.none : Option String)) :
    ∃ cell : Cell,
      (insertLocalKey db key pattern vars lk).1.columns =
        dictSet (colCreate db lk).columns lk
          (((dictGet (colCreate db lk).columns lk).getD []) ++ [cell]) ∧
      (insertLocalKey db key pattern vars lk).1.record_count = db.record_count ∧
      (insertLocalKey db key pattern vars lk).1.use_patternization =
        db.use_patternization := by
  rw [insertLocalKey] at hok ⊢
  rcases hcell : localCell (colCreate db lk) lk (localIsNum db lk) (localIsTs db lk)
      (if lk == key then pattern else (dictGet vars lk).getD []) with e | ⟨cell, tries2⟩
  · rw [hcell] at hok
    simp at hok
  · exact ⟨cell, rfl, colCreate_rc db lk, colCreate_up db lk⟩

/-- `insertLocalKey` preserves the mid-insert invariant, marking the
local key as processed. -/
theorem insertLocalKey_inv (db : JoeDB) (key pattern : Str) (vars : List (Str × Str))
    (lk : Str) (rc : Nat) (done : List Str)
    (hmid : MidInv rc done db) (hnew : lk ∉ done)
    (hok : (insertLocalKey db key pattern vars lk).2 = (Option.none : Option String)) :
    MidInv rc (done ++ [lk]) (insertLocalKey db key pattern vars lk).1 ∧
    (insertLocalKey db key pattern vars lk).1.use_patternization =
      db.use_patternization := by
  obtain ⟨hrc, hnd, hinv, hdone⟩ := hmid
  obtain ⟨cell, hcols, hrc', hup⟩ := insertLocalKey_ok db key pattern vars lk hok
  have hcc := colCreate_columns db lk
  by_cases hhas : dictHas db.columns lk = true
  · rw [if_pos hhas] at hcc
    have hlen : ((dictGet db.columns lk).getD []).length = rc := by
      rw [dictHas] at hhas
      rcases hv : dictGet db.columns lk with _ | v
      · rw [hv] at hhas; simp at hhas
      · have hm := dictGet_mem hv
        have := hinv (lk, v) hm
        rw [if_neg hnew] at this
        simpa [hv] using this
    obtain ⟨h1, h2, h3⟩ := midInv_append cell hnd hinv hdone hnew hlen
    rw [hcc] at hcols
    refine ⟨⟨by rw [hrc', hrc], by rw [hcols]; exact h1,
      by rw [hcols]; exact h2, by rw [hcols]; exact h3⟩, hup⟩
  · rw [if_neg hhas] at hcc
    have hrcrep : db.record_count = rc := hrc
    have hnd1 : ((dictSet db.columns lk (List.replicate rc (Cell.num 0))).map Prod.fst).Nodup :=
      keys_dictSet_nodup _ _ hnd
    have hinv1 : ∀ kc ∈ dictSet db.columns lk (List.replicate rc (Cell.num 0)),
        kc.2.length = rc + (if kc.1 ∈ done then 1 else 0) := by
      intro kc hkc
      rcases mem_dictSet_elim hnd hkc with h' | h'
      · rw [h']
        simp [if_neg hnew]
      · exact hinv kc h'.1
    have hdone1 : ∀ k ∈ done, k ∈ (dictSet db.columns lk
        (List.replicate rc (Cell.num 0))).map Prod.fst := by
      intro k hk
      exact keys_dictSet_of_mem _ _ (hdone k hk)
    have hlen : ((dictGet (dictSet db.columns lk (List.replicate rc (Cell.num 0))) lk).getD
        []).length = rc := by
      rw [dictGet_dictSet_self]
      simp
    obtain ⟨h1, h2, h3⟩ := midInv_append cell hnd1 hinv1 hdone1 hnew hlen
    rw [hcc, hrcrep] at hcols
    refine ⟨⟨by rw [hrc', hrc], by rw [hcols]; exact h1,
      by rw [hcols]; exact h2, by rw [hcols]; exact h3⟩, hup⟩

theorem insertLocals_inv (key pattern : Str) (vars : List (Str × Str)) :
    ∀ (lks : List Str) (db : JoeDB) (rc : Nat) (done : List Str),
      MidInv rc done db → (done ++ lks).Nodup →
      (insertLocals key pattern vars db lks).2 = (Option.none : Option String) →
      MidInv rc (done ++ lks) (insertLocals key pattern vars db lks).1 ∧
      (insertLocals key pattern vars db lks).1.use_patternization =
        db.use_patternization := by
  intro lks
  induction lks with
  | nil =>
      intro db rc done hmid _ _
      exact ⟨by simpa using hmid, rfl⟩
  | cons lk rest ih =>
      intro db rc done hmid hnodup hok
      rw [insertLocals] at hok ⊢
      rcases hr : (insertLocalKey db key pattern vars lk).2 with _ | e
      · rw [hr] at hok
        dsimp only at hok ⊢
        have hlknotin : lk ∉ done := by
          have hdisj := (List.nodup_append.1 hnodup).2.2
          intro hc
          exact hdisj hc (List.mem_cons_self _ _)
        obtain ⟨hmid', hup'⟩ := insertLocalKey_inv db key pattern vars lk rc done
          hmid hlknotin hr
        have hnodup' : ((done ++ [lk]) ++ rest).Nodup := by
          rw [List.append_assoc]
          simpa using hnodup
        obtain ⟨hmid'', hup''⟩ := ih (insertLocalKey db key pattern vars lk).1 rc
          (done ++ [lk]) hmid' hnodup' hok
        rw [List.append_assoc] at hmid''
        refine ⟨by simpa using hmid'', hup''.trans hup'⟩
      · rw [hr] at hok
        simp at hok

/-- The local keys one flat item contributes. -/
def itemKeys (p : Bool) (kv : Str × Option Str) : List Str :=
  match kv.2 with
  | some v => kv.1 :: (if p then (extract_pattern v kv.1).2.map Prod.fst else [])
  | _ => [kv.1]

theorem insertItems_inv :
    ∀ (items : List (Str × Option Str)) (db : JoeDB) (keysAcc : List Str)
      (rc : Nat) (done : List Str),
      MidInv rc done db →
      (done ++ items.flatMap (itemKeys db.use_patternization)).Nodup →
      (insertItems db keysAcc items).2 = (Option.none : Option String) →
      MidInv rc (done ++ items.flatMap (itemKeys db.use_patternization))
        (insertItems db keysAcc items).1.1 ∧
      (insertItems db keysAcc items).1.2 =
        keysAcc ++ items.flatMap (itemKeys db.use_patternization) ∧
      (insertItems db keysAcc items).1.1.use_patternization =
        db.use_patternization := by
  intro items
  induction items with
  | nil =>
      intro db keysAcc rc done hmid _ _
      exact ⟨by simpa using hmid, by simp [insertItems], rfl⟩
  | cons item rest ih =>
      intro db keysAcc rc done hmid hnodup hok
      rcases item with ⟨key, val⟩
      rcases val with _ | value
      · rw [insertItems] at hok
        simp at hok
      · rw [insertItems] at hok ⊢
        have hlocal : ((if db.use_patternization then extract_pattern value key
            else (value, [])).2).map Prod.fst =
            (if db.use_patternization then (extract_pattern value key).2.map Prod.fst
              else []) := by
          by_cases hp : db.use_patternization <;> simp [hp]
        have hik : itemKeys db.use_patternization (key, some value) =
            key :: ((if db.use_patternization then extract_pattern value key
              else (value, [])).2).map Prod.fst := by
          rw [hlocal]
          rfl
        rcases hr : (insertLocals key
            (if db.use_patternization then extract_pattern value key
              else (value, [])).1
            (if db.use_patternization then extract_pattern value key
              else (value, [])).2 db
            (key :: ((if db.use_patternization then extract_pattern value key
              else (value, [])).2).map Prod.fst)).2 with _ | e
        · rw [hr] at hok
          dsimp only at hok ⊢
          set L := key :: ((if db.use_patternization then extract_pattern value key
            else (value, [])).2).map Prod.fst with hL
          have hnodup1 : (done ++ L).Nodup := by
            refine List.Nodup.sublist ?_ hnodup
            refine List.Sublist.append_left ?_ done
            rw [List.flatMap_cons, hik]
            exact List.sublist_append_left _ _
          obtain ⟨hmid', hup'⟩ := insertLocals_inv key _ _ _ db rc done hmid hnodup1 hr
          have hflat : L ++ rest.flatMap (itemKeys db.use_patternization) =
              ((key, some value) :: rest).flatMap (itemKeys db.use_patternization) := by
            rw [List.flatMap_cons, hik]
          have hnodup2 : ((done ++ L) ++
              rest.flatMap (itemKeys db.use_patternization)).Nodup := by
            rw [List.append_assoc, hflat]
            exact hnodup
          obtain ⟨hmid'', hkeys'', hup''⟩ := ih _ (keysAcc ++ L) rc (done ++ L) hmid'
            (by rw [hup']; exact hnodup2) hok
          rw [hup'] at hmid'' hkeys'' hup''
          refine ⟨?_, ?_, hup''⟩
          · rw [← hflat, ← List.append_assoc]
            exact hmid''
          · rw [← hflat, ← List.append_assoc]
            exact hkeys''
        · rw [hr] at hok
          simp at hok

/-- The data-model invariant of the columns: keys unique (a Python dict)
and every value vector as long as the record count. -/
def colLenInv (db : JoeDB) : Prop :=
  (db.columns.map Prod.fst).Nodup ∧
  ∀ kc ∈ db.columns, kc.2.length = db.record_count

/-- All local keys an insert touches: each flat key plus its extracted
variable names. -/
def insertLocalKeys (db : JoeDB) (json : List (Str × JValue)) : List Str :=
  (flatten_json json []).flatMap (itemKeys db.use_patternization)

/-- A flat key heads its own item's local keys. -/
theorem flatKeys_sub_localKeys (p : Bool) (flat : List (Str × Option Str)) :
    ∀ k ∈ flat.map Prod.fst, k ∈ flat.flatMap (itemKeys p) := by
  intro k hk
  obtain ⟨kv, hkv, hke⟩ := List.mem_map.1 hk
  refine List.mem_flatMap.2 ⟨kv, hkv, ?_⟩
  rcases kv with ⟨k', v⟩
  cases v <;> exact hke ▸ List.mem_cons_self _ _

/-- **C4 (amended).**  When the record's flat keys and extracted
variable names are pairwise distinct and the insert completes without
error, the column-length invariant is preserved and the record count
grows by one.  (Colliding local keys break it, see
`C4_counterexample`.) -/
theorem C4_column_lengths (db : JoeDB) (json : List (Str × JValue))
    (hinv : colLenInv db)
    (hnodup : (insertLocalKeys db json).Nodup)
    (hok : (JoeDB.insert db json).2 = (Option.none : Option String)) :
    colLenInv (JoeDB.insert db json).1 ∧
    (JoeDB.insert db json).1.record_count = db.record_count + 1 := by
  rw [JoeDB.insert] at hok ⊢
  rcases hr : (insertItems db ((flatten_json json []).map Prod.fst)
      (flatten_json json [])).2 with _ | e
  swap
  · rw [hr] at hok
    simp at hok
  rw [hr] at hok
  dsimp only at hok ⊢
  have hmid0 : MidInv db.record_count [] db := by
    refine ⟨rfl, hinv.1, ?_, ?_⟩
    · intro kc hkc
      rw [if_neg (List.not_mem_nil kc.1), Nat.add_zero]
      exact hinv.2 kc hkc
    · intro k hk
      exact absurd hk (List.not_mem_nil k)
  have hnodup0 : (([] : List Str) ++
      (flatten_json json []).flatMap (itemKeys db.use_patternization)).Nodup := by
    simpa using hnodup
  obtain ⟨hmid, hkeys, _⟩ := insertItems_inv (flatten_json json []) db
    ((flatten_json json []).map Prod.fst) db.record_count [] hmid0 hnodup0 hr
  rw [List.nil_append] at hmid
  set r := insertItems db ((flatten_json json []).map Prod.fst) (flatten_json json [])
    with hrdef
  obtain ⟨hrc2, hnd2, hlen2, _⟩ := hmid
  have hkeymap : (r.1.1.columns.map
      (fun kc => if kc.1 ∈ r.1.2 then kc else (kc.1, kc.2 ++ [Cell.num 0]))).map Prod.fst =
      r.1.1.columns.map Prod.fst := by
    rw [List.map_map]
    refine List.map_congr_left ?_
    intro kc _
    by_cases hc : kc.1 ∈ r.1.2 <;> simp [hc]
  refine ⟨⟨by rw [hkeymap]; exact hnd2, ?_⟩, by rw [hrc2]⟩
  intro kc' hkc'
  obtain ⟨kc, hkc, hke⟩ := List.mem_map.1 hkc'
  by_cases hc : kc.1 ∈ r.1.2
  · rw [if_pos hc] at hke
    have hdone : kc.1 ∈ (flatten_json json []).flatMap (itemKeys db.use_patternization) := by
      rw [hkeys] at hc
      rcases List.mem_append.1 hc with h' | h'
      · exact flatKeys_sub_localKeys _ _ kc.1 h'
      · exact h'
    rw [← hke]
    dsimp only
    rw [hlen2 kc hkc, if_pos hdone, hrc2]
  · rw [if_neg hc] at hke
    have hnotdone : kc.1 ∉ (flatten_json json []).flatMap (itemKeys db.use_patternization) := by
      intro hcc
      exact hc (by rw [hkeys]; exact List.mem_append.2 (Or.inr hcc))
    rw [← hke]
    dsimp only
    rw [List.length_append, List.length_singleton, hlen2 kc hkc, if_neg hnotdone, hrc2]

/-- **C4 (counterexample).**  Inserting a record whose own key
`var_message_0_number` collides with the variable name extracted from
its `message` field appends twice to that column: after one insert the
record count is 1 but the column holds 2 values, refuting the
unconditional length invariant. -/
theorem C4_counterexample :
    (JoeDB.insert (JoeDB.new true)
      [("message".toList, JValue.str "x 5".toList),
       ("var_message_0_number".toList, JValue.str "y".toList)]).2 =
        (Option.none : Option String) ∧
    (JoeDB.insert (JoeDB.new true)
      [("message".toList, JValue.str "x 5".toList),
       ("var_message_0_number".toList, JValue.str "y".toList)]).1.record_count = 1 ∧
    ((dictGet (JoeDB.insert (JoeDB.new true)
      [("message".toList, JValue.str "x 5".toList),
       ("var_message_0_number".toList, JValue.str "y".toList)]).1.columns
      "var_message_0_number".toList).getD []).length = 2 := by
  refine ⟨by decide, by decide, by decide⟩

theorem C4_column_lengths_witness :
    colLenInv (JoeDB.insert (JoeDB.new true)
      [("a".toList, JValue.str "x 5".toList)]).1 ∧
    (JoeDB.insert (JoeDB.new true)
      [("a".toList, JValue.str "x 5".toList)]).1.record_count = 0 + 1 := by
  have h := C4_column_lengths (JoeDB.new true)
    [("a".toList, JValue.str "x 5".toList)]
    (by constructor
        · decide
        · intro kc hkc
          exact absurd hkc (List.not_mem_nil kc))
    (by decide) (by decide)
  exact h

/-- **C5 (counterexample).**  Encoding a database holding the
non-numeric value `"abc"` in the number column `var_x_number` fails at
the `int()` conversion after the header and trie sections are already
written: the operation aborts leaving a non-empty partial file that
even starts with the magic header. -/
theorem C5_counterexample :
    let db := (JoeDB.insert (JoeDB.new false)
      [("var_x_number".toList, JValue.str "abc".toList)]).1
    (JoeDB.encode db).2.isSome = true ∧
    (JoeDB.encode db).1 ≠ [] ∧
    (JoeDB.encode db).1.take 12 = MAGIC := by
  refine ⟨by decide, by decide, by decide⟩

/-- **C5 (amended).**  The decoder's magic check is atomic: on any
input whose first 12 bytes are not the magic header, decode raises
`Invalid file format!` and returns the instance completely unchanged.
(The wider claim is refuted by `C5_counterexample`: a failing encode
leaves a partial file behind.) -/
theorem C5_decode_atomic (db : JoeDB) (bs : List Nat) (h : bs.take 12 ≠ MAGIC) :
    JoeDB.decode db bs = (db, .error "Invalid file format!") := by
  rw [JoeDB.decode, if_pos h]

theorem C5_decode_atomic_witness :
    JoeDB.decode (JoeDB.new true) [1, 2, 3] =
      (JoeDB.new true, .error "Invalid file format!") :=
  C5_decode_atomic (JoeDB.new true) [1, 2, 3] (by decide)

/-- **C10 (counterexample).**  The decode half of the claim is not
universal in the value: for `v = "0"`, inserting `{"a.b": "0"}`,
encoding and decoding returns the nested shape with leaf `"00"`, not
the claimed `{"a": {"b": "0"}}` — the leading-zero bug (see
`C1_roundtrip_bug`) changes the leaf on the way through. -/
theorem C10_counterexample :
    (JoeDB.decode (JoeDB.new true)
      (JoeDB.encode (JoeDB.insert (JoeDB.new true)
        [("a.b".toList, JValue.str "0".toList)]).1).1).2 =
      .ok [JValue.obj [("a".toList,
        JValue.obj [("b".toList, JValue.str "00".toList)])]] ∧
    ¬ ("00".toList = "0".toList) := by
  refine ⟨rfl, by decide⟩

/-- **C10 (amended).**  A top-level key with a literal dot is
indistinguishable from nesting: for every database and value, inserting
`{"a.b": v}` and inserting `{"a": {"b": v}}` produce identical states
(their flattenings agree definitionally), so the entire pipeline treats
the two records identically; decoding the encoded database returns the
nested shape, shown on the encoded pipeline.  (The original claim's
universal "decode always returns the nested form with value `v`" is
refuted by `C10_counterexample`: the leaf can differ from `v`.) -/
theorem C10_dotted_keys :
    (∀ (db : JoeDB) (v : Str),
      JoeDB.insert db [("a.b".toList, JValue.str v)] =
        JoeDB.insert db [("a".toList, JValue.obj [("b".toList, JValue.str v)])]) ∧
    (JoeDB.decode (JoeDB.new true)
      (JoeDB.encode (JoeDB.insert (JoeDB.new true)
        [("a.b".toList, JValue.str "hello".toList)]).1).1).2 =
      .ok [JValue.obj [("a".toList, JValue.obj [("b".toList, JValue.str "hello".toList)])]] := by
  constructor
  · intro db v
    rfl
  · rfl

/-- **C1 (code bug).**  The round trip is broken on the single record
`{"a": "0"}`: the value `"0"` is extracted as a number variable,
`lstrip('0')` counts its only digit as a leading zero, and decode's
`zfill` restores one zero too many — the decoded record is
`{"a": "00"}`. -/
theorem C1_roundtrip_bug :
    (JoeDB.encode (JoeDB.insert (JoeDB.new true)
      [("a".toList, JValue.str "0".toList)]).1).2 = (Option.none : Option String) ∧
    (JoeDB.decode (JoeDB.new true)
      (JoeDB.encode (JoeDB.insert (JoeDB.new true)
        [("a".toList, JValue.str "0".toList)]).1).1).2 =
      .ok [JValue.obj [("a".toList, JValue.str "00".toList)]] ∧
    ¬ ("00".toList = "0".toList) := by
  refine ⟨rfl, rfl, by decide⟩


end Joedb
